import Mathlib

/-!
# List ranking and prefix scan (`listrank/_medlistrank.h`, `listrank/scan.h`)

A shallow embedding of the two headers and a verification development over it.

Modelling conventions.

* An array (`L`, `D`, `succ`, `in_samp`, `not_head`, `samplist`, `A`, the scan's auxiliary
  array) is a function from the slot index to the stored value.  A freshly `malloc`ed block
  has arbitrary contents, so its initial contents are a parameter of the model.
* A `ListNode*` is `Option Nat`: `none` is `nullptr`, `some j` is the address of slot `j`
  of the array the pointer points into.
* Machine integers are `Nat` and `Int` with the wrap written out where the code can reach
  it: the assignment `in_samp[i] = i` of a `size_t` index to an `int` entry is the conversion
  `size_to_int` (modulo `2^32`, signed), the increment `samplist[k].rank++` is taken modulo
  `2^64` (`bumpRank`), and decrementing a `size_t` that is zero wraps (`size_dec`,
  `size_sub`).  The remaining counters and sums (`ctr`, `m`, the distances of
  `WyllieListRanking`, the `long` draw `rand() % n`) stay below the machine limits in every
  run considered and are not reduced.  With `T = int`, the only type for which
  `std::max(A[0],0)` compiles, the conversion `int -> size_t -> int` of `total` in
  `scan_inplace` is the identity and is left out; the sums of `scan_inplace` are exact
  integers.
* An `int` entry of `in_samp` is used as an index only where the code has tested it to be
  `≥ 0`, except in `&samplist[in_samp[head_index]]`; the model reads the index with
  `Int.toNat`, and every statement about the serial walks is made where `in_samp[head_index]`
  is `≥ 0`.
* The conversion of the `double` `sqrt(n)` to `long` is the integer square root `Nat.sqrt n`
  (exact for every `n` a list in memory can have).
* A `while` loop, and the recursion of `scan_up` / `scan_down`, takes a `fuel` argument and
  returns `none` when the fuel runs out: a loop that never ends returns `none` for every fuel.
* `parallel_for(0, n, body)` runs the `n` iterations one after the other in the order given
  by a schedule, a permutation of `0 .. n-1`; `par_do(f1, f2)` runs `f1` and then `f2`.
-/

namespace HW1

/-! ## Data model -/

/-- A node of the list: `next` is the successor pointer and `rank` the `size_t` rank field. -/
structure ListNode where
  next : Option Nat
  rank : Nat
deriving DecidableEq

/-- Node storage: the node held at each address. -/
abbrev Heap := Nat → ListNode

/-- Assignment `H[a].rank = r`. -/
def setRank (H : Heap) (a r : Nat) : Heap :=
  Function.update H a { H a with rank := r }

/-- Assignment `H[a].next = p`. -/
def setNext (H : Heap) (a : Nat) (p : Option Nat) : Heap :=
  Function.update H a { H a with next := p }

/-- The largest `size_t`. -/
def SIZE_MAX : Nat := 2 ^ 64 - 1

/-- The `size_t` decrement `--c`, which wraps at zero. -/
def size_dec (c : Nat) : Nat := if c = 0 then SIZE_MAX else c - 1

/-- The `size_t` subtraction `a -= b`, which wraps below zero. -/
def size_sub (a b : Nat) : Nat := if b ≤ a then a - b else a + 2 ^ 64 - b

/-- The ranks of the slots `0 .. n-1` of an array of nodes. -/
def ranksOf (L : Heap) (n : Nat) : List Nat := (List.range n).map (fun i => (L i).rank)

/-- The contents of the slots `0 .. n-1` of an array. -/
def readArr {α : Type} (A : Nat → α) (n : Nat) : List α := (List.range n).map A

/-- An array holding the elements of `l` in its first slots and `d` elsewhere. -/
def ofList {α : Type} (l : List α) (d : α) : Nat → α := fun i => l.getD i d

/-- The node array whose slot `i` has successor `nexts[i]` and the constructor's rank
`numeric_limits<size_t>::max()`. -/
def mkNodes (nexts : List (Option Nat)) : Heap :=
  fun i => { next := (nexts.getD i none), rank := SIZE_MAX }

/-- The node array of `n` nodes laid out in list order: slot `i` has successor slot `i + 1`,
the last slot has successor `nullptr`; every rank field holds the constructor's
`numeric_limits<size_t>::max()`. -/
def listOrderNodes (n : Nat) : Heap :=
  fun i => { next := if i + 1 < n then some (i + 1) else none, rank := SIZE_MAX }

/-- The list `ch` enumerates a chain of `H` from its head to its tail: the successor of each
entry is the following entry, and the last entry has successor `nullptr`. -/
def Linked (H : Heap) (ch : List Nat) : Prop :=
  ∀ k (h : k < ch.length), (H ch[k]).next = ch[k + 1]?

instance (H : Heap) (ch : List Nat) : Decidable (Linked H ch) := by
  unfold Linked; infer_instance

/-- An acyclic chain of nodes somewhere in memory, in list order `ch`, starting at `ch[0]`. -/
def ChainAt (H : Heap) (ch : List Nat) : Prop := ch ≠ [] ∧ ch.Nodup ∧ Linked H ch

/-- The array `L[0..n)` is a well-formed list: its `next` links form one chain `ch` that
passes through every slot exactly once (slots in any order relative to the chain). -/
def WellFormed (L : Heap) (n : Nat) (ch : List Nat) : Prop :=
  1 ≤ n ∧ ch.Perm (List.range n) ∧ Linked L ch

/-- A schedule of `parallel_for(0, n, body)`: an order in which the `n` iterations run. -/
def IsSchedule (n : Nat) (sched : List Nat) : Prop := sched.Perm (List.range n)

instance (H : Heap) (ch : List Nat) : Decidable (ChainAt H ch) := by
  unfold ChainAt; infer_instance

instance (L : Heap) (n : Nat) (ch : List Nat) : Decidable (WellFormed L n ch) := by
  unfold WellFormed; infer_instance

instance (n : Nat) (sched : List Nat) : Decidable (IsSchedule n sched) := by
  unfold IsSchedule; infer_instance

/-- A `parallel_for` whose body has no loop, run in the order `sched`. -/
def parallel_for {σ : Type} (sched : List Nat) (body : Nat → σ → σ) (s : σ) : σ :=
  sched.foldl (fun s i => body i s) s

/-- A `parallel_for` whose body contains a loop (so may run out of fuel), run in the order
`sched`. -/
def parallel_for_fuel {σ : Type} : List Nat → (Nat → σ → Option σ) → σ → Option σ
  | [], _, s => some s
  | i :: rest, body, s =>
    match body i s with
    | none => none
    | some s1 => parallel_for_fuel rest body s1

/-! ## `log2_up` -/

/-- The loop `while (b > 0) { b = b >> 1; a++; }` of `log2_up`. -/
def log2_up_loop : Nat → Nat → Nat → Option Nat
  | 0, _, _ => none
  | fuel + 1, b, a => if b > 0 then log2_up_loop fuel (b >>> 1) (a + 1) else some a

/-- Function `log2_up(i)`; the `assert(i > 0)` fails for `i = 0`. -/
def log2_up (fuel : Nat) (i : Nat) : Option Nat :=
  if i > 0 then log2_up_loop fuel (i - 1) 0 else none

/-! ## `SerialListRanking` -/

/-- First loop of `SerialListRanking`: `while (head != nullptr) { head = head->next; ++ctr; }`. -/
def SerialListRanking_count : Nat → Heap → Option Nat → Nat → Option Nat
  | 0, _, _, _ => none
  | _ + 1, _, none, ctr => some ctr
  | fuel + 1, H, some a, ctr => SerialListRanking_count fuel H (H a).next (ctr + 1)

/-- Second loop of `SerialListRanking`:
`while (head != nullptr) { head->rank = ctr; head = head->next; --ctr; }`. -/
def SerialListRanking_assign : Nat → Heap → Option Nat → Nat → Option Heap
  | 0, _, _, _ => none
  | _ + 1, H, none, _ => some H
  | fuel + 1, H, some a, ctr =>
    let H1 := setRank H a ctr
    SerialListRanking_assign fuel H1 (H1 a).next (size_dec ctr)

/-- Function `SerialListRanking(head)` on the node storage `H`; returns the storage it leaves. -/
def SerialListRanking (fuel : Nat) (H : Heap) (head : Option Nat) : Option Heap :=
  match SerialListRanking_count fuel H head 0 with
  | none => none
  | some ctr => SerialListRanking_assign fuel H head (size_dec ctr)

/-! ## `WyllieListRanking` -/

/-- The arrays of `WyllieListRanking`: the node array and the two double-buffered pairs. -/
structure WyllieState where
  L : Heap
  D : Nat → Nat
  Dprime : Nat → Nat
  succ : Nat → Option Nat
  succprime : Nat → Option Nat

/-- Lambda `v1`: initialise slot `i` of the four arrays and stash the index in `rank`. -/
def v1 (i : Nat) (s : WyllieState) : WyllieState :=
  let succ := Function.update s.succ i (s.L i).next
  let succprime := Function.update s.succprime i (succ i)
  let D := Function.update s.D i (if (s.L i).next = none then 0 else 1)
  let Dprime := Function.update s.Dprime i (D i)
  { L := setRank s.L i i, D := D, Dprime := Dprime, succ := succ, succprime := succprime }

/-- Lambda `v2`: one pointer jump for slot `i`, written to the primed buffers. -/
def v2 (i : Nat) (s : WyllieState) : WyllieState :=
  match s.succ i with
  | some p =>
    let Dprime := Function.update s.Dprime i (s.D i + s.D (s.L p).rank)
    let succprime := Function.update s.succprime i (s.succ (s.L p).rank)
    { s with Dprime := Dprime, succprime := succprime }
  | none =>
    let succprime := Function.update s.succprime i (s.succ i)
    let Dprime := Function.update s.Dprime i (s.D i)
    { s with Dprime := Dprime, succprime := succprime }

/-- The distance written by one simultaneous pointer jump: `D[i] + D[succ[i]]`, or `D[i]`
when `succ[i]` is null; `id q` is the index stored in the rank field of the node `q`. -/
def jumpD (D : Nat → Nat) (succ : Nat → Option Nat) (id : Nat → Nat) (i : Nat) : Nat :=
  match succ i with
  | some q => D i + D (id q)
  | none => D i

/-- The successor written by one simultaneous pointer jump: `succ[succ[i]]`, or null when
`succ[i]` is null. -/
def jumpS (succ : Nat → Option Nat) (id : Nat → Nat) (i : Nat) : Option Nat :=
  match succ i with
  | some q => succ (id q)
  | none => none

/-- The two `std::swap` calls that end a round. -/
def swapBuffers (s : WyllieState) : WyllieState :=
  { s with D := s.Dprime, Dprime := s.D, succ := s.succprime, succprime := s.succ }

/-- The pointer-jumping invariant after `k` rounds on the chain `ch` of the `n`-slot array
`L`: the links are those of `L`, every rank field holds its own index, and the node at chain
position `p` has `D = min(2^k, n-1-p)` and `succ` = the node `2^k` positions later (null if
there is none). -/
def JumpInv (L : Heap) (n : Nat) (ch : List Nat) (k : Nat) (s : WyllieState) : Prop :=
  (∀ a, (s.L a).next = (L a).next) ∧ (∀ i, i < n → (s.L i).rank = i) ∧
  ∀ p (hp : p < ch.length), s.D ch[p] = min (2 ^ k) (n - 1 - p) ∧ s.succ ch[p] = ch[p + 2 ^ k]?

/-- Lambda `v3`: copy `D[i]` into the rank field. -/
def v3 (i : Nat) (s : WyllieState) : WyllieState :=
  { s with L := setRank s.L i (s.D i) }

/-- The schedules of the parallel loops of `WyllieListRanking`. -/
structure WyllieSched where
  init : List Nat
  round : Nat → List Nat
  final : List Nat

/-- The state after the first `k` iterations of the `for (k < maxiter)` loop. -/
def wyllie_rounds (sched : Nat → List Nat) (s0 : WyllieState) : Nat → WyllieState
  | 0 => s0
  | k + 1 => swapBuffers (parallel_for (sched k) v2 (wyllie_rounds sched s0 k))

/-- Function `WyllieListRanking(L, n)`; `mem` holds `L` and the initial contents of the four
`malloc`ed arrays. -/
def WyllieListRanking (fuel : Nat) (sch : WyllieSched) (mem : WyllieState) (n : Nat) :
    Option WyllieState :=
  let s1 := parallel_for sch.init v1 mem
  match log2_up fuel n with
  | none => none
  | some maxiter =>
    let s2 := wyllie_rounds sch.round s1 maxiter
    some (parallel_for sch.final v3 s2)

/-! ## `SamplingBasedListRanking` -/

/-- The arrays and variables of `SamplingBasedListRanking`. -/
structure SampState where
  L : Heap
  in_samp : Nat → Int
  not_head : Nat → Bool
  head_index : Nat
  samplist : Heap

/-- Body of the loop `for (i < n) { L[i].rank = i; not_head[i] = false; }`. -/
def init_body (s : SampState) (i : Nat) : SampState :=
  { s with L := setRank s.L i i, not_head := Function.update s.not_head i false }

/-- The conversion `size_t -> int` in the assignment `in_samp[i] = i` (`in_samp` is an
`int*`, `i` a `size_t`): the value modulo `2^32`, read as a signed 32-bit integer. -/
def size_to_int (i : Nat) : Int :=
  if i % 2 ^ 32 < 2 ^ 31 then ((i % 2 ^ 32 : Nat) : Int)
  else ((i % 2 ^ 32 : Nat) : Int) - 2 ^ 32

/-- Lambda `gen_sample`; `draw i` is the value `rand()` returns in iteration `i`. -/
def gen_sample (n : Nat) (num_samples : Int) (draw : Nat → Nat) (i : Nat) (s : SampState) :
    SampState :=
  let rnd : Int := ((draw i % n : Nat) : Int)
  let in_samp := Function.update s.in_samp i (if rnd < num_samples then size_to_int i else -1)
  match (s.L i).next with
  | none => { s with in_samp := Function.update in_samp i (size_to_int i) }
  | some p => { s with in_samp := in_samp,
                       not_head := Function.update s.not_head (s.L p).rank true }

/-- The value `gen_sample` leaves in `in_samp[i]`: the index `i`, converted to `int`, for the
tail and for a node whose draw falls below the target, `-1` otherwise. -/
def drawn_in_samp (n : Nat) (num_samples : Int) (draw : Nat → Nat) (L : Heap) (i : Nat) : Int :=
  if (L i).next = none then size_to_int i
  else if ((draw i % n : Nat) : Int) < num_samples then size_to_int i else -1

/-- Lambda `include_head`. -/
def include_head (i : Nat) (s : SampState) : SampState :=
  if s.not_head i = false then
    { s with in_samp := Function.update s.in_samp i (size_to_int i), head_index := i }
  else s

/-- Statement `samplist[k].rank++`; the `size_t` field wraps at `2^64`. -/
def bumpRank (s : SampState) (k : Nat) : SampState :=
  { s with samplist := setRank s.samplist k (((s.samplist k).rank + 1) % 2 ^ 64) }

/-- The `while` loop of `build_list`; returns the state and the final `currnode`. -/
def build_list_loop : Nat → Nat → SampState → Option Nat → Option (SampState × Option Nat)
  | 0, _, _, _ => none
  | _ + 1, _, s, none => some (s, none)
  | fuel + 1, i, s, some p =>
    if s.in_samp (s.L p).rank < 0 then
      let s1 := bumpRank s (s.in_samp i).toNat
      build_list_loop fuel i s1 (s1.L p).next
    else some (s, some p)

/-- Lambda `build_list`. -/
def build_list (fuel : Nat) (i : Nat) (s : SampState) : Option SampState :=
  if s.in_samp i ≥ 0 then
    let currnode := (s.L i).next
    let s1 := if currnode ≠ none then bumpRank s (s.in_samp i).toNat else s
    match build_list_loop fuel i s1 currnode with
    | none => none
    | some (s2, none) => some s2
    | some (s2, some p) =>
      some { s2 with samplist := setNext s2.samplist (s2.in_samp i).toNat
                                   (some (s2.in_samp (s2.L p).rank).toNat) }
  else some s

/-- First walk over the sample list: `while (head != nullptr) { m++; ctr += head->rank;
head = head->next; }`; returns `(m, ctr)`. -/
def samp_walk1 : Nat → Heap → Option Nat → Nat → Nat → Option (Nat × Nat)
  | 0, _, _, _, _ => none
  | _ + 1, _, none, m, ctr => some (m, ctr)
  | fuel + 1, S, some a, m, ctr => samp_walk1 fuel S (S a).next (m + 1) (ctr + (S a).rank)

/-- Second walk over the sample list: `while (head != nullptr) { tmpval = head->rank;
head->rank = ctr; head = head->next; ctr -= tmpval; }`. -/
def samp_walk2 : Nat → Heap → Option Nat → Nat → Option Heap
  | 0, _, _, _ => none
  | _ + 1, S, none, _ => some S
  | fuel + 1, S, some a, ctr =>
    let tmpval := (S a).rank
    let S1 := setRank S a ctr
    samp_walk2 fuel S1 (S1 a).next (size_sub ctr tmpval)

/-- The sum of the rank fields stored in the entries `cs[k], cs[k+1], …` of the heap `S`. -/
def chainWeight (S : Heap) (cs : List Nat) (k : Nat) : Nat :=
  ((cs.drop k).map (fun a => (S a).rank)).sum

/-- The state reached by the sampling passes on the chain `ch` of the array `L[0..n)`, as far
as the later phases use it: the links are those of `L`, every rank field holds its own
index, a sampled node `i` (`in_samp[i] ≥ 0`) has `in_samp[i] = i`, the head is sampled and is
`head_index`, and the tail is sampled. -/
def SampleOK (L : Heap) (n : Nat) (ch : List Nat) (t : SampState) : Prop :=
  (∀ a, (t.L a).next = (L a).next) ∧ (∀ i, i < n → (t.L i).rank = i) ∧
  (∀ i, i < n → 0 ≤ t.in_samp i → t.in_samp i = (i : Int)) ∧
  (∀ hd, ch.head? = some hd → t.head_index = hd ∧ t.in_samp hd = (hd : Int)) ∧
  (∀ tl, ch.getLast? = some tl → t.in_samp tl = (tl : Int))

/-- The node at chain position `q` is the next sampled node after the one at position `p`:
`p < q`, the node at `q` is sampled and the nodes strictly between are not. -/
def NextSampled (in_samp : Nat → Int) (ch : List Nat) (p q : Nat) : Prop :=
  p < q ∧ q < ch.length ∧ 0 ≤ in_samp (ch.getD q 0) ∧
  ∀ j, p < j → j < q → in_samp (ch.getD j 0) < 0

/-- The `while` loop of `finalize_list`. -/
def finalize_list_loop : Nat → SampState → Option Nat → Nat → Option SampState
  | 0, _, _, _ => none
  | _ + 1, s, none, _ => some s
  | fuel + 1, s, some p, curr =>
    if s.in_samp (s.L p).rank < 0 then
      let curr1 := size_dec curr
      let s1 := { s with L := setRank s.L (s.L p).rank curr1 }
      finalize_list_loop fuel s1 (s1.L p).next curr1
    else some s

/-- Lambda `finalize_list`. -/
def finalize_list (fuel : Nat) (i : Nat) (s : SampState) : Option SampState :=
  if s.in_samp i ≥ 0 then
    let curr := (s.samplist (s.in_samp i).toNat).rank
    let s1 := { s with L := setRank s.L i curr }
    finalize_list_loop fuel s1 (s1.L i).next curr
  else some s

/-- The schedules of the four parallel loops of `SamplingBasedListRanking`. -/
structure SampSched where
  gen : List Nat
  incl : List Nat
  build : List Nat
  fin : List Nat

/-- The sample-count target: `if (num_samples == -1) num_samples = sqrt(n);`. -/
def sample_target (n : Nat) (num_samples : Int) : Int :=
  if num_samples = -1 then (Nat.sqrt n : Int) else num_samples

/-- Modelled from the spec's words (`⌈√n⌉`): `s` is the ceiling of the square root of `n`,
the least integer `s ≥ 0` with `s * s ≥ n`. -/
def IsCeilSqrt (n : Nat) (s : Int) : Prop :=
  0 ≤ s ∧ (n : Int) ≤ s * s ∧ ∀ t : Int, 0 ≤ t → (n : Int) ≤ t * t → s ≤ t

/-- The integer `s` is the floor of the square root of `n`: the greatest integer `s ≥ 0` with
`s * s ≤ n`. -/
def IsFloorSqrt (n : Nat) (s : Int) : Prop :=
  0 ≤ s ∧ s * s ≤ (n : Int) ∧ (n : Int) < (s + 1) * (s + 1)

/-- The state at the start of `SamplingBasedListRanking`: the caller's `L`, the arbitrary
contents of the three `malloc`ed arrays, and `head_index = -1`. -/
def samp_start (L : Heap) (in_samp0 : Nat → Int) (not_head0 : Nat → Bool) (samplist0 : Heap) :
    SampState :=
  { L := L, in_samp := in_samp0, not_head := not_head0, head_index := SIZE_MAX,
    samplist := samplist0 }

/-- The state after the initialisation loop and the two sampling passes (`gen_sample`,
`include_head`). -/
def after_sampling (sch : SampSched) (draw : Nat → Nat) (mem : SampState) (n : Nat)
    (num_samples : Int) : SampState :=
  let s0 := (List.range n).foldl init_body { mem with head_index := SIZE_MAX }
  let s1 := parallel_for sch.gen (gen_sample n (sample_target n num_samples) draw) s0
  parallel_for sch.incl include_head s1

/-- The state after the list-contraction pass (`build_list`). -/
def after_build (fuel : Nat) (sch : SampSched) (draw : Nat → Nat) (mem : SampState) (n : Nat)
    (num_samples : Int) : Option SampState :=
  parallel_for_fuel sch.build (build_list fuel) (after_sampling sch draw mem n num_samples)

/-- The two serial walks over the sample list, from `&samplist[in_samp[head_index]]`. -/
def serial_walks (fuel : Nat) (s : SampState) : Option SampState :=
  let save := some (s.in_samp s.head_index).toNat
  match samp_walk1 fuel s.samplist save 0 0 with
  | none => none
  | some (_, ctr) =>
    match samp_walk2 fuel s.samplist save ctr with
    | none => none
    | some S => some { s with samplist := S }

/-- The state after the two serial walks. -/
def after_walks (fuel : Nat) (sch : SampSched) (draw : Nat → Nat) (mem : SampState) (n : Nat)
    (num_samples : Int) : Option SampState :=
  (after_build fuel sch draw mem n num_samples).bind (serial_walks fuel)

/-- Function `SamplingBasedListRanking(L, n, num_samples)`; `mem` holds `L` and the initial
contents of the `malloc`ed arrays, `draw` the outcomes of `rand()`. -/
def SamplingBasedListRanking (fuel : Nat) (sch : SampSched) (draw : Nat → Nat) (mem : SampState)
    (n : Nat) (num_samples : Int) : Option SampState :=
  (after_walks fuel sch draw mem n num_samples).bind
    (parallel_for_fuel sch.fin (finalize_list fuel))

/-- Sample-list storage that starts zeroed: every entry has rank `0` and `next = nullptr`. -/
def zeroed : Heap := fun _ => { next := none, rank := 0 }

/-! ## Prefix scan (`scan.h`) -/

/-- Function `scan_inplace_serial(A, n, f, id)`; returns the result and the array it leaves. -/
def scan_inplace_serial (A : Nat → Int) (n : Nat) (f : Int → Int → Int) (id : Int) :
    Int × (Nat → Int) :=
  (List.range n).foldl
    (fun (st : Int × (Nat → Int)) i =>
      let m := max (st.2 i) id
      let next := f st.1 m
      (next, Function.update st.2 i st.1))
    (id, A)

/-- The split point `n/2 + (n % 2 != 0)` used by `scan_up` and `scan_down`. -/
def splitPoint (n : Nat) : Nat := n / 2 + (if n % 2 ≠ 0 then 1 else 0)

/-- Function `scan_up(A + a, n, L + l, f)`; returns the result and the auxiliary array it
leaves. -/
def scan_up (f : Int → Int → Int) :
    Nat → (Nat → Int) → Nat → Nat → (Nat → Int) → Nat → Option (Int × (Nat → Int))
  | 0, _, _, _, _, _ => none
  | fuel + 1, A, a, n, L, l =>
    if n = 1 then some (max (A a) 0, L)
    else
      let mc := splitPoint n
      match scan_up f fuel A a mc L l with
      | none => none
      | some (lv, L1) =>
        match scan_up f fuel A (a + mc) (n - mc) L1 (l + mc) with
        | none => none
        | some (rv, L2) => some (f lv rv, Function.update L2 (l + (mc - 1)) lv)

/-- Function `scan_down(R + r, n, L + l, f, s)`; returns the array `R` it leaves. -/
def scan_down (f : Int → Int → Int) :
    Nat → (Nat → Int) → Nat → Nat → (Nat → Int) → Nat → Int → Option (Nat → Int)
  | 0, _, _, _, _, _, _ => none
  | fuel + 1, R, r, n, L, l, s =>
    if n = 1 then some (Function.update R r s)
    else
      let m := splitPoint n
      let sprime := f s (L (l + (m - 1)))
      match scan_down f fuel R r m L l s with
      | none => none
      | some R1 => scan_down f fuel R1 (r + m) (n - m) L (l + m) sprime

/-- Function `scan_up` together with a log of its writes to the auxiliary array: the pairs
(index, value) of the assignments `L[mc-1] = l`, in the order in which they are made. -/
def scan_up_log (f : Int → Int → Int) :
    Nat → (Nat → Int) → Nat → Nat → (Nat → Int) → Nat →
      Option (Int × (Nat → Int) × List (Nat × Int))
  | 0, _, _, _, _, _ => none
  | fuel + 1, A, a, n, L, l =>
    if n = 1 then some (max (A a) 0, L, [])
    else
      let mc := splitPoint n
      match scan_up_log f fuel A a mc L l with
      | none => none
      | some (lv, L1, w1) =>
        match scan_up_log f fuel A (a + mc) (n - mc) L1 (l + mc) with
        | none => none
        | some (rv, L2, w2) =>
          some (f lv rv, Function.update L2 (l + (mc - 1)) lv, w1 ++ w2 ++ [(l + (mc - 1), lv)])

/-- Function `scan_down` together with a log of its reads of the auxiliary array: the pairs
(index, value) of the reads `L[m-1]`, in the order in which they are made. -/
def scan_down_log (f : Int → Int → Int) :
    Nat → (Nat → Int) → Nat → Nat → (Nat → Int) → Nat → Int →
      Option ((Nat → Int) × List (Nat × Int))
  | 0, _, _, _, _, _, _ => none
  | fuel + 1, R, r, n, L, l, s =>
    if n = 1 then some (Function.update R r s, [])
    else
      let m := splitPoint n
      let v := L (l + (m - 1))
      let sprime := f s v
      match scan_down_log f fuel R r m L l s with
      | none => none
      | some (R1, t1) =>
        match scan_down_log f fuel R1 (r + m) (n - m) L (l + m) sprime with
        | none => none
        | some (R2, t2) => some (R2, (l + (m - 1), v) :: (t1 ++ t2))

/-- The elements `A[a .. a+n)` after the clamp `std::max(x, 0)` of `scan_up`. -/
def seg (A : Nat → Int) (a n : Nat) : List Int :=
  (List.range n).map (fun i => max (A (a + i)) 0)

/-- The fold of a non-empty list with `f`, from the left and without a seed. -/
def fold1 (f : Int → Int → Int) : List Int → Int
  | [] => 0
  | x :: xs => xs.foldl f x

/-- Function `scan_inplace(A, n, f, id)`; `L0` is the initial content of the `malloc`ed
auxiliary array.  Returns the result and the array `A` it leaves. -/
def scan_inplace (fuel : Nat) (L0 : Nat → Int) (A : Nat → Int) (n : Nat) (f : Int → Int → Int)
    (id : Int) : Option (Int × (Nat → Int)) :=
  match scan_up f fuel A 0 n L0 0 with
  | none => none
  | some (total, L1) =>
    match scan_down f fuel A 0 n L1 0 id with
    | none => none
    | some R => some (total, R)

end HW1

/-! # Theorems -/

namespace HW1

/-! ## Basic facts about node storage -/

theorem setRank_next (H : Heap) (a r b : Nat) : (setRank H a r b).next = (H b).next := by
  unfold setRank
  by_cases h : b = a
  · subst h; simp
  · simp [Function.update_noteq h]

theorem setRank_rank_same (H : Heap) (a r : Nat) : (setRank H a r a).rank = r := by
  simp [setRank]

theorem setRank_other (H : Heap) (a r b : Nat) (h : b ≠ a) : setRank H a r b = H b := by
  simp [setRank, Function.update_noteq h]

theorem size_dec_pos (ch : Nat) (h : 0 < ch) : size_dec ch = ch - 1 := by
  unfold size_dec; rw [if_neg (by omega)]

/-! ## `SerialListRanking` -/

theorem serial_count_spec (H : Heap) (ch : List Nat) (hl : Linked H ch) :
    ∀ fuel k ctr, k ≤ ch.length → ch.length - k < fuel →
      SerialListRanking_count fuel H ch[k]? ctr = some (ctr + (ch.length - k)) := by
  intro fuel
  induction fuel with
  | zero => intro k ctr _ hf; omega
  | succ fuel ih =>
    intro k ctr hk hf
    by_cases hkn : k < ch.length
    · rw [List.getElem?_eq_getElem hkn]
      simp only [SerialListRanking_count]
      rw [hl k hkn, ih (k + 1) (ctr + 1) (by omega) (by omega)]
      congr 1; omega
    · rw [List.getElem?_eq_none (by omega)]
      simp only [SerialListRanking_count]
      congr 1; omega

theorem serial_assign_spec (H : Heap) (ch : List Nat) (hnd : ch.Nodup) (hl : Linked H ch) :
    ∀ fuel k ctr (H1 : Heap), k ≤ ch.length → ch.length - k < fuel →
      (∀ a, (H1 a).next = (H a).next) →
      (k < ch.length → ctr = ch.length - 1 - k) →
      ∃ H2, SerialListRanking_assign fuel H1 ch[k]? ctr = some H2 ∧
        (∀ a, (H2 a).next = (H a).next) ∧
        (∀ j (h : j < ch.length), k ≤ j → (H2 ch[j]).rank = ch.length - 1 - j) ∧
        (∀ a, (∀ j (h : j < ch.length), k ≤ j → ch[j] ≠ a) → H2 a = H1 a) := by
  intro fuel
  induction fuel with
  | zero => intro k ctr H1 _ hf; omega
  | succ fuel ih =>
    intro k ctr H1 hk hf hnext hctr
    by_cases hkn : k < ch.length
    · rw [List.getElem?_eq_getElem hkn]
      simp only [SerialListRanking_assign]
      rw [setRank_next, hnext, hl k hkn]
      have hctr' := hctr hkn
      obtain ⟨H2, h1, h2, h3, h4⟩ := ih (k + 1) (size_dec ctr) (setRank H1 ch[k] ctr)
        (by omega) (by omega) (fun a => by rw [setRank_next, hnext])
        (fun hk1 => by rw [size_dec_pos _ (by omega)]; omega)
      refine ⟨H2, h1, h2, ?_, ?_⟩
      · intro j hj hkj
        by_cases hjk : j = k
        · subst hjk
          rw [h4 ch[j] (fun j' hj' hlt heq => by
            have := hnd.getElem_inj_iff.mp heq
            omega)]
          rw [setRank_rank_same, hctr']
        · exact h3 j hj (by omega)
      · intro a ha
        rw [h4 a (fun j hj hkj => ha j hj (by omega))]
        exact setRank_other _ _ _ _ (fun h => ha k hkn (Nat.le_refl k) h.symm)
    · rw [List.getElem?_eq_none (by omega)]
      simp only [SerialListRanking_assign]
      exact ⟨H1, rfl, hnext, fun j hj hkj => by omega, fun a _ => rfl⟩

/-- Claim C1. On an acyclic chain `ch` of `n ≥ 1` nodes that starts at `head` and ends in a node
whose `next` is null, `SerialListRanking(head)` returns (given fuel for `n + 1` loop tests) and
leaves rank `n-1-k` in the `k`-th node from the head: the tail has rank `0`, every other node
has its successor's rank plus one, and the ranks of the `n` nodes are `n-1, …, 0`, that is
exactly `0 .. n-1` without duplicates.  No `next` field changes. -/
theorem C1_SerialListRanking_ranks (H : Heap) (ch : List Nat) (hc : ChainAt H ch)
    (fuel : Nat) (hf : ch.length < fuel) :
    ∃ H', SerialListRanking fuel H ch.head? = some H' ∧
      (∀ k (h : k < ch.length), (H' ch[k]).rank = ch.length - 1 - k) ∧
      (∀ t, ch.getLast? = some t → (H' t).rank = 0) ∧
      (∀ k (h : k + 1 < ch.length), (H' ch[k]).rank = (H' ch[k + 1]).rank + 1) ∧
      ch.map (fun a => (H' a).rank) = (List.range ch.length).reverse ∧
      (ch.map (fun a => (H' a).rank)).Perm (List.range ch.length) ∧
      (ch.map (fun a => (H' a).rank)).Nodup ∧
      (∀ a, (H' a).next = (H a).next) := by
  obtain ⟨hne, hnd, hl⟩ := hc
  have hpos : 0 < ch.length := List.length_pos.mpr hne
  have hcount := serial_count_spec H ch hl fuel 0 0 (Nat.zero_le _) (by omega)
  obtain ⟨H2, h1, h2, h3, _⟩ := serial_assign_spec H ch hnd hl fuel 0 (ch.length - 1) H
    (Nat.zero_le _) (by omega) (fun _ => rfl) (fun _ => by omega)
  have hmap : ch.map (fun a => (H2 a).rank) = (List.range ch.length).reverse := by
    apply List.ext_getElem
    · simp
    · intro k hk1 hk2
      simp only [List.length_map] at hk1
      rw [List.getElem_map, h3 k hk1 (Nat.zero_le _), List.getElem_reverse, List.getElem_range]
      simp
  refine ⟨H2, ?_, fun k hk => h3 k hk (Nat.zero_le _), ?_, ?_, hmap, ?_, ?_, h2⟩
  · unfold SerialListRanking
    rw [List.head?_eq_getElem?, hcount]
    simp only [Nat.zero_add, Nat.sub_zero]
    rw [size_dec_pos _ hpos]
    exact h1
  · intro t ht
    rw [List.getLast?_eq_getElem?, List.getElem?_eq_getElem (by omega)] at ht
    have ht' := Option.some.inj ht
    rw [← ht', h3 _ (by omega) (Nat.zero_le _)]
    omega
  · intro k hk
    rw [h3 k (by omega) (Nat.zero_le _), h3 (k + 1) hk (Nat.zero_le _)]
    omega
  · rw [hmap]; exact List.reverse_perm _
  · rw [hmap]; exact List.nodup_reverse.mpr (List.nodup_range _)

/-- Witness for C1: the three-node chain `2 → 0 → 1`. -/
theorem C1_SerialListRanking_ranks_witness :
    ChainAt (mkNodes [some 1, none, some 0]) [2, 0, 1] ∧
    ∃ H', SerialListRanking 4 (mkNodes [some 1, none, some 0]) [2, 0, 1].head? = some H' ∧
      (∀ k (h : k < [2, 0, 1].length), (H' [2, 0, 1][k]).rank = [2, 0, 1].length - 1 - k) ∧
      (∀ t, [2, 0, 1].getLast? = some t → (H' t).rank = 0) ∧
      (∀ k (h : k + 1 < [2, 0, 1].length),
        (H' [2, 0, 1][k]).rank = (H' [2, 0, 1][k + 1]).rank + 1) ∧
      [2, 0, 1].map (fun a => (H' a).rank) = (List.range [2, 0, 1].length).reverse ∧
      ([2, 0, 1].map (fun a => (H' a).rank)).Perm (List.range [2, 0, 1].length) ∧
      ([2, 0, 1].map (fun a => (H' a).rank)).Nodup ∧
      (∀ a, (H' a).next = (mkNodes [some 1, none, some 0] a).next) :=
  ⟨by decide, C1_SerialListRanking_ranks _ _ (by decide) 4 (by decide)⟩

/-! ## Parallel loops whose iteration `i` owns slot `i` -/

/-- Invariant rule for a `parallel_for`: if every iteration keeps `Inv`, iteration `i`
establishes `Good i`, and no iteration destroys a `Good j`, then after the loop `Good j` holds
for every scheduled `j`, in whatever order the schedule lists the iterations. -/
theorem parallel_for_slots {σ : Type} (body : Nat → σ → σ) (Inv : σ → Prop)
    (Good : Nat → σ → Prop)
    (hInv : ∀ i s, Inv s → Inv (body i s))
    (hEst : ∀ i s, Inv s → Good i (body i s))
    (hPres : ∀ i j s, Inv s → Good j s → Good j (body i s)) :
    ∀ (sched : List Nat) (s : σ), Inv s →
      Inv (parallel_for sched body s) ∧
      (∀ j, Good j s → Good j (parallel_for sched body s)) ∧
      (∀ j, j ∈ sched → Good j (parallel_for sched body s)) := by
  intro sched
  induction sched with
  | nil => intro s hs; exact ⟨hs, fun _ h => h, fun _ h => by simp at h⟩
  | cons i rest ih =>
    intro s hs
    obtain ⟨h1, h2, h3⟩ := ih (body i s) (hInv i s hs)
    refine ⟨h1, fun j hj => h2 j (hPres i j s hs hj), ?_⟩
    intro j hj
    rcases List.mem_cons.mp hj with rfl | hj
    · exact h2 _ (hEst _ s hs)
    · exact h3 j hj

theorem mem_schedule {n : Nat} {sched : List Nat} (h : IsSchedule n sched) (i : Nat) :
    i ∈ sched ↔ i < n := by
  rw [h.mem_iff, List.mem_range]

theorem wf_length {L : Heap} {n : Nat} {ch : List Nat} (h : WellFormed L n ch) :
    ch.length = n := by
  rw [h.2.1.length_eq, List.length_range]

theorem wf_lt {L : Heap} {n : Nat} {ch : List Nat} (h : WellFormed L n ch) (p : Nat)
    (hp : p < ch.length) : ch[p] < n := by
  have := (h.2.1.mem_iff (a := ch[p])).mp (List.getElem_mem hp)
  exact List.mem_range.mp this

theorem wf_nodup {L : Heap} {n : Nat} {ch : List Nat} (h : WellFormed L n ch) : ch.Nodup :=
  h.2.1.nodup_iff.mpr (List.nodup_range n)

theorem wf_pos {L : Heap} {n : Nat} {ch : List Nat} (h : WellFormed L n ch) (i : Nat)
    (hi : i < n) : ∃ p, ∃ hp : p < ch.length, ch[p] = i := by
  have := (h.2.1.mem_iff (a := i)).mpr (List.mem_range.mpr hi)
  exact List.mem_iff_getElem.mp this

theorem wf_chainAt {L : Heap} {n : Nat} {ch : List Nat} (h : WellFormed L n ch) :
    ChainAt L ch := by
  refine ⟨?_, wf_nodup h, h.2.2⟩
  intro hnil
  have := wf_length h
  rw [hnil] at this
  have := h.1
  simp at *
  omega

/-! ## `log2_up` -/

theorem log2_up_loop_spec : ∀ fuel b a, b < fuel →
    ∃ k, log2_up_loop fuel b a = some (a + k) ∧ b < 2 ^ k ∧ ∀ j, b < 2 ^ j → k ≤ j := by
  intro fuel
  induction fuel with
  | zero => intro b a h; omega
  | succ fuel ih =>
    intro b a hb
    by_cases hb0 : b > 0
    · obtain ⟨k, h1, h2, h3⟩ := ih (b >>> 1) (a + 1) (by
        rw [Nat.shiftRight_eq_div_pow]; simp only [pow_one]; omega)
      rw [Nat.shiftRight_eq_div_pow] at h2 h3
      simp only [pow_one] at h2 h3
      refine ⟨k + 1, ?_, ?_, ?_⟩
      · simp only [log2_up_loop, hb0, if_true, h1]
        congr 1; omega
      · rw [pow_succ]; omega
      · intro j hj
        cases j with
        | zero => simp at hj; omega
        | succ j =>
          have := h3 j (by rw [pow_succ] at hj; omega)
          omega
    · refine ⟨0, ?_, by omega, fun j _ => Nat.zero_le j⟩
      simp only [log2_up_loop, hb0, if_false, Nat.add_zero]

theorem log2_up_spec (fuel i : Nat) (hi : 0 < i) (hf : i ≤ fuel) :
    ∃ k, log2_up fuel i = some k ∧ i ≤ 2 ^ k ∧ ∀ j, i ≤ 2 ^ j → k ≤ j := by
  obtain ⟨k, h1, h2, h3⟩ := log2_up_loop_spec fuel (i - 1) 0 (by omega)
  refine ⟨k, ?_, by omega, fun j hj => h3 j (by omega)⟩
  unfold log2_up
  rw [if_pos hi, h1, Nat.zero_add]

/-! ## `WyllieListRanking` -/

theorem v2_L (i : Nat) (s : WyllieState) : (v2 i s).L = s.L := by
  unfold v2; split <;> rfl

theorem v2_D (i : Nat) (s : WyllieState) : (v2 i s).D = s.D := by
  unfold v2; split <;> rfl

theorem v2_succ (i : Nat) (s : WyllieState) : (v2 i s).succ = s.succ := by
  unfold v2; split <;> rfl

theorem v2_Dprime (i : Nat) (s : WyllieState) :
    (v2 i s).Dprime = Function.update s.Dprime i (jumpD s.D s.succ (fun q => (s.L q).rank) i) := by
  unfold v2 jumpD; split <;> rename_i h <;> simp [h]

theorem v2_succprime (i : Nat) (s : WyllieState) :
    (v2 i s).succprime =
      Function.update s.succprime i (jumpS s.succ (fun q => (s.L q).rank) i) := by
  unfold v2 jumpS; split <;> rename_i h <;> simp [h]

theorem v2_frame (sched : List Nat) (i : Nat) (hi : i ∉ sched) : ∀ s : WyllieState,
    (parallel_for sched v2 s).Dprime i = s.Dprime i ∧
    (parallel_for sched v2 s).succprime i = s.succprime i := by
  induction sched with
  | nil => intro s; exact ⟨rfl, rfl⟩
  | cons j rest ih =>
    intro s
    have hij : i ≠ j := fun h => hi (by simp [h])
    have hir : i ∉ rest := fun h => hi (by simp [h])
    have := ih hir (v2 j s)
    simp only [parallel_for, List.foldl_cons] at this ⊢
    rw [this.1, this.2, v2_Dprime, v2_succprime]
    simp [Function.update_noteq hij]

/-- One round of pointer jumping, run in any order, leaves the current buffers alone, fills
slot `i` of the next buffers with the simultaneous update computed from the current ones for
every scheduled `i`, and leaves the other slots of the next buffers as they were. -/
theorem v2_pass (s : WyllieState) (sched : List Nat) :
    (parallel_for sched v2 s).L = s.L ∧ (parallel_for sched v2 s).D = s.D ∧
    (parallel_for sched v2 s).succ = s.succ ∧
    (∀ i, i ∈ sched →
      (parallel_for sched v2 s).Dprime i = jumpD s.D s.succ (fun q => (s.L q).rank) i ∧
      (parallel_for sched v2 s).succprime i = jumpS s.succ (fun q => (s.L q).rank) i) ∧
    (∀ i, i ∉ sched →
      (parallel_for sched v2 s).Dprime i = s.Dprime i ∧
      (parallel_for sched v2 s).succprime i = s.succprime i) := by
  have key := parallel_for_slots v2
    (fun t => t.L = s.L ∧ t.D = s.D ∧ t.succ = s.succ)
    (fun i t => t.Dprime i = jumpD s.D s.succ (fun q => (s.L q).rank) i ∧
      t.succprime i = jumpS s.succ (fun q => (s.L q).rank) i)
    (fun i t ht => by dsimp only at ht ⊢; rw [v2_L, v2_D, v2_succ]; exact ht)
    (fun i t ht => by
      dsimp only at ht ⊢
      rw [v2_Dprime, v2_succprime, ht.1, ht.2.1, ht.2.2]; simp)
    (fun i j t ht hj => by
      dsimp only at ht hj ⊢
      rw [v2_Dprime, v2_succprime, ht.1, ht.2.1, ht.2.2]
      by_cases hji : j = i
      · subst hji; simp
      · simp [Function.update_noteq hji, hj])
    sched s ⟨rfl, rfl, rfl⟩
  exact ⟨key.1.1, key.1.2.1, key.1.2.2, key.2.2, fun i hi => v2_frame sched i hi s⟩

/-- The initialisation pass `v1`, in any order: links are kept, and every scheduled slot gets
its index as rank, `D = 0` for the tail and `1` otherwise, and `succ` = its `next`. -/
theorem v1_pass (s : WyllieState) (sched : List Nat) :
    (∀ a, ((parallel_for sched v1 s).L a).next = (s.L a).next) ∧
    (∀ i, i ∈ sched → ((parallel_for sched v1 s).L i).rank = i ∧
      (parallel_for sched v1 s).D i = (if (s.L i).next = none then 0 else 1) ∧
      (parallel_for sched v1 s).succ i = (s.L i).next) := by
  have key := parallel_for_slots v1
    (fun t => ∀ a, (t.L a).next = (s.L a).next)
    (fun i t => (t.L i).rank = i ∧ t.D i = (if (s.L i).next = none then 0 else 1) ∧
      t.succ i = (s.L i).next)
    (fun i t ht a => by
      show ((setRank t.L i i) a).next = _
      rw [setRank_next]; exact ht a)
    (fun i t ht => by
      dsimp only at ht ⊢
      refine ⟨setRank_rank_same _ _ _, ?_, ?_⟩
      · show Function.update t.D i _ i = _
        rw [Function.update_same, ht i]
      · show Function.update t.succ i _ i = _
        rw [Function.update_same, ht i])
    (fun i j t ht hj => by
      dsimp only at ht hj ⊢
      by_cases hji : j = i
      · subst hji
        refine ⟨setRank_rank_same _ _ _, ?_, ?_⟩
        · show Function.update t.D j _ j = _
          rw [Function.update_same, ht j]
        · show Function.update t.succ j _ j = _
          rw [Function.update_same, ht j]
      · refine ⟨?_, ?_, ?_⟩
        · show ((setRank t.L i i) j).rank = _
          rw [setRank_other _ _ _ _ hji]; exact hj.1
        · show Function.update t.D i _ j = _
          rw [Function.update_noteq hji]; exact hj.2.1
        · show Function.update t.succ i _ j = _
          rw [Function.update_noteq hji]; exact hj.2.2)
    sched s (fun _ => rfl)
  exact ⟨key.1, key.2.2⟩

/-- The final pass `v3`, in any order: links and `D` are kept and every scheduled slot gets
`D[i]` as its rank. -/
theorem v3_pass (s : WyllieState) (sched : List Nat) :
    (∀ a, ((parallel_for sched v3 s).L a).next = (s.L a).next) ∧
    (∀ i, i ∈ sched → ((parallel_for sched v3 s).L i).rank = s.D i) := by
  have key := parallel_for_slots v3
    (fun t => t.D = s.D ∧ ∀ a, (t.L a).next = (s.L a).next)
    (fun i t => (t.L i).rank = s.D i)
    (fun i t ht => by
      refine ⟨ht.1, fun a => ?_⟩
      show ((setRank t.L i (t.D i)) a).next = _
      rw [setRank_next]; exact ht.2 a)
    (fun i t ht => by
      show ((setRank t.L i (t.D i)) i).rank = _
      rw [setRank_rank_same, ht.1])
    (fun i j t ht hj => by
      dsimp only at ht hj ⊢
      show ((setRank t.L i (t.D i)) j).rank = _
      by_cases hji : j = i
      · subst hji; rw [setRank_rank_same, ht.1]
      · rw [setRank_other _ _ _ _ hji]; exact hj)
    sched s ⟨rfl, fun _ => rfl⟩
  exact ⟨key.1.2, key.2.2⟩

/-- After the initialisation pass the pointer-jumping invariant holds for `k = 0`. -/
theorem jumpInv_init (L : Heap) (n : Nat) (ch : List Nat) (hwf : WellFormed L n ch)
    (mem : WyllieState) (hmem : mem.L = L) (sched : List Nat) (hs : IsSchedule n sched) :
    JumpInv L n ch 0 (parallel_for sched v1 mem) := by
  obtain ⟨h1, h2⟩ := v1_pass mem sched
  have hlen := wf_length hwf
  rw [hmem] at h1 h2
  refine ⟨h1, fun i hi => (h2 i ((mem_schedule hs i).mpr hi)).1, ?_⟩
  intro p hp
  have hmem' := (mem_schedule hs ch[p]).mpr (wf_lt hwf p hp)
  obtain ⟨-, hD, hS⟩ := h2 ch[p] hmem'
  rw [hD, hS, hwf.2.2 p hp]
  refine ⟨?_, by simp⟩
  by_cases hp1 : p + 1 < ch.length
  · rw [List.getElem?_eq_getElem hp1]; simp; omega
  · rw [List.getElem?_eq_none (by omega)]; simp; omega

/-- One round (in any order) followed by the buffer swap takes the invariant from `k` to
`k + 1`. -/
theorem jumpInv_step (L : Heap) (n : Nat) (ch : List Nat) (hwf : WellFormed L n ch)
    (k : Nat) (s : WyllieState) (hinv : JumpInv L n ch k s) (sched : List Nat)
    (hs : IsSchedule n sched) :
    JumpInv L n ch (k + 1) (swapBuffers (parallel_for sched v2 s)) := by
  obtain ⟨hL, hD, hS, hnew, -⟩ := v2_pass s sched
  obtain ⟨i1, i2, i3⟩ := hinv
  have hlen := wf_length hwf
  refine ⟨?_, ?_, ?_⟩
  · intro a; show (((parallel_for sched v2 s).L) a).next = _; rw [hL]; exact i1 a
  · intro i hi; show (((parallel_for sched v2 s).L) i).rank = _; rw [hL]; exact i2 i hi
  · intro p hp
    have hmem' := (mem_schedule hs ch[p]).mpr (wf_lt hwf p hp)
    obtain ⟨e1, e2⟩ := hnew ch[p] hmem'
    show (parallel_for sched v2 s).Dprime ch[p] = _ ∧ (parallel_for sched v2 s).succprime ch[p] = _
    rw [e1, e2]
    unfold jumpD jumpS
    obtain ⟨d1, s1⟩ := i3 p hp
    have hpow : 2 ^ (k + 1) = 2 ^ k + 2 ^ k := by rw [pow_succ]; omega
    by_cases hq : p + 2 ^ k < ch.length
    · rw [List.getElem?_eq_getElem hq] at s1
      rw [s1]
      dsimp only
      rw [i2 _ (wf_lt hwf _ hq)]
      obtain ⟨d2, s2⟩ := i3 _ hq
      rw [d1, d2, s2, hpow]
      refine ⟨by omega, ?_⟩
      congr 1; omega
    · rw [List.getElem?_eq_none (by omega)] at s1
      rw [s1]
      dsimp only
      rw [d1, hpow]
      refine ⟨by omega, ?_⟩
      rw [List.getElem?_eq_none (by omega)]

theorem jumpInv_rounds (L : Heap) (n : Nat) (ch : List Nat) (hwf : WellFormed L n ch)
    (sched : Nat → List Nat) (hs : ∀ k, IsSchedule n (sched k)) (s0 : WyllieState)
    (h0 : JumpInv L n ch 0 s0) :
    ∀ k, JumpInv L n ch k (wyllie_rounds sched s0 k) := by
  intro k
  induction k with
  | zero => exact h0
  | succ k ih => exact jumpInv_step L n ch hwf k _ ih (sched k) (hs k)

/-- Summary of `SerialListRanking` on a chain: it returns, keeps every link, and gives the
node at chain position `k` the rank `n-1-k`. -/
theorem serial_spec (H : Heap) (ch : List Nat) (hc : ChainAt H ch) (fuel : Nat)
    (hf : ch.length < fuel) :
    ∃ H', SerialListRanking fuel H ch.head? = some H' ∧
      (∀ a, (H' a).next = (H a).next) ∧
      (∀ k (h : k < ch.length), (H' ch[k]).rank = ch.length - 1 - k) := by
  obtain ⟨hne, hnd, hl⟩ := hc
  have hpos : 0 < ch.length := List.length_pos.mpr hne
  have hcount := serial_count_spec H ch hl fuel 0 0 (Nat.zero_le _) (by omega)
  obtain ⟨H2, h1, h2, h3, _⟩ := serial_assign_spec H ch hnd hl fuel 0 (ch.length - 1) H
    (Nat.zero_le _) (by omega) (fun _ => rfl) (fun _ => by omega)
  refine ⟨H2, ?_, h2, fun k hk => h3 k hk (Nat.zero_le _)⟩
  unfold SerialListRanking
  rw [List.head?_eq_getElem?, hcount]
  simp only [Nat.zero_add, Nat.sub_zero]
  rw [size_dec_pos _ hpos]
  exact h1

/-- Summary of `WyllieListRanking` on a well-formed array, for all schedules and all initial
contents of the scratch arrays: it returns, keeps every link, and gives the node at chain
position `p` the rank `n-1-p`. -/
theorem wyllie_spec (L : Heap) (n : Nat) (ch : List Nat) (hwf : WellFormed L n ch)
    (sch : WyllieSched) (hinit : IsSchedule n sch.init)
    (hround : ∀ k, IsSchedule n (sch.round k)) (hfinal : IsSchedule n sch.final)
    (mem : WyllieState) (hmem : mem.L = L) (fuel : Nat) (hf : n ≤ fuel) :
    ∃ s, WyllieListRanking fuel sch mem n = some s ∧
      (∀ a, (s.L a).next = (L a).next) ∧
      (∀ p (hp : p < ch.length), (s.L ch[p]).rank = n - 1 - p) := by
  obtain ⟨m, hm, hpow, -⟩ := log2_up_spec fuel n hwf.1 hf
  have h0 := jumpInv_init L n ch hwf mem hmem sch.init hinit
  obtain ⟨j1, j2, j3⟩ := jumpInv_rounds L n ch hwf sch.round hround _ h0 m
  obtain ⟨f1, f2⟩ := v3_pass (wyllie_rounds sch.round (parallel_for sch.init v1 mem) m) sch.final
  refine ⟨_, ?_, fun a => by rw [f1 a, j1 a], ?_⟩
  · unfold WyllieListRanking
    simp only [hm]
  · intro p hp
    rw [f2 _ ((mem_schedule hfinal _).mpr (wf_lt hwf p hp)), (j3 p hp).1]
    omega

/-- Claim C2. On an array `L` of `n ≥ 1` nodes whose links form one chain `ch` through all
slots (slots in any order), `WyllieListRanking(L, n)` returns and leaves in every node its
distance to the tail (`n-1-p` at chain position `p`), for every order of the iterations of its
parallel loops and every initial content of its scratch arrays; this is the rank
`SerialListRanking` assigns from the head of the chain, slot by slot. -/
theorem C2_WyllieListRanking_ranks (L : Heap) (n : Nat) (ch : List Nat)
    (hwf : WellFormed L n ch) (sch : WyllieSched) (hinit : IsSchedule n sch.init)
    (hround : ∀ k, IsSchedule n (sch.round k)) (hfinal : IsSchedule n sch.final)
    (D0 Dprime0 : Nat → Nat) (succ0 succprime0 : Nat → Option Nat) (fuel : Nat)
    (hf : n < fuel) :
    ∃ s H', WyllieListRanking fuel sch ⟨L, D0, Dprime0, succ0, succprime0⟩ n = some s ∧
      SerialListRanking fuel L ch.head? = some H' ∧
      (∀ p (hp : p < ch.length), (s.L ch[p]).rank = n - 1 - p) ∧
      (∀ i, i < n → (s.L i).rank = (H' i).rank) ∧
      ranksOf s.L n = ranksOf H' n ∧
      (∀ a, (s.L a).next = (L a).next) := by
  have hlen := wf_length hwf
  obtain ⟨s, hs, hnext, hrank⟩ := wyllie_spec L n ch hwf sch hinit hround hfinal
    ⟨L, D0, Dprime0, succ0, succprime0⟩ rfl fuel (by omega)
  obtain ⟨H', hH, -, hsr⟩ := serial_spec L ch (wf_chainAt hwf) fuel (by omega)
  have heq : ∀ i, i < n → (s.L i).rank = (H' i).rank := by
    intro i hi
    obtain ⟨p, hp, rfl⟩ := wf_pos hwf i hi
    rw [hrank p hp, hsr p hp, hlen]
  refine ⟨s, H', hs, hH, hrank, heq, ?_, hnext⟩
  unfold ranksOf
  apply List.map_congr_left
  intro i hi
  exact heq i (List.mem_range.mp hi)

/-- Witness for C2: the three-slot array holding the chain `2 → 0 → 1`. -/
theorem C2_WyllieListRanking_ranks_witness :
    WellFormed (mkNodes [some 1, none, some 0]) 3 [2, 0, 1] ∧
    ∃ s H', WyllieListRanking 4 ⟨[2, 1, 0], fun _ => [0, 2, 1], [1, 0, 2]⟩
        ⟨mkNodes [some 1, none, some 0], fun _ => 7, fun _ => 8, fun _ => some 9,
          fun _ => none⟩ 3 = some s ∧
      SerialListRanking 4 (mkNodes [some 1, none, some 0]) [2, 0, 1].head? = some H' ∧
      (∀ p (hp : p < [2, 0, 1].length), (s.L [2, 0, 1][p]).rank = 3 - 1 - p) ∧
      (∀ i, i < 3 → (s.L i).rank = (H' i).rank) ∧
      ranksOf s.L 3 = ranksOf H' 3 ∧
      (∀ a, (s.L a).next = (mkNodes [some 1, none, some 0] a).next) :=
  ⟨by decide,
   C2_WyllieListRanking_ranks _ 3 [2, 0, 1] (by decide)
     ⟨[2, 1, 0], fun _ => [0, 2, 1], [1, 0, 2]⟩ (by decide)
     (fun _ => (by decide : IsSchedule 3 [0, 2, 1])) (by decide)
     (fun _ => 7) (fun _ => 8) (fun _ => some 9) (fun _ => none) 4 (by decide)⟩

/-! ## Failing runs of `SamplingBasedListRanking` -/

/-- Claim C3 (the code departs from it). The well-formed three-slot array holding the
chain `2 → 0 → 1`, with `num_samples = 0`, every parallel loop run in increasing index order
and the sample-list storage zeroed: `SamplingBasedListRanking` returns the ranks `[0, 0, 2]`
for the slots `0, 1, 2`, while the distances to the tail, which `SerialListRanking` assigns,
are `[1, 0, 2]`.  And the five-node chain `0 → 1 → 2 → 3 → 4` with `num_samples = 1`, slot
`3` drawn into the sample and the expansion loop run in the order `3, 0, 4, 1, 2` ends with
the ranks `[4, 1, 2, 1, 0]`, not `[4, 3, 2, 1, 0]`. -/
theorem C3_SamplingBasedListRanking_wrong_ranks :
    WellFormed (mkNodes [some 1, none, some 0]) 3 [2, 0, 1] ∧
    (SamplingBasedListRanking 10
        ⟨List.range 3, List.range 3, List.range 3, List.range 3⟩ (fun _ => 0)
        (samp_start (mkNodes [some 1, none, some 0]) (fun _ => 0) (fun _ => false) zeroed)
        3 0).map (fun s => ranksOf s.L 3) = some [0, 0, 2] ∧
    (SerialListRanking 10 (mkNodes [some 1, none, some 0]) (some 2)).map
        (fun H => ranksOf H 3) = some [1, 0, 2] ∧
    WellFormed (mkNodes [some 1, some 2, some 3, some 4, none]) 5 [0, 1, 2, 3, 4] ∧
    IsSchedule 5 [3, 0, 4, 1, 2] ∧
    (SamplingBasedListRanking 10
        ⟨List.range 5, List.range 5, List.range 5, [3, 0, 4, 1, 2]⟩
        (fun i => if i = 3 then 0 else 4)
        (samp_start (mkNodes [some 1, some 2, some 3, some 4, none]) (fun _ => 0)
          (fun _ => false) zeroed)
        5 1).map (fun s => ranksOf s.L 5) = some [4, 1, 2, 1, 0] := by
  refine ⟨by decide, by decide, by decide, by decide, by decide, by decide⟩

theorem samp_walk1_selfloop (S : Heap) (a : Nat) (h : (S a).next = some a) :
    ∀ fuel m ctr, samp_walk1 fuel S (some a) m ctr = none := by
  intro fuel
  induction fuel with
  | zero => intro m ctr; rfl
  | succ fuel ih =>
    intro m ctr
    simp only [samp_walk1]
    rw [h]
    exact ih _ _

/-- Claim C8 (the code departs from it). A list of one node: `SerialListRanking` and
`WyllieListRanking(L, 1)` leave rank `0`.  `SamplingBasedListRanking(L, 1)` never initialises
the `malloc`ed sample list: for every `num_samples`, every draw and every stale rank `r` in
its block (with a null stale `next`) the node ends with rank `r`, which is `0` only if the
block happens to be zeroed; and with a non-null stale `next` the serial walk follows that
pointer (here back to the same entry, so the walk never ends: no amount of fuel returns). -/
theorem C8_single_node_uninitialised_samplist :
    (SerialListRanking 2 (mkNodes [none]) (some 0)).map (fun H => ranksOf H 1) = some [0] ∧
    (WyllieListRanking 2 ⟨[0], fun _ => [0], [0]⟩
        ⟨mkNodes [none], fun _ => 7, fun _ => 8, fun _ => some 9, fun _ => some 3⟩ 1).map
        (fun s => ranksOf s.L 1) = some [0] ∧
    (∀ (num_samples : Int) (draw : Nat → Nat) (in_samp0 : Nat → Int) (not_head0 : Nat → Bool)
        (r fuel : Nat),
      (SamplingBasedListRanking (fuel + 2) ⟨[0], [0], [0], [0]⟩ draw
        (samp_start (mkNodes [none]) in_samp0 not_head0 (fun _ => { next := none, rank := r }))
        1 num_samples).map (fun s => ranksOf s.L 1) = some [r]) ∧
    (SamplingBasedListRanking 2 ⟨[0], [0], [0], [0]⟩ (fun _ => 0)
        (samp_start (mkNodes [none]) (fun _ => 0) (fun _ => false)
          (fun _ => { next := none, rank := 7 })) 1 (-1)).map
        (fun s => ranksOf s.L 1) = some [7] ∧
    (∀ fuel, SamplingBasedListRanking fuel ⟨[0], [0], [0], [0]⟩ (fun _ => 0)
        (samp_start (mkNodes [none]) (fun _ => 0) (fun _ => false)
          (fun _ => { next := some 0, rank := 0 })) 1 (-1) = none) := by
  have hgen : ∀ (num_samples : Int) (draw : Nat → Nat) (in_samp0 : Nat → Int)
      (not_head0 : Nat → Bool) (r fuel : Nat),
      (SamplingBasedListRanking (fuel + 2) ⟨[0], [0], [0], [0]⟩ draw
        (samp_start (mkNodes [none]) in_samp0 not_head0 (fun _ => { next := none, rank := r }))
        1 num_samples).map (fun s => ranksOf s.L 1) = some [r] := by
    intro num_samples draw in_samp0 not_head0 r fuel
    have h : (SamplingBasedListRanking (fuel + 2) ⟨[0], [0], [0], [0]⟩ draw
        (samp_start (mkNodes [none]) in_samp0 not_head0
          (fun _ => { next := none, rank := r })) 1 num_samples).map
        (fun s => ranksOf s.L 1) = some [0 + r] := rfl
    rw [h, Nat.zero_add]
  refine ⟨by decide, by decide, hgen, by decide, ?_⟩
  intro fuel
  cases fuel with
  | zero => rfl
  | succ fuel =>
    have hb : after_build (fuel + 1) ⟨[0], [0], [0], [0]⟩ (fun _ => 0)
        (samp_start (mkNodes [none]) (fun _ => 0) (fun _ => false)
          (fun _ => { next := some 0, rank := 0 })) 1 (-1) =
        some (after_sampling ⟨[0], [0], [0], [0]⟩ (fun _ => 0)
          (samp_start (mkNodes [none]) (fun _ => 0) (fun _ => false)
            (fun _ => { next := some 0, rank := 0 })) 1 (-1)) := rfl
    have hi : (after_sampling ⟨[0], [0], [0], [0]⟩ (fun _ => 0)
        (samp_start (mkNodes [none]) (fun _ => 0) (fun _ => false)
          (fun _ => { next := some 0, rank := 0 })) 1 (-1)).in_samp
        (after_sampling ⟨[0], [0], [0], [0]⟩ (fun _ => 0)
          (samp_start (mkNodes [none]) (fun _ => 0) (fun _ => false)
            (fun _ => { next := some 0, rank := 0 })) 1 (-1)).head_index = 0 := by decide
    unfold SamplingBasedListRanking after_walks
    rw [hb]
    simp only [Option.bind]
    unfold serial_walks
    rw [hi]
    dsimp only
    rw [show (0 : Int).toNat = 0 from rfl, samp_walk1_selfloop _ 0 (by decide)]

/-! ## Failing runs of `scan_inplace` -/

/-- Claim C4 (the code departs from it). With `f` = multiplication and `id = 1`, an
associative operator and its identity, and `A = [0, 5]`: `scan_inplace` leaves `[1, 0]` and
returns `0`, while `scan_inplace_serial` on a copy leaves `[1, 1]` and returns `5`. -/
theorem C4_scan_inplace_differs_from_serial :
    (∀ x y z : Int, (x * y) * z = x * (y * z)) ∧ (∀ x : Int, 1 * x = x ∧ x * 1 = x) ∧
    (scan_inplace 3 (fun _ => 99) (ofList [0, 5] 0) 2 (fun x y => x * y) 1).map
        (fun r => (r.1, readArr r.2 2)) = some (0, [1, 0]) ∧
    (fun r : Int × (Nat → Int) => (r.1, readArr r.2 2))
        (scan_inplace_serial (ofList [0, 5] 0) 2 (fun x y => x * y) 1) = (5, [1, 1]) := by
  refine ⟨fun x y z => Int.mul_assoc x y z, fun x => ⟨Int.one_mul x, Int.mul_one x⟩,
    by decide, by decide⟩

/-- Claim C6 (the code departs from it). With `n = 1`, for every `f`, every `id` and every
original value `a = A[0]`, `scan_inplace` sets `A[0]` to `id` and returns `max(a, 0)`: the
clamp is against the literal `0`, not against `id`.  With `A = [-5]`, `id = -1` and
`f x y = x + y + 1` (associative, with identity `-1`) it returns `0`, not
`max(-5, id) = -1`, which is what `scan_inplace_serial` returns. -/
theorem C6_scan_inplace_single_returns_max_zero :
    (∀ (f : Int → Int → Int) (id : Int) (A L0 : Nat → Int) (fuel : Nat),
      (scan_inplace (fuel + 1) L0 A 1 f id).map (fun r => (r.1, r.2 0))
        = some (max (A 0) 0, id)) ∧
    (scan_inplace 1 (fun _ => 99) (ofList [-5] 0) 1 (fun x y => x + y + 1) (-1)).map
        (fun r => (r.1, readArr r.2 1)) = some (0, [-1]) ∧
    max (-5 : Int) (-1) = -1 ∧
    (fun r : Int × (Nat → Int) => (r.1, readArr r.2 1))
        (scan_inplace_serial (ofList [-5] 0) 1 (fun x y => x + y + 1) (-1)) = (-1, [-1]) := by
  refine ⟨fun f id A L0 fuel => rfl, by decide, by decide, by decide⟩

/-- Claim C7 (the code departs from it). With `f x y = x + y + 1`, an associative
operator whose identity is `id = -1`, and the array `[-1, -1]` of two copies of `id`:
`scan_inplace` leaves `[-1, 0]` and returns `1`, while `scan_inplace_serial` leaves
`[-1, -1]` and returns `-1`. -/
theorem C7_scan_inplace_identity_array :
    (∀ x y z : Int, (x + y + 1) + z + 1 = x + (y + z + 1) + 1) ∧
    (∀ x : Int, -1 + x + 1 = x ∧ x + -1 + 1 = x) ∧
    (scan_inplace 3 (fun _ => 99) (ofList [-1, -1] 0) 2 (fun x y => x + y + 1) (-1)).map
        (fun r => (r.1, readArr r.2 2)) = some (1, [-1, 0]) ∧
    (fun r : Int × (Nat → Int) => (r.1, readArr r.2 2))
        (scan_inplace_serial (ofList [-1, -1] 0) 2 (fun x y => x + y + 1) (-1))
      = (-1, [-1, -1]) := by
  refine ⟨fun x y z => by omega, fun x => ⟨by omega, by omega⟩, by decide, by decide⟩

/-! ## Prefix scan -/

theorem splitPoint_bounds (n : Nat) (h : 2 ≤ n) : 1 ≤ splitPoint n ∧ splitPoint n < n := by
  unfold splitPoint; split <;> omega

theorem seg_length (A : Nat → Int) (a n : Nat) : (seg A a n).length = n := by
  simp [seg]

theorem seg_add (A : Nat → Int) (a m k : Nat) :
    seg A a (m + k) = seg A a m ++ seg A (a + m) k := by
  unfold seg
  rw [List.range_add, List.map_append, List.map_map]
  congr 1
  apply List.map_congr_left
  intro i _
  simp [Nat.add_assoc]

theorem seg_ne_nil (A : Nat → Int) (a n : Nat) (h : 1 ≤ n) : seg A a n ≠ [] := by
  intro hnil
  have := seg_length A a n
  rw [hnil] at this
  simp at this
  omega

theorem foldl_assoc (f : Int → Int → Int) (hf : ∀ x y z, f (f x y) z = f x (f y z)) :
    ∀ (ys : List Int) (s y : Int), ys.foldl f (f s y) = f s (ys.foldl f y) := by
  intro ys
  induction ys with
  | nil => intro s y; rfl
  | cons z zs ih =>
    intro s y
    simp only [List.foldl_cons]
    rw [hf, ih]

theorem foldl_fold1 (f : Int → Int → Int) (hf : ∀ x y z, f (f x y) z = f x (f y z))
    (xs : List Int) (hx : xs ≠ []) (s : Int) : xs.foldl f s = f s (fold1 f xs) := by
  cases xs with
  | nil => exact absurd rfl hx
  | cons x xs => simp only [List.foldl_cons, fold1]; exact foldl_assoc f hf xs s x

theorem fold1_append (f : Int → Int → Int) (hf : ∀ x y z, f (f x y) z = f x (f y z))
    (xs ys : List Int) (hx : xs ≠ []) (hy : ys ≠ []) :
    fold1 f (xs ++ ys) = f (fold1 f xs) (fold1 f ys) := by
  cases xs with
  | nil => exact absurd rfl hx
  | cons x xs =>
    simp only [List.cons_append, fold1, List.foldl_append]
    exact foldl_fold1 f hf ys hy _

theorem scan_up_succ (f : Int → Int → Int) (fuel : Nat) (A : Nat → Int) (a n : Nat)
    (L : Nat → Int) (l : Nat) :
    scan_up f (fuel + 1) A a n L l =
      if n = 1 then some (max (A a) 0, L)
      else
        match scan_up f fuel A a (splitPoint n) L l with
        | none => none
        | some (lv, L1) =>
          match scan_up f fuel A (a + splitPoint n) (n - splitPoint n) L1 (l + splitPoint n) with
          | none => none
          | some (rv, L2) => some (f lv rv, Function.update L2 (l + (splitPoint n - 1)) lv) :=
  rfl

theorem scan_down_succ (f : Int → Int → Int) (fuel : Nat) (R : Nat → Int) (r n : Nat)
    (L : Nat → Int) (l : Nat) (s : Int) :
    scan_down f (fuel + 1) R r n L l s =
      if n = 1 then some (Function.update R r s)
      else
        match scan_down f fuel R r (splitPoint n) L l s with
        | none => none
        | some R1 =>
          scan_down f fuel R1 (r + splitPoint n) (n - splitPoint n) L (l + splitPoint n)
            (f s (L (l + (splitPoint n - 1)))) :=
  rfl

/-- The up-sweep returns on every range of `n ≥ 1` elements, given fuel `n`. -/
theorem scan_up_some (f : Int → Int → Int) : ∀ fuel (A : Nat → Int) a n (L : Nat → Int) l,
    1 ≤ n → n ≤ fuel → ∃ t L', scan_up f fuel A a n L l = some (t, L') := by
  intro fuel
  induction fuel with
  | zero => intro A a n L l h1 h2; omega
  | succ fuel ih =>
    intro A a n L l h1 h2
    rw [scan_up_succ]
    by_cases hn : n = 1
    · rw [if_pos hn]; exact ⟨_, _, rfl⟩
    · rw [if_neg hn]
      obtain ⟨b1, b2⟩ := splitPoint_bounds n (by omega)
      obtain ⟨t1, L1, e1⟩ := ih A a (splitPoint n) L l b1 (by omega)
      obtain ⟨t2, L2, e2⟩ := ih A (a + splitPoint n) (n - splitPoint n) L1 (l + splitPoint n)
        (by omega) (by omega)
      rw [e1]; dsimp only; rw [e2]
      exact ⟨_, _, rfl⟩

/-- What the up-sweep returns and where it writes: the result is the fold of the clamped
elements, and the auxiliary array changes only inside `[l, l + n - 1)`. -/
theorem scan_up_val (f : Int → Int → Int) (hf : ∀ x y z, f (f x y) z = f x (f y z)) :
    ∀ fuel (A : Nat → Int) a n (L : Nat → Int) l t L', 1 ≤ n →
      scan_up f fuel A a n L l = some (t, L') →
      t = fold1 f (seg A a n) ∧ ∀ j, (j < l ∨ l + (n - 1) ≤ j) → L' j = L j := by
  intro fuel
  induction fuel with
  | zero => intro A a n L l t L' _ h; simp [scan_up] at h
  | succ fuel ih =>
    intro A a n L l t L' h1 h
    rw [scan_up_succ] at h
    by_cases hn : n = 1
    · rw [if_pos hn] at h
      simp only [Option.some.injEq, Prod.mk.injEq] at h
      subst hn
      refine ⟨?_, fun j _ => by rw [← h.2]⟩
      rw [← h.1]; rfl
    · rw [if_neg hn] at h
      obtain ⟨b1, b2⟩ := splitPoint_bounds n (by omega)
      cases e1 : scan_up f fuel A a (splitPoint n) L l with
      | none => rw [e1] at h; simp at h
      | some p1 =>
        obtain ⟨t1, L1⟩ := p1
        rw [e1] at h
        dsimp only at h
        cases e2 : scan_up f fuel A (a + splitPoint n) (n - splitPoint n) L1 (l + splitPoint n) with
        | none => rw [e2] at h; simp at h
        | some p2 =>
          obtain ⟨t2, L2⟩ := p2
          rw [e2] at h
          simp only [Option.some.injEq, Prod.mk.injEq] at h
          obtain ⟨v1, f1⟩ := ih A a (splitPoint n) L l t1 L1 b1 e1
          obtain ⟨v2, f2⟩ := ih A (a + splitPoint n) (n - splitPoint n) L1 (l + splitPoint n)
            t2 L2 (by omega) e2
          refine ⟨?_, ?_⟩
          · rw [← h.1, v1, v2]
            have hsplit : n = splitPoint n + (n - splitPoint n) := by omega
            conv_rhs => rw [hsplit, seg_add]
            exact (fold1_append f hf _ _ (seg_ne_nil _ _ _ b1)
              (seg_ne_nil _ _ _ (by omega))).symm
          · intro j hj
            rw [← h.2, Function.update_noteq (by omega), f2 j (by omega), f1 j (by omega)]

/-- The down-sweep over an auxiliary array that agrees, inside `[l, l + n - 1)`, with what the
up-sweep left for the same range: it returns, writes into `R[r + i]` the fold of the seed `s`
with the clamped elements `A[a .. a+i)`, and changes nothing outside `R[r .. r+n)`. -/
theorem scan_down_spec (f : Int → Int → Int) (hf : ∀ x y z, f (f x y) z = f x (f y z)) :
    ∀ fuel (A : Nat → Int) a n (L : Nat → Int) l t (L' L'' R : Nat → Int) r s, 1 ≤ n →
      scan_up f fuel A a n L l = some (t, L') →
      (∀ j, l ≤ j → j < l + (n - 1) → L'' j = L' j) →
      ∃ R', scan_down f fuel R r n L'' l s = some R' ∧
        (∀ i, i < n → R' (r + i) = (seg A a i).foldl f s) ∧
        (∀ j, (j < r ∨ r + n ≤ j) → R' j = R j) := by
  intro fuel
  induction fuel with
  | zero => intro A a n L l t L' L'' R r s _ h; simp [scan_up] at h
  | succ fuel ih =>
    intro A a n L l t L' L'' R r s h1 h hagree
    rw [scan_up_succ] at h
    rw [scan_down_succ]
    by_cases hn : n = 1
    · rw [if_pos hn]
      subst hn
      refine ⟨_, rfl, ?_, ?_⟩
      · intro i hi
        have : i = 0 := by omega
        subst this
        simp [seg]
      · intro j hj
        rw [Function.update_noteq (by omega)]
    · rw [if_neg hn] at h ⊢
      obtain ⟨b1, b2⟩ := splitPoint_bounds n (by omega)
      cases e1 : scan_up f fuel A a (splitPoint n) L l with
      | none => rw [e1] at h; simp at h
      | some p1 =>
        obtain ⟨t1, L1⟩ := p1
        rw [e1] at h
        dsimp only at h
        cases e2 : scan_up f fuel A (a + splitPoint n) (n - splitPoint n) L1 (l + splitPoint n) with
        | none => rw [e2] at h; simp at h
        | some p2 =>
          obtain ⟨t2, L2⟩ := p2
          rw [e2] at h
          simp only [Option.some.injEq, Prod.mk.injEq] at h
          obtain ⟨v1, -⟩ := scan_up_val f hf fuel A a (splitPoint n) L l t1 L1 b1 e1
          obtain ⟨-, f2⟩ := scan_up_val f hf fuel A (a + splitPoint n) (n - splitPoint n) L1
            (l + splitPoint n) t2 L2 (by omega) e2
          have hL' : ∀ j, L' j = Function.update L2 (l + (splitPoint n - 1)) t1 j := by
            intro j; rw [← h.2]
          have hmid : L'' (l + (splitPoint n - 1)) = t1 := by
            rw [hagree _ (by omega) (by omega), hL', Function.update_same]
          obtain ⟨R1, d1, g1, fr1⟩ := ih A a (splitPoint n) L l t1 L1 L'' R r s b1 e1
            (fun j hj1 hj2 => by
              rw [hagree j hj1 (by omega), hL', Function.update_noteq (by omega),
                f2 j (by omega)])
          obtain ⟨R2, d2, g2, fr2⟩ := ih A (a + splitPoint n) (n - splitPoint n) L1
            (l + splitPoint n) t2 L2 L'' R1 (r + splitPoint n)
            (f s (L'' (l + (splitPoint n - 1)))) (by omega) e2
            (fun j hj1 hj2 => by
              rw [hagree j (by omega) (by omega), hL', Function.update_noteq (by omega)])
          rw [d1]
          dsimp only
          rw [d2]
          refine ⟨R2, rfl, ?_, ?_⟩
          · intro i hi
            by_cases hlt : i < splitPoint n
            · rw [fr2 _ (by omega), g1 i hlt]
            · obtain ⟨i', rfl⟩ : ∃ i', i = splitPoint n + i' := ⟨i - splitPoint n, by omega⟩
              rw [← Nat.add_assoc, g2 i' (by omega), hmid, v1,
                ← foldl_fold1 f hf _ (seg_ne_nil _ _ _ b1), seg_add, List.foldl_append]
          · intro j hj
            rw [fr2 j (by omega), fr1 j (by omega)]

/-- Summary of `scan_inplace` for an associative operator: for every length `n ≥ 1`, every
seed `id` and every initial content of the auxiliary array it returns (fuel `n` suffices),
the result is the seedless fold of the elements clamped with `0`, and `A[i]` becomes the
fold of `id` with the clamped elements before `i`. -/
theorem scan_inplace_spec (f : Int → Int → Int) (hf : ∀ x y z, f (f x y) z = f x (f y z))
    (fuel : Nat) (L0 A : Nat → Int) (n : Nat) (id : Int) (hn : 1 ≤ n) (hfuel : n ≤ fuel) :
    ∃ R, scan_inplace fuel L0 A n f id = some (fold1 f (seg A 0 n), R) ∧
      (∀ i, i < n → R i = (seg A 0 i).foldl f id) ∧ (∀ j, n ≤ j → R j = A j) := by
  obtain ⟨t, L1, e1⟩ := scan_up_some f fuel A 0 n L0 0 hn hfuel
  obtain ⟨v1, -⟩ := scan_up_val f hf fuel A 0 n L0 0 t L1 hn e1
  obtain ⟨R, d1, g1, fr1⟩ := scan_down_spec f hf fuel A 0 n L0 0 t L1 L1 A 0 id hn e1
    (fun _ _ _ => rfl)
  refine ⟨R, ?_, ?_, ?_⟩
  · unfold scan_inplace
    rw [e1]; dsimp only; rw [d1, v1]
  · intro i hi
    have := g1 i hi
    rwa [Nat.zero_add] at this
  · intro j hj
    exact fr1 j (by omega)

theorem seg_nonneg (A : Nat → Int) (n : Nat) (hA : ∀ i, i < n → 0 ≤ A i) :
    seg A 0 n = readArr A n := by
  unfold seg readArr
  apply List.map_congr_left
  intro i hi
  rw [Nat.zero_add]
  exact max_eq_left (hA i (List.mem_range.mp hi))

theorem foldl_add_sum (xs : List Int) : xs.foldl (fun x y => x + y) 0 = xs.sum := by
  have : ∀ (ys : List Int) (s : Int), ys.foldl (fun x y => x + y) s = s + ys.sum := by
    intro ys
    induction ys with
    | nil => intro s; simp
    | cons y ys ih => intro s; simp only [List.foldl_cons, List.sum_cons, ih]; omega
  rw [this]; omega

theorem fold1_add_sum (xs : List Int) (hx : xs ≠ []) : fold1 (fun x y => x + y) xs = xs.sum := by
  have h := foldl_fold1 (fun x y => x + y) (fun x y z => Int.add_assoc x y z) xs hx 0
  rw [foldl_add_sum] at h
  rw [h]
  exact (Int.zero_add _).symm

/-- Claim C5. For an array `A` of `n ≥ 1` non-negative integers, `scan_inplace(A, n, +, 0)`
returns (fuel `n` suffices, whatever the auxiliary array initially holds), overwrites `A[i]`
with the sum of the original `A[0..i)` for every `i < n` (so `A[0]` becomes `0`), leaves the
slots from `n` on alone and returns the sum of all `n` original elements; `[3,1,4,1,5]`
becomes `[0,3,4,8,9]` with return value `14`. -/
theorem C5_scan_inplace_prefix_sums (A : Nat → Int) (n : Nat) (hn : 1 ≤ n)
    (hA : ∀ i, i < n → 0 ≤ A i) (L0 : Nat → Int) (fuel : Nat) (hfuel : n ≤ fuel) :
    (∃ R, scan_inplace fuel L0 A n (fun x y => x + y) 0 = some ((readArr A n).sum, R) ∧
      (∀ i, i < n → R i = (readArr A i).sum) ∧ R 0 = 0 ∧ (∀ j, n ≤ j → R j = A j)) ∧
    (scan_inplace 5 L0 (ofList [3, 1, 4, 1, 5] 0) 5 (fun x y => x + y) 0).map
      (fun r => (r.1, readArr r.2 5)) = some (14, [0, 3, 4, 8, 9]) := by
  have gen : ∀ (B : Nat → Int) (m : Nat), 1 ≤ m → (∀ i, i < m → 0 ≤ B i) → ∀ fl, m ≤ fl →
      ∃ R, scan_inplace fl L0 B m (fun x y => x + y) 0 = some ((readArr B m).sum, R) ∧
        (∀ i, i < m → R i = (readArr B i).sum) ∧ R 0 = 0 ∧ (∀ j, m ≤ j → R j = B j) := by
    intro B m hm hB fl hfl
    obtain ⟨R, e, g, fr⟩ := scan_inplace_spec (fun x y => x + y) (fun x y z => Int.add_assoc x y z)
      fl L0 B m 0 hm hfl
    have hval : ∀ i, i < m → R i = (readArr B i).sum := by
      intro i hi
      rw [g i hi, seg_nonneg B i (fun j hj => hB j (by omega)), foldl_add_sum]
    refine ⟨R, ?_, hval, ?_, fr⟩
    · rw [e, seg_nonneg B m hB, fold1_add_sum]
      rw [← seg_nonneg B m hB]
      exact seg_ne_nil _ _ _ hm
    · rw [hval 0 (by omega)]; rfl
  refine ⟨gen A n hn hA fuel hfuel, ?_⟩
  obtain ⟨R, e, g, -, -⟩ := gen (ofList [3, 1, 4, 1, 5] 0) 5 (by decide)
    (by decide) 5 (by decide)
  rw [e]
  simp only [Option.map_some']
  have h0 := g 0 (by decide)
  have h1 := g 1 (by decide)
  have h2 := g 2 (by decide)
  have h3 := g 3 (by decide)
  have h4 := g 4 (by decide)
  have hs : (readArr (ofList [3, 1, 4, 1, 5] (0 : Int)) 5).sum = 14 := by decide
  have e0 : (readArr (ofList [3, 1, 4, 1, 5] (0 : Int)) 0).sum = 0 := by decide
  have e1 : (readArr (ofList [3, 1, 4, 1, 5] (0 : Int)) 1).sum = 3 := by decide
  have e2 : (readArr (ofList [3, 1, 4, 1, 5] (0 : Int)) 2).sum = 4 := by decide
  have e3 : (readArr (ofList [3, 1, 4, 1, 5] (0 : Int)) 3).sum = 8 := by decide
  have e4 : (readArr (ofList [3, 1, 4, 1, 5] (0 : Int)) 4).sum = 9 := by decide
  rw [hs]
  have hr : readArr R 5 = [R 0, R 1, R 2, R 3, R 4] := rfl
  rw [hr, h0, h1, h2, h3, h4, e0, e1, e2, e3, e4]

/-- Witness for C5: the array `[2, 0, 7]` with fuel `3`. -/
theorem C5_scan_inplace_prefix_sums_witness :
    (∃ R, scan_inplace 3 (fun _ => 99) (ofList [2, 0, 7] 0) 3 (fun x y => x + y) 0
        = some ((readArr (ofList [2, 0, 7] 0) 3).sum, R) ∧
      (∀ i, i < 3 → R i = (readArr (ofList [2, 0, 7] 0) i).sum) ∧ R 0 = 0 ∧
      (∀ j, 3 ≤ j → R j = ofList [2, 0, 7] 0 j)) ∧
    (scan_inplace 5 (fun _ => 99) (ofList [3, 1, 4, 1, 5] 0) 5 (fun x y => x + y) 0).map
      (fun r => (r.1, readArr r.2 5)) = some (14, [0, 3, 4, 8, 9]) :=
  C5_scan_inplace_prefix_sums (ofList [2, 0, 7] 0) 3 (by decide) (by decide) (fun _ => 99) 3
    (by decide)

/-! ## The sampling passes of `SamplingBasedListRanking` -/

/-- Invariant rule for a `parallel_for` whose iterations all satisfy `P` (for a schedule of
`0 .. n-1`: `i < n`). -/
theorem parallel_for_slots_on {σ : Type} (body : Nat → σ → σ) (P : Nat → Prop)
    (Inv : σ → Prop) (Good : Nat → σ → Prop)
    (hInv : ∀ i s, P i → Inv s → Inv (body i s))
    (hEst : ∀ i s, P i → Inv s → Good i (body i s))
    (hPres : ∀ i j s, P i → Inv s → Good j s → Good j (body i s)) :
    ∀ (sched : List Nat) (s : σ), (∀ i, i ∈ sched → P i) → Inv s →
      Inv (parallel_for sched body s) ∧
      (∀ j, Good j s → Good j (parallel_for sched body s)) ∧
      (∀ j, j ∈ sched → Good j (parallel_for sched body s)) := by
  intro sched
  induction sched with
  | nil => intro s _ hs; exact ⟨hs, fun _ h => h, fun _ h => by simp at h⟩
  | cons i rest ih =>
    intro s hP hs
    have hPi : P i := hP i (by simp)
    obtain ⟨h1, h2, h3⟩ := ih (body i s) (fun j hj => hP j (by simp [hj])) (hInv i s hPi hs)
    refine ⟨h1, fun j hj => h2 j (hPres i j s hPi hs hj), ?_⟩
    intro j hj
    rcases List.mem_cons.mp hj with rfl | hj
    · exact h2 _ (hEst _ s hPi hs)
    · exact h3 j hj

/-- The initialisation loop: links kept, `rank = index` and `not_head = false` on `0 .. n-1`,
the other arrays untouched. -/
theorem init_loop_spec (n : Nat) (s : SampState) :
    (∀ a, (((List.range n).foldl init_body s).L a).next = (s.L a).next) ∧
    (∀ i, i < n → (((List.range n).foldl init_body s).L i).rank = i) ∧
    (∀ i, i < n → ((List.range n).foldl init_body s).not_head i = false) ∧
    ((List.range n).foldl init_body s).in_samp = s.in_samp ∧
    ((List.range n).foldl init_body s).samplist = s.samplist ∧
    ((List.range n).foldl init_body s).head_index = s.head_index := by
  have key := parallel_for_slots (fun i t => init_body t i)
    (fun t => (∀ a, (t.L a).next = (s.L a).next) ∧ t.in_samp = s.in_samp ∧
      t.samplist = s.samplist ∧ t.head_index = s.head_index)
    (fun i t => (t.L i).rank = i ∧ t.not_head i = false)
    (fun i t ht => by
      refine ⟨fun a => ?_, ht.2.1, ht.2.2.1, ht.2.2.2⟩
      show ((setRank t.L i i) a).next = _
      rw [setRank_next]; exact ht.1 a)
    (fun i t _ => by
      refine ⟨setRank_rank_same _ _ _, ?_⟩
      show Function.update t.not_head i false i = false
      rw [Function.update_same])
    (fun i j t _ hj => by
      dsimp only at hj ⊢
      by_cases hji : j = i
      · subst hji
        refine ⟨setRank_rank_same _ _ _, ?_⟩
        show Function.update t.not_head j false j = false
        rw [Function.update_same]
      · refine ⟨?_, ?_⟩
        · show ((setRank t.L i i) j).rank = _
          rw [setRank_other _ _ _ _ hji]; exact hj.1
        · show Function.update t.not_head i false j = false
          rw [Function.update_noteq hji]; exact hj.2)
    (List.range n) s ⟨fun _ => rfl, rfl, rfl, rfl⟩
  have hfold : parallel_for (List.range n) (fun i t => init_body t i) s
      = (List.range n).foldl init_body s := rfl
  rw [hfold] at key
  exact ⟨key.1.1, fun i hi => (key.2.2 i (List.mem_range.mpr hi)).1,
    fun i hi => (key.2.2 i (List.mem_range.mpr hi)).2, key.1.2.1, key.1.2.2.1, key.1.2.2.2⟩

theorem gen_sample_L (n : Nat) (ns : Int) (draw : Nat → Nat) (i : Nat) (s : SampState) :
    (gen_sample n ns draw i s).L = s.L := by
  unfold gen_sample; split <;> rfl

theorem gen_sample_samplist (n : Nat) (ns : Int) (draw : Nat → Nat) (i : Nat) (s : SampState) :
    (gen_sample n ns draw i s).samplist = s.samplist := by
  unfold gen_sample; split <;> rfl

theorem gen_sample_head_index (n : Nat) (ns : Int) (draw : Nat → Nat) (i : Nat)
    (s : SampState) : (gen_sample n ns draw i s).head_index = s.head_index := by
  unfold gen_sample; split <;> rfl

theorem gen_sample_in_samp (n : Nat) (ns : Int) (draw : Nat → Nat) (i : Nat) (s : SampState) :
    (gen_sample n ns draw i s).in_samp =
      Function.update s.in_samp i (drawn_in_samp n ns draw s.L i) := by
  unfold gen_sample drawn_in_samp
  split <;> rename_i h <;> simp [h]

theorem gen_sample_not_head (n : Nat) (ns : Int) (draw : Nat → Nat) (i : Nat) (s : SampState) :
    (gen_sample n ns draw i s).not_head =
      match (s.L i).next with
      | none => s.not_head
      | some p => Function.update s.not_head (s.L p).rank true := by
  unfold gen_sample; split <;> rfl

/-- An index below `2^31` survives the conversion to `int`. -/
theorem size_to_int_of_lt (i : Nat) (h : i < 2 ^ 31) : size_to_int i = (i : Int) := by
  unfold size_to_int
  have hm : i % 2 ^ 32 = i := Nat.mod_eq_of_lt (by omega)
  rw [hm, if_pos h]

/-- An index below `2^32` whose conversion to `int` is not negative is below `2^31`, and the
conversion returns it. -/
theorem size_to_int_nonneg (i : Nat) (h : i < 2 ^ 32) (h0 : 0 ≤ size_to_int i) :
    size_to_int i = (i : Int) := by
  unfold size_to_int at h0 ⊢
  rw [Nat.mod_eq_of_lt h] at h0 ⊢
  by_cases h31 : i < 2 ^ 31
  · rw [if_pos h31]
  · rw [if_neg h31] at h0
    omega

/-- The `gen_sample` pass, in any order: `L`, `samplist` and `head_index` are untouched, slot
`i < n` of `in_samp` holds `drawn_in_samp`, the successor of every node is marked in
`not_head`, and a mark that was not there before is the stored rank of some successor. -/
theorem gen_pass (n : Nat) (ns : Int) (draw : Nat → Nat) (s : SampState) (sched : List Nat)
    (hs : IsSchedule n sched) :
    (parallel_for sched (gen_sample n ns draw) s).L = s.L ∧
    (parallel_for sched (gen_sample n ns draw) s).samplist = s.samplist ∧
    (parallel_for sched (gen_sample n ns draw) s).head_index = s.head_index ∧
    (∀ i, i < n → (parallel_for sched (gen_sample n ns draw) s).in_samp i
        = drawn_in_samp n ns draw s.L i) ∧
    (∀ i, i < n → ∀ p, (s.L i).next = some p →
        (parallel_for sched (gen_sample n ns draw) s).not_head (s.L p).rank = true) ∧
    (∀ j, (parallel_for sched (gen_sample n ns draw) s).not_head j = true →
        s.not_head j = true ∨ ∃ i p, i < n ∧ (s.L i).next = some p ∧ (s.L p).rank = j) := by
  have key := parallel_for_slots_on (gen_sample n ns draw) (fun i => i < n)
    (fun t => t.L = s.L ∧ t.samplist = s.samplist ∧ t.head_index = s.head_index ∧
      ∀ j, t.not_head j = true →
        s.not_head j = true ∨ ∃ i p, i < n ∧ (s.L i).next = some p ∧ (s.L p).rank = j)
    (fun i t => t.in_samp i = drawn_in_samp n ns draw s.L i ∧
      ∀ p, (s.L i).next = some p → t.not_head (s.L p).rank = true)
    (fun i t hi ht => by
      dsimp only at ht ⊢
      rw [gen_sample_L, gen_sample_samplist, gen_sample_head_index, gen_sample_not_head,
        ht.1]
      refine ⟨rfl, ht.2.1, ht.2.2.1, ?_⟩
      intro j hj
      cases hnx : (s.L i).next with
      | none => rw [hnx] at hj; exact ht.2.2.2 j hj
      | some p =>
        rw [hnx] at hj
        dsimp only at hj
        by_cases hjp : j = (s.L p).rank
        · exact Or.inr ⟨i, p, hi, hnx, hjp.symm⟩
        · rw [Function.update_noteq hjp] at hj
          exact ht.2.2.2 j hj)
    (fun i t _ ht => by
      dsimp only at ht ⊢
      rw [gen_sample_in_samp, gen_sample_not_head, ht.1]
      refine ⟨by rw [Function.update_same], ?_⟩
      intro p hp
      rw [hp]
      dsimp only
      rw [Function.update_same])
    (fun i j t _ ht hj => by
      dsimp only at ht hj ⊢
      rw [gen_sample_in_samp, gen_sample_not_head, ht.1]
      refine ⟨?_, ?_⟩
      · by_cases hji : j = i
        · subst hji; rw [Function.update_same]
        · rw [Function.update_noteq hji]; exact hj.1
      · intro p hp
        cases hnx : (s.L i).next with
        | none => exact hj.2 p hp
        | some q =>
          dsimp only
          by_cases hpq : (s.L p).rank = (s.L q).rank
          · rw [hpq, Function.update_same]
          · rw [Function.update_noteq hpq]; exact hj.2 p hp)
    sched s (fun i hi => (mem_schedule hs i).mp hi) ⟨rfl, rfl, rfl, fun j hj => Or.inl hj⟩
  refine ⟨key.1.1, key.1.2.1, key.1.2.2.1, ?_, ?_, key.1.2.2.2⟩
  · intro i hi; exact (key.2.2 i ((mem_schedule hs i).mpr hi)).1
  · intro i hi; exact (key.2.2 i ((mem_schedule hs i).mpr hi)).2

/-- The `include_head` pass, in any order, when `h < n` is the only index below `n` whose
`not_head` flag is false: `head_index` becomes `h`, `in_samp[h]` becomes `h` converted to
`int`, and nothing else changes. -/
theorem include_pass (n h : Nat) (s : SampState) (sched : List Nat) (hs : IsSchedule n sched)
    (hh : h < n) (hhead : s.not_head h = false)
    (huniq : ∀ i, i < n → s.not_head i = false → i = h) :
    (parallel_for sched include_head s).L = s.L ∧
    (parallel_for sched include_head s).samplist = s.samplist ∧
    (parallel_for sched include_head s).not_head = s.not_head ∧
    (parallel_for sched include_head s).head_index = h ∧
    (parallel_for sched include_head s).in_samp h = (size_to_int h) ∧
    (∀ i, i ≠ h → (parallel_for sched include_head s).in_samp i = s.in_samp i) := by
  have step : ∀ i (t : SampState), i < n → t.not_head = s.not_head →
      include_head i t = if i = h then
        { t with in_samp := Function.update t.in_samp h (size_to_int h), head_index := h } else t := by
    intro i t hi hnh
    unfold include_head
    by_cases hih : i = h
    · subst hih; rw [hnh, if_pos hhead, if_pos rfl]
    · rw [if_neg hih, hnh, if_neg]
      intro hf
      exact hih (huniq i hi hf)
  have key := parallel_for_slots_on include_head (fun i => i < n)
    (fun t => t.L = s.L ∧ t.samplist = s.samplist ∧ t.not_head = s.not_head ∧
      ∀ i, i ≠ h → t.in_samp i = s.in_samp i)
    (fun i t => i = h → t.head_index = h ∧ t.in_samp h = (size_to_int h))
    (fun i t hi ht => by
      dsimp only at ht ⊢
      rw [step i t hi ht.2.2.1]
      by_cases hih : i = h
      · rw [if_pos hih]
        refine ⟨ht.1, ht.2.1, ht.2.2.1, fun j hj => ?_⟩
        show Function.update t.in_samp h (size_to_int h) j = _
        rw [Function.update_noteq hj]; exact ht.2.2.2 j hj
      · rw [if_neg hih]; exact ht)
    (fun i t hi ht hih => by
      dsimp only at ht ⊢
      rw [step i t hi ht.2.2.1, if_pos hih]
      refine ⟨rfl, ?_⟩
      show Function.update t.in_samp h (size_to_int h) h = _
      rw [Function.update_same])
    (fun i j t hi ht hj hjh => by
      dsimp only at ht hj ⊢
      rw [step i t hi ht.2.2.1]
      by_cases hih : i = h
      · rw [if_pos hih]
        refine ⟨rfl, ?_⟩
        show Function.update t.in_samp h (size_to_int h) h = _
        rw [Function.update_same]
      · rw [if_neg hih]; exact hj hjh)
    sched s (fun i hi => (mem_schedule hs i).mp hi) ⟨rfl, rfl, rfl, fun _ _ => rfl⟩
  have hgood := key.2.2 h ((mem_schedule hs h).mpr hh) rfl
  exact ⟨key.1.1, key.1.2.1, key.1.2.2.1, hgood.1, hgood.2, key.1.2.2.2⟩

theorem drawn_in_samp_congr (n : Nat) (ns : Int) (draw : Nat → Nat) (L1 L2 : Heap) (i : Nat)
    (h : (L1 i).next = (L2 i).next) :
    drawn_in_samp n ns draw L1 i = drawn_in_samp n ns draw L2 i := by
  unfold drawn_in_samp; rw [h]

theorem wf_head_pos {L : Heap} {n : Nat} {ch : List Nat} (h : WellFormed L n ch) :
    0 < ch.length := by
  rw [wf_length h]; exact h.1

/-- The state after the initialisation loop and the two sampling passes on a well-formed
array, for all schedules, draws, sample targets and initial contents of the scratch arrays:
links kept, `rank = index`, `not_head` false exactly at the head, `head_index` the head,
`in_samp` = own index converted to `int` for the head and otherwise as drawn, `samplist`
untouched. -/
theorem after_sampling_spec (L : Heap) (n : Nat) (ch : List Nat) (hwf : WellFormed L n ch)
    (hd : Nat) (hhd : ch.head? = some hd)
    (sch : SampSched) (hgen : IsSchedule n sch.gen) (hincl : IsSchedule n sch.incl)
    (draw : Nat → Nat) (mem : SampState) (hmem : mem.L = L) (num_samples : Int) :
    (∀ a, ((after_sampling sch draw mem n num_samples).L a).next = (L a).next) ∧
    (∀ i, i < n → ((after_sampling sch draw mem n num_samples).L i).rank = i) ∧
    (∀ i, i < n → ((after_sampling sch draw mem n num_samples).not_head i = false ↔ i = hd)) ∧
    (after_sampling sch draw mem n num_samples).head_index = hd ∧
    (after_sampling sch draw mem n num_samples).in_samp hd = size_to_int hd ∧
    (∀ i, i < n → i ≠ hd →
      (after_sampling sch draw mem n num_samples).in_samp i
        = drawn_in_samp n (sample_target n num_samples) draw L i) ∧
    (after_sampling sch draw mem n num_samples).samplist = mem.samplist := by
  have hpos := wf_head_pos hwf
  have hhd0 : ch[0] = hd := by
    rw [List.head?_eq_getElem?, List.getElem?_eq_getElem hpos] at hhd
    exact Option.some.inj hhd
  subst hhd0
  have hnd := wf_nodup hwf
  obtain ⟨a1, a2, a3, -, a5, -⟩ := init_loop_spec n { mem with head_index := SIZE_MAX }
  obtain ⟨b1, b2, -, b4, b5, b6⟩ := gen_pass n (sample_target n num_samples) draw
    ((List.range n).foldl init_body { mem with head_index := SIZE_MAX }) sch.gen hgen
  -- the marks after `gen_sample`
  have hmark : ∀ j, j < n →
      ((parallel_for sch.gen (gen_sample n (sample_target n num_samples) draw)
        ((List.range n).foldl init_body { mem with head_index := SIZE_MAX })).not_head j = false
        ↔ j = ch[0]) := by
    intro j hj
    constructor
    · intro hfalse
      by_contra hne
      obtain ⟨q, hq, rfl⟩ := wf_pos hwf j hj
      have hq0 : q ≠ 0 := fun h0 => hne (by subst h0; rfl)
      have hpred : q - 1 < ch.length := by omega
      have hlink := hwf.2.2 (q - 1) hpred
      rw [show q - 1 + 1 = q by omega, List.getElem?_eq_getElem hq] at hlink
      have := b5 ch[q - 1] (wf_lt hwf _ hpred) ch[q] (by rw [a1, hmem]; exact hlink)
      rw [a2 _ hj, hfalse] at this
      exact Bool.noConfusion this
    · intro hj0
      cases hv : (parallel_for sch.gen (gen_sample n (sample_target n num_samples) draw)
        ((List.range n).foldl init_body { mem with head_index := SIZE_MAX })).not_head j with
      | false => rfl
      | true =>
        exfalso
        rcases b6 j hv with h0 | ⟨i, p, hi, hnx, hrk⟩
        · rw [a3 j hj] at h0; exact Bool.noConfusion h0
        · obtain ⟨q, hq, rfl⟩ := wf_pos hwf i hi
          rw [a1, hmem, hwf.2.2 q hq] at hnx
          have hq1 : q + 1 < ch.length := by
            by_contra hcon
            rw [List.getElem?_eq_none (by omega)] at hnx
            exact Option.noConfusion hnx
          rw [List.getElem?_eq_getElem hq1] at hnx
          have hp : p = ch[q + 1] := (Option.some.inj hnx).symm
          rw [hp, a2 _ (wf_lt hwf _ hq1), hj0] at hrk
          have := hnd.getElem_inj_iff.mp hrk
          omega
  have hh : ch[0] < n := wf_lt hwf 0 hpos
  obtain ⟨c1, c2, c3, c4, c5, c6⟩ := include_pass n ch[0] _ sch.incl hincl hh
    ((hmark ch[0] hh).mpr rfl) (fun i hi hf => (hmark i hi).mp hf)
  have hun : after_sampling sch draw mem n num_samples =
      parallel_for sch.incl include_head
        (parallel_for sch.gen (gen_sample n (sample_target n num_samples) draw)
          ((List.range n).foldl init_body { mem with head_index := SIZE_MAX })) := rfl
  rw [hun]
  refine ⟨?_, ?_, ?_, c4, c5, ?_, ?_⟩
  · intro a; rw [c1, b1, a1, hmem]
  · intro i hi; rw [c1, b1, a2 i hi]
  · intro i hi; rw [c3]; exact hmark i hi
  · intro i hi hne
    rw [c6 i hne, b4 i hi]
    exact drawn_in_samp_congr _ _ _ _ _ _ (by rw [a1, hmem])
  · rw [c2, b2, a5]

theorem wf_head {L : Heap} {n : Nat} {ch : List Nat} (h : WellFormed L n ch) :
    ∃ hd, ch.head? = some hd ∧ hd < n := by
  have hpos := wf_head_pos h
  refine ⟨ch[0], ?_, wf_lt h 0 hpos⟩
  rw [List.head?_eq_getElem?, List.getElem?_eq_getElem hpos]

/-- Claim C10, amended. On a well-formed array of `1 ≤ n ≤ 2^31` nodes (every index fits the
`int` entries of `in_samp`), for every `num_samples`, every outcome of the draws, every order
of the iterations of the two sampling passes and every initial content of the scratch arrays:
after `gen_sample` and `include_head` exactly one index below `n` has `not_head` false,
`head_index` is that index and it is the head of the chain, and the head and the tail are in
the sample (`in_samp` holds their own index, which is `≥ 0`). -/
theorem C10_sampling_passes_head_and_tail (L : Heap) (n : Nat) (ch : List Nat)
    (hwf : WellFormed L n ch) (hn : n ≤ 2 ^ 31) (sch : SampSched) (hgen : IsSchedule n sch.gen)
    (hincl : IsSchedule n sch.incl) (draw : Nat → Nat) (in_samp0 : Nat → Int)
    (not_head0 : Nat → Bool) (samplist0 : Heap) (num_samples : Int) :
    (∃ hd, hd < n ∧ ch.head? = some hd ∧
      (after_sampling sch draw (samp_start L in_samp0 not_head0 samplist0) n
        num_samples).head_index = hd ∧
      (∀ i, i < n → ((after_sampling sch draw (samp_start L in_samp0 not_head0 samplist0) n
        num_samples).not_head i = false ↔ i = hd)) ∧
      (after_sampling sch draw (samp_start L in_samp0 not_head0 samplist0) n
        num_samples).in_samp hd = (hd : Int) ∧
      0 ≤ (after_sampling sch draw (samp_start L in_samp0 not_head0 samplist0) n
        num_samples).in_samp hd) ∧
    (∃ tl, tl < n ∧ ch.getLast? = some tl ∧
      (after_sampling sch draw (samp_start L in_samp0 not_head0 samplist0) n
        num_samples).in_samp tl = (tl : Int) ∧
      0 ≤ (after_sampling sch draw (samp_start L in_samp0 not_head0 samplist0) n
        num_samples).in_samp tl) := by
  obtain ⟨hd, hhd, hlt⟩ := wf_head hwf
  obtain ⟨-, -, s3, s4, s5, s6, -⟩ := after_sampling_spec L n ch hwf hd hhd sch hgen hincl
    draw (samp_start L in_samp0 not_head0 samplist0) rfl num_samples
  rw [size_to_int_of_lt hd (by omega)] at s5
  refine ⟨⟨hd, hlt, hhd, s4, s3, s5, by rw [s5]; exact Int.ofNat_nonneg hd⟩, ?_⟩
  have hpos := wf_head_pos hwf
  have hlast : ch.length - 1 < ch.length := by omega
  have htl : (after_sampling sch draw (samp_start L in_samp0 not_head0 samplist0) n
      num_samples).in_samp ch[ch.length - 1] = ((ch[ch.length - 1] : Nat) : Int) := by
    by_cases he : ch[ch.length - 1] = hd
    · rw [he]; exact s5
    · rw [s6 _ (wf_lt hwf _ hlast) he]
      unfold drawn_in_samp
      rw [hwf.2.2 _ hlast, List.getElem?_eq_none (by omega), if_pos rfl]
      exact size_to_int_of_lt _ (by have := wf_lt hwf _ hlast; omega)
  refine ⟨ch[ch.length - 1], wf_lt hwf _ hlast, ?_, htl, by rw [htl]; exact Int.ofNat_nonneg _⟩
  rw [List.getLast?_eq_getElem?, List.getElem?_eq_getElem hlast]

/-- Witness for C10 (amended): the chain `2 → 0 → 1` with no node drawn. -/
theorem C10_sampling_passes_head_and_tail_witness :
    WellFormed (mkNodes [some 1, none, some 0]) 3 [2, 0, 1] ∧ 3 ≤ 2 ^ 31 ∧
    (∃ hd, hd < 3 ∧ [2, 0, 1].head? = some hd ∧
      (after_sampling ⟨[1, 0, 2], [2, 1, 0], [], []⟩ (fun _ => 1)
        (samp_start (mkNodes [some 1, none, some 0]) (fun _ => 5) (fun _ => true) zeroed) 3
        1).head_index = hd ∧
      (∀ i, i < 3 → ((after_sampling ⟨[1, 0, 2], [2, 1, 0], [], []⟩ (fun _ => 1)
        (samp_start (mkNodes [some 1, none, some 0]) (fun _ => 5) (fun _ => true) zeroed) 3
        1).not_head i = false ↔ i = hd)) ∧
      (after_sampling ⟨[1, 0, 2], [2, 1, 0], [], []⟩ (fun _ => 1)
        (samp_start (mkNodes [some 1, none, some 0]) (fun _ => 5) (fun _ => true) zeroed) 3
        1).in_samp hd = (hd : Int) ∧
      0 ≤ (after_sampling ⟨[1, 0, 2], [2, 1, 0], [], []⟩ (fun _ => 1)
        (samp_start (mkNodes [some 1, none, some 0]) (fun _ => 5) (fun _ => true) zeroed) 3
        1).in_samp hd) ∧
    (∃ tl, tl < 3 ∧ [2, 0, 1].getLast? = some tl ∧
      (after_sampling ⟨[1, 0, 2], [2, 1, 0], [], []⟩ (fun _ => 1)
        (samp_start (mkNodes [some 1, none, some 0]) (fun _ => 5) (fun _ => true) zeroed) 3
        1).in_samp tl = (tl : Int) ∧
      0 ≤ (after_sampling ⟨[1, 0, 2], [2, 1, 0], [], []⟩ (fun _ => 1)
        (samp_start (mkNodes [some 1, none, some 0]) (fun _ => 5) (fun _ => true) zeroed) 3
        1).in_samp tl) :=
  ⟨by decide, by decide,
   C10_sampling_passes_head_and_tail (mkNodes [some 1, none, some 0]) 3 [2, 0, 1] (by decide)
     (by decide) ⟨[1, 0, 2], [2, 1, 0], [], []⟩ (by decide) (by decide) (fun _ => 1)
     (fun _ => 5) (fun _ => true) zeroed 1⟩

/-! ## The later phases of `SamplingBasedListRanking` when every node is sampled -/

/-- Invariant rule for a `parallel_for` whose body contains a loop: if iteration `i`, started
with `Inv` and `Pre i`, returns with `Inv` and `Post i` and disturbs no other slot, then a
schedule without repetitions returns with `Post i` for every scheduled `i`. -/
theorem parallel_for_fuel_slots {σ : Type} (body : Nat → σ → Option σ) (P : Nat → Prop)
    (Inv : σ → Prop) (Pre Post : Nat → σ → Prop)
    (hStep : ∀ i s, P i → Inv s → Pre i s →
      ∃ s', body i s = some s' ∧ Inv s' ∧ Post i s' ∧
        (∀ j, j ≠ i → Pre j s → Pre j s') ∧ (∀ j, j ≠ i → Post j s → Post j s')) :
    ∀ (sched : List Nat), sched.Nodup → (∀ i, i ∈ sched → P i) → ∀ s, Inv s →
      (∀ i, i ∈ sched → Pre i s) →
      ∃ s', parallel_for_fuel sched body s = some s' ∧ Inv s' ∧
        (∀ i, i ∈ sched → Post i s') ∧ (∀ j, j ∉ sched → Post j s → Post j s') := by
  intro sched
  induction sched with
  | nil =>
    intro _ _ s hs _
    exact ⟨s, rfl, hs, fun _ h => by simp at h, fun _ _ h => h⟩
  | cons i rest ih =>
    intro hnd hP s hs hpre
    have hi : i ∉ rest := (List.nodup_cons.mp hnd).1
    obtain ⟨s1, e1, inv1, post1, fpre, fpost⟩ := hStep i s (hP i (by simp)) hs
      (hpre i (by simp))
    obtain ⟨s2, e2, inv2, post2, fr2⟩ := ih (List.nodup_cons.mp hnd).2
      (fun j hj => hP j (by simp [hj])) s1 inv1
      (fun j hj => fpre j (fun h => hi (h ▸ hj)) (hpre j (by simp [hj])))
    refine ⟨s2, ?_, inv2, ?_, ?_⟩
    · simp only [parallel_for_fuel, e1]; exact e2
    · intro j hj
      rcases List.mem_cons.mp hj with rfl | hj
      · exact fr2 _ hi post1
      · exact post2 j hj
    · intro j hj hpost
      have hji : j ≠ i := fun h => hj (by simp [h])
      exact fr2 j (fun h => hj (by simp [h])) (fpost j hji hpost)

/-- Run of `build_list` for a sampled node `i` with `in_samp[i] = i` whose successor is
sampled too: the entry of `i` has its rank raised by one (modulo `2^64`) and its `next` set to
the successor's entry; the entry of the tail is not touched. -/
theorem build_list_next_sampled (fuel i : Nat) (s : SampState)
    (hi : s.in_samp i = (i : Int))
    (hnx : ∀ p, (s.L i).next = some p → s.in_samp (s.L p).rank = ((s.L p).rank : Int)) :
    build_list (fuel + 1) i s = some { s with samplist :=
      match (s.L i).next with
      | none => s.samplist
      | some p => setNext (setRank s.samplist i (((s.samplist i).rank + 1) % 2 ^ 64)) i
          (some (s.L p).rank) } := by
  unfold build_list
  rw [if_pos (by rw [hi]; exact Int.ofNat_nonneg i), hi, Int.toNat_ofNat]
  cases hn : (s.L i).next with
  | none => simp [build_list_loop]
  | some p =>
    have hp := hnx p hn
    have hnot : ¬ ((s.L p).rank : Int) < 0 := by omega
    simp [build_list_loop, bumpRank, hp, hnot, hi]

theorem wf_next_lt {L : Heap} {n : Nat} {ch : List Nat} (h : WellFormed L n ch) (i p : Nat)
    (hi : i < n) (hnx : (L i).next = some p) : p < n := by
  obtain ⟨q, hq, rfl⟩ := wf_pos h i hi
  rw [h.2.2 q hq] at hnx
  have hq1 : q + 1 < ch.length := by
    by_contra hcon
    rw [List.getElem?_eq_none (by omega)] at hnx
    exact Option.noConfusion hnx
  rw [List.getElem?_eq_getElem hq1] at hnx
  rw [← Option.some.inj hnx]
  exact wf_lt h _ hq1

theorem setNext_other (H : Heap) (a : Nat) (p : Option Nat) (b : Nat) (h : b ≠ a) :
    setNext H a p b = H b := by
  simp [setNext, Function.update_noteq h]

/-- The list-contraction pass when every node is sampled (`in_samp[i] = i`) and the sample
list starts zeroed, in any order: entry `i` gets the link of node `i` and rank `1`, or rank
`0` for the tail. -/
theorem build_pass_all_sampled (L : Heap) (n : Nat) (ch : List Nat) (hwf : WellFormed L n ch)
    (t : SampState) (hnext : ∀ a, (t.L a).next = (L a).next)
    (hrank : ∀ i, i < n → (t.L i).rank = i) (hin : ∀ i, i < n → t.in_samp i = (i : Int))
    (hz : t.samplist = zeroed) (sched : List Nat) (hs : IsSchedule n sched) (fuel : Nat)
    (hfuel : 1 ≤ fuel) :
    ∃ u, parallel_for_fuel sched (build_list fuel) t = some u ∧
      u.L = t.L ∧ u.in_samp = t.in_samp ∧ u.head_index = t.head_index ∧
      ∀ i, i < n → u.samplist i =
        { next := (L i).next, rank := if (L i).next = none then 0 else 1 } := by
  obtain ⟨fuel, rfl⟩ : ∃ f, fuel = f + 1 := ⟨fuel - 1, by omega⟩
  have key := parallel_for_fuel_slots (build_list (fuel + 1)) (fun i => i < n)
    (fun s => s.L = t.L ∧ s.in_samp = t.in_samp ∧ s.head_index = t.head_index)
    (fun i s => s.samplist i = { next := none, rank := 0 })
    (fun i s => s.samplist i =
      { next := (L i).next, rank := if (L i).next = none then 0 else 1 })
    (fun i s hi hinv hpre => by
      dsimp only at hi hinv hpre ⊢
      have hi' : s.in_samp i = (i : Int) := by rw [hinv.2.1]; exact hin i hi
      have hnx : ∀ p, (s.L i).next = some p →
          s.in_samp (s.L p).rank = ((s.L p).rank : Int) := by
        intro p hp
        rw [hinv.1, hnext] at hp
        have hp' := wf_next_lt hwf i p hi hp
        rw [hinv.1, hinv.2.1, hrank p hp']
        exact hin p hp'
      refine ⟨_, build_list_next_sampled fuel i s hi' hnx, hinv, ?_, ?_, ?_⟩
      · dsimp only
        cases hn : (s.L i).next with
        | none =>
          have hn' : (L i).next = none := by rw [← hnext, ← hinv.1]; exact hn
          dsimp only
          rw [hpre, hn']; simp
        | some p =>
          have hn' : (L i).next = some p := by rw [← hnext, ← hinv.1]; exact hn
          have hp' := wf_next_lt hwf i p hi hn'
          dsimp only
          rw [hinv.1, hrank p hp', hn']
          simp [setNext, setRank, hpre]
      · intro j hj hpj
        dsimp only
        cases hn : (s.L i).next with
        | none => exact hpj
        | some p =>
          dsimp only
          rw [setNext_other _ _ _ _ hj, setRank_other _ _ _ _ hj]; exact hpj
      · intro j hj hpj
        dsimp only
        cases hn : (s.L i).next with
        | none => exact hpj
        | some p =>
          dsimp only
          rw [setNext_other _ _ _ _ hj, setRank_other _ _ _ _ hj]; exact hpj)
    sched (hs.nodup_iff.mpr (List.nodup_range n)) (fun i hi => (mem_schedule hs i).mp hi)
    t ⟨rfl, rfl, rfl⟩ (fun i _ => by dsimp only; rw [hz]; rfl)
  obtain ⟨u, e, inv, post, -⟩ := key
  exact ⟨u, e, inv.1, inv.2.1, inv.2.2, fun i hi => post i ((mem_schedule hs i).mpr hi)⟩

theorem chainWeight_step (S : Heap) (cs : List Nat) (k : Nat) (hk : k < cs.length) :
    chainWeight S cs k = (S cs[k]).rank + chainWeight S cs (k + 1) := by
  unfold chainWeight
  rw [List.drop_eq_getElem_cons hk, List.map_cons, List.sum_cons]

theorem chainWeight_end (S : Heap) (cs : List Nat) (k : Nat) (hk : cs.length ≤ k) :
    chainWeight S cs k = 0 := by
  unfold chainWeight
  rw [List.drop_eq_nil_of_le hk]; rfl

theorem size_sub_le (a b : Nat) (h : b ≤ a) : size_sub a b = a - b := by
  unfold size_sub; rw [if_pos h]

/-- The first serial walk along a chain `cs` of the sample list counts its entries and adds
up their rank fields. -/
theorem samp_walk1_spec (S : Heap) (cs : List Nat) (hl : Linked S cs) :
    ∀ fuel k m ctr, k ≤ cs.length → cs.length - k < fuel →
      samp_walk1 fuel S cs[k]? m ctr
        = some (m + (cs.length - k), ctr + chainWeight S cs k) := by
  intro fuel
  induction fuel with
  | zero => intro k m ctr _ hf; omega
  | succ fuel ih =>
    intro k m ctr hk hf
    by_cases hkn : k < cs.length
    · rw [List.getElem?_eq_getElem hkn]
      simp only [samp_walk1]
      rw [hl k hkn, ih (k + 1) _ _ (by omega) (by omega), chainWeight_step S cs k hkn]
      congr 2
      · omega
      · omega
    · rw [List.getElem?_eq_none (by omega), chainWeight_end S cs k (by omega)]
      simp only [samp_walk1]
      congr 2
      omega

/-- The second serial walk along a chain `cs` of the sample list, started with the sum of
the rank fields from position `k` on, replaces the rank field of every entry from `k` on by
the sum of the original rank fields from that entry on, and touches nothing else. -/
theorem samp_walk2_spec (S : Heap) (cs : List Nat) (hnd : cs.Nodup) (hl : Linked S cs) :
    ∀ fuel k ctr (S1 : Heap), k ≤ cs.length → cs.length - k < fuel →
      (∀ a, (S1 a).next = (S a).next) →
      (∀ j (h : j < cs.length), k ≤ j → (S1 cs[j]).rank = (S cs[j]).rank) →
      ctr = chainWeight S cs k →
      ∃ S2, samp_walk2 fuel S1 cs[k]? ctr = some S2 ∧
        (∀ a, (S2 a).next = (S a).next) ∧
        (∀ j (h : j < cs.length), k ≤ j → (S2 cs[j]).rank = chainWeight S cs j) ∧
        (∀ a, (∀ j (h : j < cs.length), k ≤ j → cs[j] ≠ a) → S2 a = S1 a) := by
  intro fuel
  induction fuel with
  | zero => intro k ctr S1 _ hf; omega
  | succ fuel ih =>
    intro k ctr S1 hk hf hnext hrk hctr
    by_cases hkn : k < cs.length
    · rw [List.getElem?_eq_getElem hkn]
      simp only [samp_walk2]
      rw [setRank_next, hnext, hl k hkn, hrk k hkn (Nat.le_refl k)]
      have hstep := chainWeight_step S cs k hkn
      obtain ⟨S2, h1, h2, h3, h4⟩ := ih (k + 1) (size_sub ctr (S cs[k]).rank)
        (setRank S1 cs[k] ctr) (by omega) (by omega)
        (fun a => by rw [setRank_next, hnext])
        (fun j hj hkj => by
          rw [setRank_other _ _ _ _ (fun heq => by
            have := hnd.getElem_inj_iff.mp heq
            omega)]
          exact hrk j hj (by omega))
        (by rw [size_sub_le _ _ (by omega)]; omega)
      refine ⟨S2, h1, h2, ?_, ?_⟩
      · intro j hj hkj
        by_cases hjk : j = k
        · subst hjk
          rw [h4 cs[j] (fun j' hj' hlt heq => by
            have := hnd.getElem_inj_iff.mp heq
            omega)]
          rw [setRank_rank_same, hctr]
        · exact h3 j hj (by omega)
      · intro a ha
        rw [h4 a (fun j hj hkj => ha j hj (by omega))]
        exact setRank_other _ _ _ _ (fun h => ha k hkn (Nat.le_refl k) h.symm)
    · rw [List.getElem?_eq_none (by omega)]
      simp only [samp_walk2]
      exact ⟨S1, rfl, hnext, fun j hj hkj => by omega, fun a _ => rfl⟩

/-- With rank field `1` in every entry of the chain but the last, and `0` in the last, the
sum of the rank fields from position `k` on is the number of entries after position `k`. -/
theorem chainWeight_unit (S : Heap) (cs : List Nat)
    (hw : ∀ j (h : j < cs.length), (S cs[j]).rank = if j + 1 < cs.length then 1 else 0) :
    ∀ d k, k + d = cs.length → chainWeight S cs k = cs.length - 1 - k := by
  intro d
  induction d with
  | zero => intro k hk; rw [chainWeight_end S cs k (by omega)]; omega
  | succ d ih =>
    intro k hk
    have hkn : k < cs.length := by omega
    rw [chainWeight_step S cs k hkn, hw k hkn, ih (k + 1) (by omega)]
    split <;> omega

/-- The two serial walks when every node is sampled and the sample list holds the links of
`L` with rank `1` (tail: `0`): the entry of the node at chain position `p` gets rank
`n-1-p`. -/
theorem serial_walks_all_sampled (L : Heap) (n : Nat) (ch : List Nat)
    (hwf : WellFormed L n ch) (hd : Nat) (hhd : ch.head? = some hd) (u : SampState)
    (hhi : u.head_index = hd) (hin : u.in_samp hd = (hd : Int))
    (hS : ∀ i, i < n → u.samplist i =
      { next := (L i).next, rank := if (L i).next = none then 0 else 1 })
    (fuel : Nat) (hfuel : n < fuel) :
    ∃ v, serial_walks fuel u = some v ∧ v.L = u.L ∧ v.in_samp = u.in_samp ∧
      ∀ p (hp : p < ch.length), (v.samplist ch[p]).rank = n - 1 - p := by
  have hlen := wf_length hwf
  have hnd := wf_nodup hwf
  have hl : Linked u.samplist ch := by
    intro k hk
    rw [hS _ (wf_lt hwf k hk)]
    exact hwf.2.2 k hk
  have hw : ∀ j (h : j < ch.length),
      (u.samplist ch[j]).rank = if j + 1 < ch.length then 1 else 0 := by
    intro j hj
    rw [hS _ (wf_lt hwf j hj)]
    dsimp only
    rw [hwf.2.2 j hj]
    by_cases hj1 : j + 1 < ch.length
    · rw [List.getElem?_eq_getElem hj1, if_pos hj1]; simp
    · rw [List.getElem?_eq_none (by omega), if_neg hj1]; simp
  have hcw := chainWeight_unit u.samplist ch hw
  have hsave : some (u.in_samp u.head_index).toNat = ch[0]? := by
    rw [hhi, hin, Int.toNat_ofNat, ← List.head?_eq_getElem?, hhd]
  have e1 := samp_walk1_spec u.samplist ch hl fuel 0 0 0 (Nat.zero_le _) (by omega)
  obtain ⟨S2, e2, -, r2, -⟩ := samp_walk2_spec u.samplist ch hnd hl fuel 0
    (0 + chainWeight u.samplist ch 0) u.samplist (Nat.zero_le _) (by omega) (fun _ => rfl)
    (fun _ _ _ => rfl) (by omega)
  refine ⟨{ u with samplist := S2 }, ?_, rfl, rfl, ?_⟩
  · unfold serial_walks
    rw [hsave]
    dsimp only
    rw [e1]
    dsimp only
    rw [e2]
  · intro p hp
    show (S2 ch[p]).rank = _
    rw [r2 p hp (Nat.zero_le _), hcw (ch.length - p) p (by omega), hlen]

/-- Run of `finalize_list` for a sampled node `i` with `in_samp[i] = i` whose successor
does not look unsampled: only the rank of `i` is written. -/
theorem finalize_list_next_sampled (fuel i : Nat) (s : SampState)
    (hi : s.in_samp i = (i : Int))
    (hnx : ∀ p, (s.L i).next = some p →
      0 ≤ s.in_samp ((setRank s.L i (s.samplist i).rank) p).rank) :
    finalize_list (fuel + 1) i s
      = some { s with L := setRank s.L i (s.samplist i).rank } := by
  unfold finalize_list
  rw [if_pos (by rw [hi]; exact Int.ofNat_nonneg i), hi, Int.toNat_ofNat]
  dsimp only
  rw [setRank_next]
  cases hn : (s.L i).next with
  | none => simp [finalize_list_loop]
  | some p =>
    have hp := hnx p hn
    have hnot : ¬ s.in_samp ((setRank s.L i (s.samplist i).rank) p).rank < 0 := by omega
    simp only [finalize_list_loop, hnot, if_false]

/-- The expansion pass when every node is sampled, in any order: node `i` gets the rank
stored in its sample-list entry, and the links are kept. -/
theorem finalize_pass_all_sampled (L : Heap) (n : Nat) (v : SampState)
    (hsucc : ∀ i p, i < n → (L i).next = some p → p < n)
    (hnext : ∀ a, (v.L a).next = (L a).next) (hrank : ∀ i, i < n → (v.L i).rank < n)
    (hin : ∀ i, i < n → v.in_samp i = (i : Int))
    (hS : ∀ i, i < n → (v.samplist i).rank < n)
    (sched : List Nat) (hs : IsSchedule n sched) (fuel : Nat) (hfuel : 1 ≤ fuel) :
    ∃ w, parallel_for_fuel sched (finalize_list fuel) v = some w ∧
      (∀ a, (w.L a).next = (L a).next) ∧ w.in_samp = v.in_samp ∧
      ∀ i, i < n → (w.L i).rank = (v.samplist i).rank := by
  obtain ⟨fuel, rfl⟩ : ∃ f, fuel = f + 1 := ⟨fuel - 1, by omega⟩
  have key := parallel_for_fuel_slots (finalize_list (fuel + 1)) (fun i => i < n)
    (fun s => (∀ a, (s.L a).next = (L a).next) ∧ s.in_samp = v.in_samp ∧
      s.samplist = v.samplist ∧ ∀ j, j < n → (s.L j).rank < n)
    (fun _ _ => True)
    (fun i s => (s.L i).rank = (v.samplist i).rank)
    (fun i s hi hinv _ => by
      dsimp only at hi hinv ⊢
      obtain ⟨i1, i2, i3, i4⟩ := hinv
      have hi' : s.in_samp i = (i : Int) := by rw [i2]; exact hin i hi
      have hbound : ∀ j, j < n → ((setRank s.L i (s.samplist i).rank) j).rank < n := by
        intro j hj
        by_cases hji : j = i
        · subst hji; rw [setRank_rank_same, i3]; exact hS j hj
        · rw [setRank_other _ _ _ _ hji]; exact i4 j hj
      have hnx : ∀ p, (s.L i).next = some p →
          0 ≤ s.in_samp ((setRank s.L i (s.samplist i).rank) p).rank := by
        intro p hp
        rw [i1] at hp
        rw [i2, hin _ (hbound p (hsucc i p hi hp))]
        exact Int.ofNat_nonneg _
      refine ⟨_, finalize_list_next_sampled fuel i s hi' hnx, ⟨?_, i2, i3, hbound⟩, ?_,
        fun _ _ _ => trivial, ?_⟩
      · intro a
        show ((setRank s.L i (s.samplist i).rank) a).next = _
        rw [setRank_next]; exact i1 a
      · show ((setRank s.L i (s.samplist i).rank) i).rank = _
        rw [setRank_rank_same, i3]
      · intro j hj hpj
        show ((setRank s.L i (s.samplist i).rank) j).rank = _
        rw [setRank_other _ _ _ _ hj]; exact hpj)
    sched (hs.nodup_iff.mpr (List.nodup_range n)) (fun i hi => (mem_schedule hs i).mp hi)
    v ⟨hnext, rfl, rfl, hrank⟩ (fun _ _ => trivial)
  obtain ⟨w, e, inv, post, -⟩ := key
  exact ⟨w, e, inv.1, inv.2.1, fun i hi => post i ((mem_schedule hs i).mpr hi)⟩

/-- Claim C9, amended. On a well-formed array of `1 ≤ n ≤ 2^31` nodes (every index fits the
`int` entries of `in_samp`) with `num_samples ≥ n`, for every outcome of the draws, every
order of the iterations of the four parallel loops and every initial content of `in_samp` and
`not_head`, with the sample-list storage initially zero: `SamplingBasedListRanking` returns
(fuel above `n` suffices), every node is in the sample (`in_samp[i] = i` for all `i < n`,
after the sampling passes and at the end), the rank of the node at chain position `p` is its
distance `n-1-p` to the tail, and no link changes. -/
theorem C9_all_sampled_ranks (L : Heap) (n : Nat) (ch : List Nat) (hwf : WellFormed L n ch)
    (hn : n ≤ 2 ^ 31) (num_samples : Int) (hns : (n : Int) ≤ num_samples) (sch : SampSched)
    (hgen : IsSchedule n sch.gen) (hincl : IsSchedule n sch.incl)
    (hbuild : IsSchedule n sch.build) (hfin : IsSchedule n sch.fin) (draw : Nat → Nat)
    (in_samp0 : Nat → Int) (not_head0 : Nat → Bool) (fuel : Nat) (hfuel : n < fuel) :
    (∀ i, i < n → (after_sampling sch draw (samp_start L in_samp0 not_head0 zeroed) n
      num_samples).in_samp i = (i : Int)) ∧
    ∃ s, SamplingBasedListRanking fuel sch draw (samp_start L in_samp0 not_head0 zeroed) n
        num_samples = some s ∧
      (∀ i, i < n → s.in_samp i = (i : Int)) ∧
      (∀ p (hp : p < ch.length), (s.L ch[p]).rank = n - 1 - p) ∧
      (∀ a, (s.L a).next = (L a).next) := by
  have hlen := wf_length hwf
  obtain ⟨hd, hhd, hlt⟩ := wf_head hwf
  obtain ⟨s1, s2, -, s4, s5, s6, s7⟩ := after_sampling_spec L n ch hwf hd hhd sch hgen hincl
    draw (samp_start L in_samp0 not_head0 zeroed) rfl num_samples
  have hall : ∀ i, i < n → (after_sampling sch draw (samp_start L in_samp0 not_head0 zeroed) n
      num_samples).in_samp i = (i : Int) := by
    intro i hi
    rw [← size_to_int_of_lt i (by omega)]
    by_cases hih : i = hd
    · rw [hih]; exact s5
    · rw [s6 i hi hih]
      unfold drawn_in_samp sample_target
      have hne : num_samples ≠ -1 := by omega
      rw [if_neg hne]
      have hmod : draw i % n < n := Nat.mod_lt _ (by omega)
      have hlt' : ((draw i % n : Nat) : Int) < num_samples := by omega
      rw [if_pos hlt']
      split <;> rfl
  refine ⟨hall, ?_⟩
  obtain ⟨u, eu, u1, u2, u3, u4⟩ := build_pass_all_sampled L n ch hwf _ s1 s2 hall s7
    sch.build hbuild fuel (by omega)
  obtain ⟨v, ev, v1, v2, v3⟩ := serial_walks_all_sampled L n ch hwf hd hhd u
    (by rw [u3]; exact s4) (by rw [u2]; exact hall hd hlt) u4 fuel hfuel
  obtain ⟨w, ew, w1, w2, w3⟩ := finalize_pass_all_sampled L n v
    (fun i p hi hp => wf_next_lt hwf i p hi hp)
    (fun a => by rw [v1, u1]; exact s1 a)
    (fun i hi => by rw [v1, u1, s2 i hi]; exact hi)
    (fun i hi => by rw [v2, u2]; exact hall i hi)
    (fun i hi => by
      obtain ⟨p, hp, rfl⟩ := wf_pos hwf i hi
      rw [v3 p hp]; omega)
    sch.fin hfin fuel (by omega)
  refine ⟨w, ?_, ?_, ?_, w1⟩
  · unfold SamplingBasedListRanking after_walks after_build
    rw [eu]
    simp only [Option.bind]
    rw [ev]
    exact ew
  · intro i hi; rw [w2, v2, u2]; exact hall i hi
  · intro p hp
    rw [w3 _ (wf_lt hwf p hp), v3 p hp]

/-- Witness for C9 (amended): the chain `2 → 0 → 1` with `num_samples = 3`. -/
theorem C9_all_sampled_ranks_witness :
    WellFormed (mkNodes [some 1, none, some 0]) 3 [2, 0, 1] ∧ 3 ≤ 2 ^ 31 ∧
    (∀ i, i < 3 → (after_sampling ⟨[1, 0, 2], [2, 1, 0], [0, 2, 1], [1, 2, 0]⟩ (fun i => i + 7)
      (samp_start (mkNodes [some 1, none, some 0]) (fun _ => -1) (fun _ => true) zeroed) 3
      3).in_samp i = (i : Int)) ∧
    ∃ s, SamplingBasedListRanking 4 ⟨[1, 0, 2], [2, 1, 0], [0, 2, 1], [1, 2, 0]⟩
        (fun i => i + 7)
        (samp_start (mkNodes [some 1, none, some 0]) (fun _ => -1) (fun _ => true) zeroed) 3
        3 = some s ∧
      (∀ i, i < 3 → s.in_samp i = (i : Int)) ∧
      (∀ p (hp : p < [2, 0, 1].length), (s.L [2, 0, 1][p]).rank = 3 - 1 - p) ∧
      (∀ a, (s.L a).next = (mkNodes [some 1, none, some 0] a).next) :=
  ⟨by decide, by decide,
   C9_all_sampled_ranks (mkNodes [some 1, none, some 0]) 3 [2, 0, 1] (by decide) (by decide) 3
     (by decide) ⟨[1, 0, 2], [2, 1, 0], [0, 2, 1], [1, 2, 0]⟩ (by decide) (by decide)
     (by decide) (by decide) (fun i => i + 7) (fun _ => -1) (fun _ => true) 4 (by decide)⟩

/-! ## The default sample target -/

/-- Counterexample to C11 as stated: for `n = 2` the default target is `1`, whose square is
below `2`, so it is not the ceiling of the square root of `2` (which is `2`). -/
theorem C11_default_target_not_ceiling :
    sample_target 2 (-1) = 1 ∧ ¬ IsCeilSqrt 2 (sample_target 2 (-1)) := by
  have h : sample_target 2 (-1) = 1 := by
    unfold sample_target
    rw [if_pos rfl]
    have : Nat.sqrt 2 = 1 := (Nat.eq_sqrt.mpr ⟨by decide, by decide⟩).symm
    rw [this]; rfl
  refine ⟨h, ?_⟩
  rw [h]
  intro hc
  have := hc.2.1
  omega

/-- Claim C11, amended. With `num_samples` unspecified (the sentinel `-1`) the sample target
is the floor of the square root of `n` (the truncation of `sqrt(n)` to an integer): the
greatest `s ≥ 0` with `s * s ≤ n`.  It is the ceiling of the square root exactly when `n` is
a perfect square. -/
theorem C11_default_target_is_floor_sqrt (n : Nat) :
    sample_target n (-1) = (Nat.sqrt n : Int) ∧ IsFloorSqrt n (sample_target n (-1)) ∧
    (IsCeilSqrt n (sample_target n (-1)) ↔ Nat.sqrt n * Nat.sqrt n = n) := by
  have h : sample_target n (-1) = (Nat.sqrt n : Int) := by
    unfold sample_target; rw [if_pos rfl]
  have h1 : Nat.sqrt n * Nat.sqrt n ≤ n := Nat.sqrt_le n
  have h2 : n < (Nat.sqrt n + 1) * (Nat.sqrt n + 1) := Nat.lt_succ_sqrt n
  refine ⟨h, ?_, ?_⟩
  · rw [h]
    refine ⟨Int.ofNat_nonneg _, by exact_mod_cast h1, by exact_mod_cast h2⟩
  · rw [h]
    constructor
    · intro hc
      have h3 : (n : Int) ≤ (Nat.sqrt n : Int) * (Nat.sqrt n : Int) := hc.2.1
      have h4 : n ≤ Nat.sqrt n * Nat.sqrt n := by exact_mod_cast h3
      omega
    · intro heq
      refine ⟨Int.ofNat_nonneg _, by exact_mod_cast heq.ge, ?_⟩
      intro t ht hnt
      by_contra hlt
      have hlt' : t < (Nat.sqrt n : Int) := by omega
      have h5 : t * t < (Nat.sqrt n : Int) * (Nat.sqrt n : Int) := by nlinarith
      have h6 : ((Nat.sqrt n * Nat.sqrt n : Nat) : Int) = (n : Int) := by exact_mod_cast heq
      push_cast at h6
      omega

/-! ## `log2_up` and the number of rounds -/

theorem log2_up_eq_clog (fuel i : Nat) (hi : 0 < i) (hf : i ≤ fuel) :
    log2_up fuel i = some (Nat.clog 2 i) := by
  obtain ⟨k, h1, h2, h3⟩ := log2_up_spec fuel i hi hf
  have hk1 : k ≤ Nat.clog 2 i := h3 _ (Nat.le_pow_clog (by decide) i)
  have hk2 : Nat.clog 2 i ≤ k := (Nat.le_pow_iff_clog_le (by decide)).mp h2
  rw [h1]; congr 1; omega

/-- Claim C20. For every `i > 0`, `log2_up(i)` returns (fuel `i` suffices) the base-2
logarithm of `i` rounded up, the least `a` with `2^a ≥ i`; `log2_up(1) = 0`, `log2_up(2) = 1`,
`log2_up(5) = 3`; and `WyllieListRanking(L, i)` runs exactly that many rounds between its
initialisation pass and its final pass. -/
theorem C20_log2_up_is_clog (i : Nat) (hi : 0 < i) (fuel : Nat) (hf : i ≤ fuel) :
    log2_up fuel i = some (Nat.clog 2 i) ∧ i ≤ 2 ^ Nat.clog 2 i ∧
    (∀ a, i ≤ 2 ^ a → Nat.clog 2 i ≤ a) ∧
    log2_up 1 1 = some 0 ∧ log2_up 2 2 = some 1 ∧ log2_up 5 5 = some 3 ∧
    (∀ (sch : WyllieSched) (mem : WyllieState),
      WyllieListRanking fuel sch mem i = some (parallel_for sch.final v3
        (wyllie_rounds sch.round (parallel_for sch.init v1 mem) (Nat.clog 2 i)))) := by
  have h := log2_up_eq_clog fuel i hi hf
  refine ⟨h, Nat.le_pow_clog (by decide) i,
    fun a ha => (Nat.le_pow_iff_clog_le (by decide)).mp ha, by decide, by decide, by decide, ?_⟩
  intro sch mem
  unfold WyllieListRanking
  simp only [h]

/-- Witness for C20: `i = 5` with fuel `5`. -/
theorem C20_log2_up_is_clog_witness :
    log2_up 5 5 = some (Nat.clog 2 5) ∧ 5 ≤ 2 ^ Nat.clog 2 5 ∧
    (∀ a, 5 ≤ 2 ^ a → Nat.clog 2 5 ≤ a) ∧
    log2_up 1 1 = some 0 ∧ log2_up 2 2 = some 1 ∧ log2_up 5 5 = some 3 ∧
    (∀ (sch : WyllieSched) (mem : WyllieState),
      WyllieListRanking 5 sch mem 5 = some (parallel_for sch.final v3
        (wyllie_rounds sch.round (parallel_for sch.init v1 mem) (Nat.clog 2 5)))) :=
  C20_log2_up_is_clog 5 (by decide) 5 (by decide)

/-! ## The rounds of `WyllieListRanking` -/

/-- Claim C12. In `WyllieListRanking` on a well-formed chain of `n ≥ 1` nodes, for every order
of the iterations and every initial content of the scratch arrays, after `k` pointer-jumping
rounds (for every `k`, in particular `0 ≤ k ≤ log2_up(n)`) the node at chain position `p`,
whose distance to the tail is `n-1-p`, has `D = min(2^k, n-1-p)` and `succ` = the node `2^k`
hops later, or null when fewer than `2^k` nodes follow it; and after the last of the
`log2_up(n)` rounds every `succ` is null and `D` is the distance to the tail. -/
theorem C12_wyllie_round_invariant (L : Heap) (n : Nat) (ch : List Nat)
    (hwf : WellFormed L n ch) (sch : WyllieSched) (hinit : IsSchedule n sch.init)
    (hround : ∀ k, IsSchedule n (sch.round k))
    (D0 Dprime0 : Nat → Nat) (succ0 succprime0 : Nat → Option Nat) :
    (∀ k p (hp : p < ch.length),
      (wyllie_rounds sch.round
        (parallel_for sch.init v1 ⟨L, D0, Dprime0, succ0, succprime0⟩) k).D ch[p]
          = min (2 ^ k) (n - 1 - p) ∧
      (wyllie_rounds sch.round
        (parallel_for sch.init v1 ⟨L, D0, Dprime0, succ0, succprime0⟩) k).succ ch[p]
          = ch[p + 2 ^ k]?) ∧
    (∀ fuel, n ≤ fuel → ∃ m, log2_up fuel n = some m ∧ ∀ p (hp : p < ch.length),
      (wyllie_rounds sch.round
        (parallel_for sch.init v1 ⟨L, D0, Dprime0, succ0, succprime0⟩) m).succ ch[p] = none ∧
      (wyllie_rounds sch.round
        (parallel_for sch.init v1 ⟨L, D0, Dprime0, succ0, succprime0⟩) m).D ch[p]
          = n - 1 - p) := by
  have hlen := wf_length hwf
  have h0 := jumpInv_init L n ch hwf ⟨L, D0, Dprime0, succ0, succprime0⟩ rfl sch.init hinit
  have hall := jumpInv_rounds L n ch hwf sch.round hround _ h0
  refine ⟨fun k p hp => (hall k).2.2 p hp, ?_⟩
  intro fuel hfuel
  obtain ⟨m, hm, hpow, -⟩ := log2_up_spec fuel n hwf.1 hfuel
  refine ⟨m, hm, fun p hp => ?_⟩
  obtain ⟨d, s⟩ := (hall m).2.2 p hp
  rw [d, s]
  refine ⟨List.getElem?_eq_none (by omega), by omega⟩

/-- Witness for C12: the chain `2 → 0 → 1`. -/
theorem C12_wyllie_round_invariant_witness :
    WellFormed (mkNodes [some 1, none, some 0]) 3 [2, 0, 1] ∧
    (∀ k p (hp : p < [2, 0, 1].length),
      (wyllie_rounds (fun _ => [0, 2, 1])
        (parallel_for [2, 1, 0] v1 ⟨mkNodes [some 1, none, some 0], fun _ => 7, fun _ => 8,
          fun _ => some 9, fun _ => none⟩) k).D [2, 0, 1][p] = min (2 ^ k) (3 - 1 - p) ∧
      (wyllie_rounds (fun _ => [0, 2, 1])
        (parallel_for [2, 1, 0] v1 ⟨mkNodes [some 1, none, some 0], fun _ => 7, fun _ => 8,
          fun _ => some 9, fun _ => none⟩) k).succ [2, 0, 1][p] = [2, 0, 1][p + 2 ^ k]?) ∧
    (∀ fuel, 3 ≤ fuel → ∃ m, log2_up fuel 3 = some m ∧ ∀ p (hp : p < [2, 0, 1].length),
      (wyllie_rounds (fun _ => [0, 2, 1])
        (parallel_for [2, 1, 0] v1 ⟨mkNodes [some 1, none, some 0], fun _ => 7, fun _ => 8,
          fun _ => some 9, fun _ => none⟩) m).succ [2, 0, 1][p] = none ∧
      (wyllie_rounds (fun _ => [0, 2, 1])
        (parallel_for [2, 1, 0] v1 ⟨mkNodes [some 1, none, some 0], fun _ => 7, fun _ => 8,
          fun _ => some 9, fun _ => none⟩) m).D [2, 0, 1][p] = 3 - 1 - p) :=
  ⟨by decide,
   C12_wyllie_round_invariant (mkNodes [some 1, none, some 0]) 3 [2, 0, 1] (by decide)
     ⟨[2, 1, 0], fun _ => [0, 2, 1], [1, 0, 2]⟩ (by decide)
     (fun _ => (by decide : IsSchedule 3 [0, 2, 1])) (fun _ => 7) (fun _ => 8)
     (fun _ => some 9) (fun _ => none)⟩

theorem wyllieState_eq (s t : WyllieState) (h1 : s.L = t.L) (h2 : s.D = t.D)
    (h3 : s.Dprime = t.Dprime) (h4 : s.succ = t.succ) (h5 : s.succprime = t.succprime) :
    s = t := by
  cases s; cases t; simp_all

/-- Claim C13. One pointer-jumping round is independent of the order of its iterations:
iteration `i` leaves `L`, `D` and `succ` alone and writes only slot `i` of `Dprime` and
`succprime`, with values computed from `D`, `succ` and the index stored in `rank`; so any two
orders of the `n` iterations give the same state, in which slot `i < n` of the next buffers
holds the simultaneous update (`D[i] + D[succ[i]]` and `succ[succ[i]]`, or `D[i]` and null
when `succ[i]` is null), the slots from `n` on are untouched, and the current buffers are
unchanged. -/
theorem C13_round_order_independent (n : Nat) (s : WyllieState) (sched1 sched2 : List Nat)
    (h1 : IsSchedule n sched1) (h2 : IsSchedule n sched2) :
    parallel_for sched1 v2 s = parallel_for sched2 v2 s ∧
    (parallel_for sched1 v2 s).L = s.L ∧ (parallel_for sched1 v2 s).D = s.D ∧
    (parallel_for sched1 v2 s).succ = s.succ ∧
    (∀ i, i < n →
      (parallel_for sched1 v2 s).Dprime i = jumpD s.D s.succ (fun q => (s.L q).rank) i ∧
      (parallel_for sched1 v2 s).succprime i = jumpS s.succ (fun q => (s.L q).rank) i) ∧
    (∀ i, n ≤ i → (parallel_for sched1 v2 s).Dprime i = s.Dprime i ∧
      (parallel_for sched1 v2 s).succprime i = s.succprime i) ∧
    ((∀ q, (s.L q).rank = q) → ∀ i, i < n →
      (parallel_for sched1 v2 s).Dprime i
        = (match s.succ i with | some q => s.D i + s.D q | none => s.D i) ∧
      (parallel_for sched1 v2 s).succprime i
        = (match s.succ i with | some q => s.succ q | none => none)) ∧
    (∀ i (t : WyllieState), (v2 i t).L = t.L ∧ (v2 i t).D = t.D ∧ (v2 i t).succ = t.succ ∧
      (v2 i t).Dprime = Function.update t.Dprime i (jumpD t.D t.succ (fun q => (t.L q).rank) i) ∧
      (v2 i t).succprime
        = Function.update t.succprime i (jumpS t.succ (fun q => (t.L q).rank) i)) := by
  obtain ⟨a1, a2, a3, a4, a5⟩ := v2_pass s sched1
  obtain ⟨b1, b2, b3, b4, b5⟩ := v2_pass s sched2
  have hin : ∀ i, i < n →
      (parallel_for sched1 v2 s).Dprime i = jumpD s.D s.succ (fun q => (s.L q).rank) i ∧
      (parallel_for sched1 v2 s).succprime i = jumpS s.succ (fun q => (s.L q).rank) i :=
    fun i hi => a4 i ((mem_schedule h1 i).mpr hi)
  have hout : ∀ i, n ≤ i → (parallel_for sched1 v2 s).Dprime i = s.Dprime i ∧
      (parallel_for sched1 v2 s).succprime i = s.succprime i :=
    fun i hi => a5 i (fun hmem => by have := (mem_schedule h1 i).mp hmem; omega)
  refine ⟨?_, a1, a2, a3, hin, hout, ?_, ?_⟩
  · apply wyllieState_eq
    · rw [a1, b1]
    · rw [a2, b2]
    · funext i
      by_cases hi : i < n
      · rw [(hin i hi).1, (b4 i ((mem_schedule h2 i).mpr hi)).1]
      · rw [(hout i (by omega)).1,
          (b5 i (fun hmem => by have := (mem_schedule h2 i).mp hmem; omega)).1]
    · rw [a3, b3]
    · funext i
      by_cases hi : i < n
      · rw [(hin i hi).2, (b4 i ((mem_schedule h2 i).mpr hi)).2]
      · rw [(hout i (by omega)).2,
          (b5 i (fun hmem => by have := (mem_schedule h2 i).mp hmem; omega)).2]
  · intro hid i hi
    obtain ⟨e1, e2⟩ := hin i hi
    rw [e1, e2]
    unfold jumpD jumpS
    cases s.succ i with
    | none => exact ⟨rfl, rfl⟩
    | some q => dsimp only; rw [hid q]; exact ⟨rfl, rfl⟩
  · intro i t
    exact ⟨v2_L i t, v2_D i t, v2_succ i t, v2_Dprime i t, v2_succprime i t⟩

/-- Witness for C13: the orders `0, 1, 2` and `2, 0, 1` of one round on three slots. -/
theorem C13_round_order_independent_witness :
    IsSchedule 3 [0, 1, 2] ∧ IsSchedule 3 [2, 0, 1] ∧
    parallel_for [0, 1, 2] v2 (⟨mkNodes [some 1, none, some 0], fun _ => 1, fun _ => 0,
      fun i => (mkNodes [some 1, none, some 0] i).next, fun _ => none⟩ : WyllieState)
      = parallel_for [2, 0, 1] v2 (⟨mkNodes [some 1, none, some 0], fun _ => 1, fun _ => 0,
      fun i => (mkNodes [some 1, none, some 0] i).next, fun _ => none⟩ : WyllieState) ∧
    (∀ i, i < 3 →
      (parallel_for [0, 1, 2] v2 (⟨mkNodes [some 1, none, some 0], fun _ => 1, fun _ => 0,
      fun i => (mkNodes [some 1, none, some 0] i).next, fun _ => none⟩ : WyllieState)).Dprime i
        = jumpD (⟨mkNodes [some 1, none, some 0], fun _ => 1, fun _ => 0,
      fun i => (mkNodes [some 1, none, some 0] i).next, fun _ => none⟩ : WyllieState).D
            (⟨mkNodes [some 1, none, some 0], fun _ => 1, fun _ => 0,
      fun i => (mkNodes [some 1, none, some 0] i).next, fun _ => none⟩ : WyllieState).succ
            (fun q => ((⟨mkNodes [some 1, none, some 0], fun _ => 1, fun _ => 0,
      fun i => (mkNodes [some 1, none, some 0] i).next, fun _ => none⟩ : WyllieState).L q).rank) i) :=
  ⟨by decide, by decide,
   (C13_round_order_independent 3 (⟨mkNodes [some 1, none, some 0], fun _ => 1, fun _ => 0,
      fun i => (mkNodes [some 1, none, some 0] i).next, fun _ => none⟩ : WyllieState)
      [0, 1, 2] [2, 0, 1] (by decide) (by decide)).1,
   fun i hi => ((C13_round_order_independent 3 (⟨mkNodes [some 1, none, some 0], fun _ => 1, fun _ => 0,
      fun i => (mkNodes [some 1, none, some 0] i).next, fun _ => none⟩ : WyllieState)
      [0, 1, 2] [2, 0, 1] (by decide) (by decide)).2.2.2.2.1 i hi).1⟩

/-! ## `scan_inplace` against `scan_inplace_serial` -/

theorem scan_inplace_serial_succ (A : Nat → Int) (n : Nat) (f : Int → Int → Int) (id : Int) :
    scan_inplace_serial A (n + 1) f id =
      (f (scan_inplace_serial A n f id).1 (max ((scan_inplace_serial A n f id).2 n) id),
       Function.update (scan_inplace_serial A n f id).2 n (scan_inplace_serial A n f id).1) := by
  unfold scan_inplace_serial
  rw [List.range_succ, List.foldl_append]
  rfl

/-- What the serial loop computes, for any operator and seed: the result is the fold of the
seed with the elements clamped against `id`, `A[i]` becomes that fold over the elements before
`i`, and the slots from `n` on are untouched. -/
theorem scan_inplace_serial_spec (A : Nat → Int) (f : Int → Int → Int) (id : Int) :
    ∀ n, (scan_inplace_serial A n f id).1
        = ((List.range n).map (fun j => max (A j) id)).foldl f id ∧
      (∀ i, i < n → (scan_inplace_serial A n f id).2 i
        = ((List.range i).map (fun j => max (A j) id)).foldl f id) ∧
      (∀ j, n ≤ j → (scan_inplace_serial A n f id).2 j = A j) := by
  intro n
  induction n with
  | zero => exact ⟨rfl, fun i hi => by omega, fun j _ => rfl⟩
  | succ n ih =>
    obtain ⟨h1, h2, h3⟩ := ih
    rw [scan_inplace_serial_succ]
    refine ⟨?_, ?_, ?_⟩
    · dsimp only
      rw [h3 n (Nat.le_refl n), h1, List.range_succ, List.map_append, List.foldl_append]
      rfl
    · intro i hi
      dsimp only
      by_cases hin : i = n
      · subst hin; rw [Function.update_same, h1]
      · rw [Function.update_noteq hin]; exact h2 i (by omega)
    · intro j hj
      dsimp only
      rw [Function.update_noteq (by omega)]; exact h3 j (by omega)

theorem seg_zero_eq (A : Nat → Int) (n : Nat) :
    seg A 0 n = (List.range n).map (fun j => max (A j) 0) := by
  unfold seg
  apply List.map_congr_left
  intro i _
  rw [Nat.zero_add]

/-- Claim C18. For every integer array `A` of length `n ≥ 1` (entries of either sign) and every
associative `f` with `0` as two-sided identity, `scan_inplace(A, n, f, 0)` returns (fuel `n`
suffices, whatever the auxiliary array initially holds) and ends with the same array and the
same return value as `scan_inplace_serial` on a copy: `A[i]` becomes the fold with `f` of
`max(a_j, 0)` over `j < i` (`0` for `i = 0`) and the return value is that fold over all
`j < n`. -/
theorem C18_scan_inplace_eq_serial_at_zero (A : Nat → Int) (n : Nat) (hn : 1 ≤ n)
    (f : Int → Int → Int) (hassoc : ∀ x y z, f (f x y) z = f x (f y z))
    (hid : ∀ x, f 0 x = x ∧ f x 0 = x) (L0 : Nat → Int) (fuel : Nat) (hfuel : n ≤ fuel) :
    scan_inplace fuel L0 A n f 0 = some (scan_inplace_serial A n f 0) ∧
    (scan_inplace_serial A n f 0).1 = ((List.range n).map (fun j => max (A j) 0)).foldl f 0 ∧
    (∀ i, i < n → (scan_inplace_serial A n f 0).2 i
      = ((List.range i).map (fun j => max (A j) 0)).foldl f 0) ∧
    (scan_inplace_serial A n f 0).2 0 = 0 := by
  obtain ⟨R, e, g, fr⟩ := scan_inplace_spec f hassoc fuel L0 A n 0 hn hfuel
  obtain ⟨s1, s2, s3⟩ := scan_inplace_serial_spec A f 0 n
  refine ⟨?_, s1, s2, ?_⟩
  · rw [e]
    congr 1
    apply Prod.ext
    · show fold1 f (seg A 0 n) = _
      rw [s1, ← seg_zero_eq, foldl_fold1 f hassoc _ (seg_ne_nil A 0 n hn), (hid _).1]
    · show R = _
      funext i
      by_cases hi : i < n
      · rw [g i hi, s2 i hi, seg_zero_eq]
      · rw [fr i (by omega), s3 i (by omega)]
  · rw [s2 0 (by omega)]; rfl

/-- Witness for C18: `A = [3, -2, 4]` with `f` = addition. -/
theorem C18_scan_inplace_eq_serial_at_zero_witness :
    scan_inplace 3 (fun _ => 99) (ofList [3, -2, 4] 0) 3 (fun x y => x + y) 0
      = some (scan_inplace_serial (ofList [3, -2, 4] 0) 3 (fun x y => x + y) 0) ∧
    (scan_inplace_serial (ofList [3, -2, 4] 0) 3 (fun x y => x + y) 0).1
      = ((List.range 3).map (fun j => max (ofList [3, -2, 4] 0 j) 0)).foldl
          (fun x y => x + y) 0 ∧
    (∀ i, i < 3 → (scan_inplace_serial (ofList [3, -2, 4] 0) 3 (fun x y => x + y) 0).2 i
      = ((List.range i).map (fun j => max (ofList [3, -2, 4] 0 j) 0)).foldl
          (fun x y => x + y) 0) ∧
    (scan_inplace_serial (ofList [3, -2, 4] 0) 3 (fun x y => x + y) 0).2 0 = 0 :=
  C18_scan_inplace_eq_serial_at_zero (ofList [3, -2, 4] 0) 3 (by decide) (fun x y => x + y)
    (fun x y z => Int.add_assoc x y z) (fun x => ⟨Int.zero_add x, Int.add_zero x⟩)
    (fun _ => 99) 3 (by decide)

/-! ## The accesses of `scan_up` and `scan_down` to the auxiliary array -/

theorem scan_up_log_succ (f : Int → Int → Int) (fuel : Nat) (A : Nat → Int) (a n : Nat)
    (L : Nat → Int) (l : Nat) :
    scan_up_log f (fuel + 1) A a n L l =
      if n = 1 then some (max (A a) 0, L, [])
      else
        match scan_up_log f fuel A a (splitPoint n) L l with
        | none => none
        | some (lv, L1, w1) =>
          match scan_up_log f fuel A (a + splitPoint n) (n - splitPoint n) L1
              (l + splitPoint n) with
          | none => none
          | some (rv, L2, w2) =>
            some (f lv rv, Function.update L2 (l + (splitPoint n - 1)) lv,
              w1 ++ w2 ++ [(l + (splitPoint n - 1), lv)]) :=
  rfl

theorem scan_down_log_succ (f : Int → Int → Int) (fuel : Nat) (R : Nat → Int) (r n : Nat)
    (L : Nat → Int) (l : Nat) (s : Int) :
    scan_down_log f (fuel + 1) R r n L l s =
      if n = 1 then some (Function.update R r s, [])
      else
        match scan_down_log f fuel R r (splitPoint n) L l s with
        | none => none
        | some (R1, t1) =>
          match scan_down_log f fuel R1 (r + splitPoint n) (n - splitPoint n) L
              (l + splitPoint n) (f s (L (l + (splitPoint n - 1)))) with
          | none => none
          | some (R2, t2) =>
            some (R2, (l + (splitPoint n - 1), L (l + (splitPoint n - 1))) :: (t1 ++ t2)) :=
  rfl

/-- Dropping the log from `scan_up_log` gives `scan_up`. -/
theorem scan_up_log_erase (f : Int → Int → Int) :
    ∀ fuel (A : Nat → Int) a n (L : Nat → Int) l,
      (scan_up_log f fuel A a n L l).map (fun r => (r.1, r.2.1)) = scan_up f fuel A a n L l := by
  intro fuel
  induction fuel with
  | zero => intro A a n L l; rfl
  | succ fuel ih =>
    intro A a n L l
    rw [scan_up_log_succ, scan_up_succ]
    by_cases hn : n = 1
    · rw [if_pos hn, if_pos hn]; rfl
    · rw [if_neg hn, if_neg hn, ← ih A a (splitPoint n) L l]
      cases scan_up_log f fuel A a (splitPoint n) L l with
      | none => rfl
      | some p1 =>
        obtain ⟨t1, L1, w1⟩ := p1
        dsimp only [Option.map_some']
        rw [← ih A (a + splitPoint n) (n - splitPoint n) L1 (l + splitPoint n)]
        cases scan_up_log f fuel A (a + splitPoint n) (n - splitPoint n) L1
            (l + splitPoint n) with
        | none => rfl
        | some p2 => rfl

/-- Dropping the log from `scan_down_log` gives `scan_down`. -/
theorem scan_down_log_erase (f : Int → Int → Int) :
    ∀ fuel (R : Nat → Int) r n (L : Nat → Int) l s,
      (scan_down_log f fuel R r n L l s).map Prod.fst = scan_down f fuel R r n L l s := by
  intro fuel
  induction fuel with
  | zero => intro R r n L l s; rfl
  | succ fuel ih =>
    intro R r n L l s
    rw [scan_down_log_succ, scan_down_succ]
    by_cases hn : n = 1
    · rw [if_pos hn, if_pos hn]; rfl
    · rw [if_neg hn, if_neg hn, ← ih R r (splitPoint n) L l s]
      cases scan_down_log f fuel R r (splitPoint n) L l s with
      | none => rfl
      | some p1 =>
        obtain ⟨R1, t1⟩ := p1
        dsimp only [Option.map_some']
        rw [← ih R1 (r + splitPoint n) (n - splitPoint n) L (l + splitPoint n)]
        cases scan_down_log f fuel R1 (r + splitPoint n) (n - splitPoint n) L
            (l + splitPoint n) (f s (L (l + (splitPoint n - 1)))) with
        | none => rfl
        | some p2 => rfl

theorem range'_split (l n mc : Nat) (h1 : 1 ≤ mc) (h2 : mc < n) :
    List.range' l (n - 1)
      = List.range' l (mc - 1) ++ (l + (mc - 1)) :: List.range' (l + mc) (n - mc - 1) := by
  have e1 : n - 1 = (n - mc) + (mc - 1) := by omega
  have e2 : n - mc = (n - mc - 1) + 1 := by omega
  have e3 : l + (mc - 1) + 1 = l + mc := by omega
  rw [e1, ← List.range'_append_1]
  congr 1
  conv_lhs => rw [e2]
  rw [List.range'_succ, e3]

/-- The writes of the up-sweep on a range of `n` elements with auxiliary offset `l`: the
indices written are exactly `l, …, l + n - 2`, each once; nothing else changes; every logged
value is the final content of its slot; and for `n ≥ 2` the last write puts the result of the
up-sweep of the left part at `l + ⌈n/2⌉ - 1`. -/
theorem scan_up_log_val (f : Int → Int → Int) :
    ∀ fuel (A : Nat → Int) a n (L : Nat → Int) l t L' w, 1 ≤ n →
      scan_up_log f fuel A a n L l = some (t, L', w) →
      (w.map Prod.fst).Perm (List.range' l (n - 1)) ∧
      (∀ j, (j < l ∨ l + (n - 1) ≤ j) → L' j = L j) ∧
      (∀ p, p ∈ w → L' p.1 = p.2) ∧
      (2 ≤ n → ∃ tl Ll, scan_up f (fuel - 1) A a (splitPoint n) L l = some (tl, Ll) ∧
        w.getLast? = some (l + (splitPoint n - 1), tl)) := by
  intro fuel
  induction fuel with
  | zero => intro A a n L l t L' w _ h; simp [scan_up_log] at h
  | succ fuel ih =>
    intro A a n L l t L' w h1 h
    rw [scan_up_log_succ] at h
    by_cases hn : n = 1
    · rw [if_pos hn] at h
      simp only [Option.some.injEq, Prod.mk.injEq] at h
      obtain ⟨-, hL, hw⟩ := h
      subst hn
      subst hw
      refine ⟨by simp, fun j _ => by rw [← hL], fun p hp => by simp at hp, fun h2 => by omega⟩
    · rw [if_neg hn] at h
      obtain ⟨b1, b2⟩ := splitPoint_bounds n (by omega)
      cases e1 : scan_up_log f fuel A a (splitPoint n) L l with
      | none => rw [e1] at h; simp at h
      | some p1 =>
        obtain ⟨t1, L1, w1⟩ := p1
        rw [e1] at h
        dsimp only at h
        cases e2 : scan_up_log f fuel A (a + splitPoint n) (n - splitPoint n) L1
            (l + splitPoint n) with
        | none => rw [e2] at h; simp at h
        | some p2 =>
          obtain ⟨t2, L2, w2⟩ := p2
          rw [e2] at h
          simp only [Option.some.injEq, Prod.mk.injEq] at h
          obtain ⟨-, hL, hw⟩ := h
          obtain ⟨p1, f1, v1, -⟩ := ih A a (splitPoint n) L l t1 L1 w1 b1 e1
          obtain ⟨p2, f2, v2, -⟩ := ih A (a + splitPoint n) (n - splitPoint n) L1
            (l + splitPoint n) t2 L2 w2 (by omega) e2
          have m1 : ∀ p, p ∈ w1 → l ≤ p.1 ∧ p.1 < l + (splitPoint n - 1) := by
            intro p hp
            have := (p1.mem_iff (a := p.1)).mp (List.mem_map_of_mem Prod.fst hp)
            exact List.mem_range'_1.mp this
          have m2 : ∀ p, p ∈ w2 → l + splitPoint n ≤ p.1 ∧
              p.1 < l + splitPoint n + (n - splitPoint n - 1) := by
            intro p hp
            have := (p2.mem_iff (a := p.1)).mp (List.mem_map_of_mem Prod.fst hp)
            exact List.mem_range'_1.mp this
          refine ⟨?_, ?_, ?_, ?_⟩
          · rw [← hw, range'_split l n (splitPoint n) b1 b2]
            simp only [List.map_append, List.map_cons, List.map_nil, List.append_assoc]
            exact p1.append ((List.perm_append_singleton _ _).trans (p2.cons _))
          · intro j hj
            rw [← hL, Function.update_noteq (by omega), f2 j (by omega), f1 j (by omega)]
          · intro p hp
            rw [← hw] at hp
            rw [← hL]
            rcases List.mem_append.mp hp with hp12 | hpx
            · rcases List.mem_append.mp hp12 with hp1 | hp2
              · have := m1 p hp1
                rw [Function.update_noteq (by omega), f2 _ (by omega)]
                exact v1 p hp1
              · have := m2 p hp2
                rw [Function.update_noteq (by omega)]
                exact v2 p hp2
            · rw [List.mem_singleton.mp hpx]
              exact Function.update_same _ _ _
          · intro _
            have he := scan_up_log_erase f fuel A a (splitPoint n) L l
            rw [e1] at he
            refine ⟨t1, L1, he.symm, ?_⟩
            rw [← hw, List.getLast?_concat]

/-- The reads of the down-sweep over an auxiliary array that agrees, inside
`[l, l + n - 1)`, with what the up-sweep left for the same range: it returns, and its reads
(index and value) are exactly the writes of the up-sweep, the first read being the last
write. -/
theorem scan_down_log_spec (f : Int → Int → Int) :
    ∀ fuel (A : Nat → Int) a n (L : Nat → Int) l t (L' : Nat → Int) w (L'' R : Nat → Int) r s,
      1 ≤ n → scan_up_log f fuel A a n L l = some (t, L', w) →
      (∀ j, l ≤ j → j < l + (n - 1) → L'' j = L' j) →
      ∃ R' rd, scan_down_log f fuel R r n L'' l s = some (R', rd) ∧ rd.Perm w ∧
        (∀ q, w.getLast? = some q → rd.head? = some q) := by
  intro fuel
  induction fuel with
  | zero => intro A a n L l t L' w L'' R r s _ h; simp [scan_up_log] at h
  | succ fuel ih =>
    intro A a n L l t L' w L'' R r s h1 h hagree
    rw [scan_up_log_succ] at h
    rw [scan_down_log_succ]
    by_cases hn : n = 1
    · rw [if_pos hn] at h ⊢
      simp only [Option.some.injEq, Prod.mk.injEq] at h
      obtain ⟨-, -, hw⟩ := h
      subst hw
      exact ⟨_, _, rfl, List.Perm.refl _, fun q hq => by simp at hq⟩
    · rw [if_neg hn] at h ⊢
      obtain ⟨b1, b2⟩ := splitPoint_bounds n (by omega)
      cases e1 : scan_up_log f fuel A a (splitPoint n) L l with
      | none => rw [e1] at h; simp at h
      | some p1 =>
        obtain ⟨t1, L1, w1⟩ := p1
        rw [e1] at h
        dsimp only at h
        cases e2 : scan_up_log f fuel A (a + splitPoint n) (n - splitPoint n) L1
            (l + splitPoint n) with
        | none => rw [e2] at h; simp at h
        | some p2 =>
          obtain ⟨t2, L2, w2⟩ := p2
          rw [e2] at h
          simp only [Option.some.injEq, Prod.mk.injEq] at h
          obtain ⟨-, hL, hw⟩ := h
          obtain ⟨-, f2, -, -⟩ := scan_up_log_val f fuel A (a + splitPoint n)
            (n - splitPoint n) L1 (l + splitPoint n) t2 L2 w2 (by omega) e2
          have hL' : ∀ j, L' j = Function.update L2 (l + (splitPoint n - 1)) t1 j := by
            intro j; rw [← hL]
          have hmid : L'' (l + (splitPoint n - 1)) = t1 := by
            rw [hagree _ (by omega) (by omega), hL', Function.update_same]
          obtain ⟨R1, rd1, d1, q1, -⟩ := ih A a (splitPoint n) L l t1 L1 w1 L'' R r s b1 e1
            (fun j hj1 hj2 => by
              rw [hagree j hj1 (by omega), hL', Function.update_noteq (by omega),
                f2 j (by omega)])
          obtain ⟨R2, rd2, d2, q2, -⟩ := ih A (a + splitPoint n) (n - splitPoint n) L1
            (l + splitPoint n) t2 L2 w2 L'' R1 (r + splitPoint n)
            (f s (L'' (l + (splitPoint n - 1)))) (by omega) e2
            (fun j hj1 hj2 => by
              rw [hagree j (by omega) (by omega), hL', Function.update_noteq (by omega)])
          rw [d1]
          dsimp only
          rw [d2]
          refine ⟨_, _, rfl, ?_, ?_⟩
          · rw [← hw, hmid]
            exact ((q1.append q2).cons _).trans (List.perm_append_singleton _ _).symm
          · intro q hq
            rw [← hw, List.getLast?_concat] at hq
            rw [List.head?_cons, hmid]
            exact hq

/-- Claim C17. For every range of `n ≥ 1` elements (any offsets into `A`, the auxiliary array
and the output, any operator): every range of size `m ≥ 2` is split into a left part of
`⌈m/2⌉` elements and a right part of the remaining `m - ⌈m/2⌉`; with fuel `n` both sweeps
return; `scan_up` writes the auxiliary slots `l, …, l + n - 2` and no other, each exactly once
(none for `n = 1`); `scan_down` reads exactly these slots and finds the values `scan_up` wrote;
and for `n ≥ 2` the slot `scan_down` reads for the range itself, `l + ⌈n/2⌉ - 1`, is the one
`scan_up` wrote last for it, holding the up-sweep result of its left part. -/
theorem C17_scan_aux_accesses (f : Int → Int → Int) (A : Nat → Int) (a n l r : Nat)
    (hn : 1 ≤ n) (L R : Nat → Int) (s : Int) (fuel : Nat) (hfuel : n ≤ fuel) :
    (∀ m, 2 ≤ m → splitPoint m = (m + 1) / 2 ∧ m - splitPoint m = m / 2 ∧
      1 ≤ splitPoint m ∧ 1 ≤ m - splitPoint m) ∧
    (∀ fl m (A1 L1 : Nat → Int) a1 l1, m ≠ 1 → scan_up f (fl + 1) A1 a1 m L1 l1 =
      match scan_up f fl A1 a1 (splitPoint m) L1 l1 with
      | none => none
      | some (lv, L2) =>
        match scan_up f fl A1 (a1 + splitPoint m) (m - splitPoint m) L2 (l1 + splitPoint m) with
        | none => none
        | some (rv, L3) => some (f lv rv, Function.update L3 (l1 + (splitPoint m - 1)) lv)) ∧
    (∀ fl m (R1 L1 : Nat → Int) r1 l1 s1, m ≠ 1 → scan_down f (fl + 1) R1 r1 m L1 l1 s1 =
      match scan_down f fl R1 r1 (splitPoint m) L1 l1 s1 with
      | none => none
      | some R2 =>
        scan_down f fl R2 (r1 + splitPoint m) (m - splitPoint m) L1 (l1 + splitPoint m)
          (f s1 (L1 (l1 + (splitPoint m - 1))))) ∧
    ∃ t L' w R' rd,
      scan_up_log f fuel A a n L l = some (t, L', w) ∧
      scan_up f fuel A a n L l = some (t, L') ∧
      scan_down_log f fuel R r n L' l s = some (R', rd) ∧
      scan_down f fuel R r n L' l s = some R' ∧
      (w.map Prod.fst).Perm (List.range' l (n - 1)) ∧
      (w.map Prod.fst).Nodup ∧ w.length = n - 1 ∧
      (∀ j, j ∈ w.map Prod.fst ↔ l ≤ j ∧ j < l + (n - 1)) ∧
      (∀ j, (j < l ∨ l + (n - 1) ≤ j) → L' j = L j) ∧
      (∀ p, p ∈ w → L' p.1 = p.2) ∧
      rd.Perm w ∧
      (2 ≤ n → ∃ tl Ll, scan_up f (fuel - 1) A a (splitPoint n) L l = some (tl, Ll) ∧
        w.getLast? = some (l + (splitPoint n - 1), tl) ∧
        rd.head? = some (l + (splitPoint n - 1), tl)) := by
  refine ⟨?_, ?_, ?_, ?_⟩
  · intro m hm
    unfold splitPoint; split <;> omega
  · intro fl m A1 L1 a1 l1 hm
    rw [scan_up_succ, if_neg hm]
  · intro fl m R1 L1 r1 l1 s1 hm
    rw [scan_down_succ, if_neg hm]
  · obtain ⟨t, L', e⟩ := scan_up_some f fuel A a n L l hn hfuel
    have he := scan_up_log_erase f fuel A a n L l
    rw [e] at he
    cases e' : scan_up_log f fuel A a n L l with
    | none => rw [e'] at he; simp at he
    | some p =>
      obtain ⟨t', L'', w⟩ := p
      rw [e'] at he
      simp only [Option.map_some', Option.some.injEq, Prod.mk.injEq] at he
      obtain ⟨rfl, rfl⟩ := he
      obtain ⟨hp, hfr, hval, hlast⟩ := scan_up_log_val f fuel A a n L l t' L'' w hn e'
      obtain ⟨R', rd, d, hq, hhead⟩ := scan_down_log_spec f fuel A a n L l t' L'' w L'' R r s
        hn e' (fun _ _ _ => rfl)
      have hd := scan_down_log_erase f fuel R r n L'' l s
      rw [d] at hd
      refine ⟨t', L'', w, R', rd, rfl, e, d, hd.symm, hp, ?_, ?_, ?_, hfr, hval, hq, ?_⟩
      · exact hp.nodup_iff.mpr (List.nodup_range' _ _)
      · have := hp.length_eq
        rw [List.length_map, List.length_range'] at this
        exact this
      · intro j
        rw [hp.mem_iff, List.mem_range'_1]
      · intro h2
        obtain ⟨tl, Ll, el, hl⟩ := hlast h2
        exact ⟨tl, Ll, el, hl, hhead _ hl⟩

/-- Witness for C17: `n = 5` at offsets `a = 1`, `l = 2`, `r = 1` with `f` = addition. -/
theorem C17_scan_aux_accesses_witness :
    (∃ t L' w R' rd,
      scan_up_log (fun x y => x + y) 5 (ofList [9, 3, 1, 4, 1, 5] 0) 1 5 (fun _ => 99) 2
        = some (t, L', w) ∧
      scan_down_log (fun x y => x + y) 5 (fun _ => 0) 1 5 L' 2 0 = some (R', rd) ∧
      (w.map Prod.fst).Perm (List.range' 2 (5 - 1)) ∧ rd.Perm w) ∧
    (scan_up_log (fun x y => x + y) 5 (ofList [9, 3, 1, 4, 1, 5] 0) 1 5 (fun _ => 99) 2).map
      (fun p => p.2.2) = some [(2, 3), (3, 4), (5, 1), (4, 8)] :=
  ⟨by
    obtain ⟨-, -, -, t, L', w, R', rd, h1, -, h3, -, h5, -, -, -, -, -, h11, -⟩ :=
      C17_scan_aux_accesses (fun x y => x + y) (ofList [9, 3, 1, 4, 1, 5] 0) 1 5 2 1
        (by decide) (fun _ => 99) (fun _ => 0) 0 5 (by decide)
    exact ⟨t, L', w, R', rd, h1, h3, h5, h11⟩,
   by decide⟩

/-! ## List contraction for an arbitrary sample -/

theorem setRank_setRank (H : Heap) (a x y : Nat) : setRank (setRank H a x) a y = setRank H a y := by
  funext b
  by_cases h : b = a
  · subst h; simp [setRank]
  · simp [setRank, Function.update_noteq h]

theorem setRank_self (H : Heap) (a : Nat) : setRank H a (H a).rank = H := by
  funext b
  by_cases h : b = a
  · subst h; simp [setRank]
  · simp [setRank, Function.update_noteq h]

theorem setNext_same (H : Heap) (a : Nat) (p : Option Nat) :
    setNext H a p a = { next := p, rank := (H a).rank } := by
  simp [setNext]

/-- After a position `p` that is not the last there is a first later position `q ≤ len` that
is marked or is the end. -/
theorem next_marked_or_end (sp : Nat → Prop) (len p : Nat) (hp : p < len) :
    ∃ q, p < q ∧ q ≤ len ∧ (q < len → sp q) ∧ ∀ j, p < j → j < q → ¬ sp j := by
  classical
  have hex : ∃ q, p < q ∧ (len ≤ q ∨ sp q) := ⟨len, hp, Or.inl (Nat.le_refl _)⟩
  refine ⟨Nat.find hex, (Nat.find_spec hex).1, ?_, ?_, ?_⟩
  · exact Nat.find_min' hex ⟨hp, Or.inl (Nat.le_refl _)⟩
  · intro hlt
    rcases (Nat.find_spec hex).2 with h | h
    · omega
    · exact h
  · intro j hpj hjq hsp
    exact Nat.find_min hex hjq ⟨hpj, Or.inr hsp⟩

theorem getD_chain (ch : List Nat) (j : Nat) (hj : j < ch.length) : ch.getD j 0 = ch[j] := by
  simp [List.getD, List.getElem?_eq_getElem hj]

theorem sampState_samplist_self (s : SampState) : { s with samplist := s.samplist } = s := by
  cases s; rfl

/-- Statement `samplist[k].rank++` when the field is below `SIZE_MAX`: no wrap. -/
theorem bumpRank_no_wrap (s : SampState) (k : Nat) (h : (s.samplist k).rank + 1 < 2 ^ 64) :
    bumpRank s k = { s with samplist := setRank s.samplist k ((s.samplist k).rank + 1) } := by
  unfold bumpRank
  rw [Nat.mod_eq_of_lt h]

/-- The `while` loop of `build_list`, started at chain position `j` when the positions from
`j` up to `q` are unsampled and `q` is sampled or is the end of the chain: it raises the rank
of the entry of `i` by `q - j` (the field stays below `2^64`) and stops with `currnode` at
position `q`, which is null at the end of the chain. -/
theorem build_list_loop_run (L : Heap) (n : Nat) (ch : List Nat) (hwf : WellFormed L n ch)
    (i q : Nat) (hq : q ≤ ch.length) :
    ∀ d j (s : SampState), j + d = q →
      (∀ a, (s.L a).next = (L a).next) → (∀ a, a < n → (s.L a).rank = a) →
      (∀ j', j ≤ j' → j' < q → s.in_samp (ch.getD j' 0) < 0) →
      (q < ch.length → 0 ≤ s.in_samp (ch.getD q 0)) →
      (s.samplist (s.in_samp i).toNat).rank + d < 2 ^ 64 →
      ∀ fuel, d < fuel →
      build_list_loop fuel i s ch[j]? =
        some ({ s with samplist := (setRank s.samplist (s.in_samp i).toNat
                  ((s.samplist (s.in_samp i).toNat).rank + d)) }, ch[q]?) := by
  intro d
  induction d with
  | zero =>
    intro j s hj hN hR hun hsq _ fuel hfuel
    obtain ⟨fuel, rfl⟩ : ∃ f, fuel = f + 1 := ⟨fuel - 1, by omega⟩
    have hjq : j = q := by omega
    subst hjq
    by_cases hjl : j < ch.length
    · have hsq' := hsq hjl
      rw [List.getElem?_eq_getElem hjl]
      simp only [build_list_loop]
      rw [getD_chain ch j hjl] at hsq'
      rw [hR _ (wf_lt hwf j hjl), if_neg (by omega), Nat.add_zero, setRank_self,
        sampState_samplist_self]
    · rw [List.getElem?_eq_none (by omega)]
      simp only [build_list_loop]
      rw [Nat.add_zero, setRank_self, sampState_samplist_self]
  | succ d ih =>
    intro j s hj hN hR hun hsq hb fuel hfuel
    obtain ⟨fuel, rfl⟩ : ∃ f, fuel = f + 1 := ⟨fuel - 1, by omega⟩
    have hjl : j < ch.length := by omega
    have hunj := hun j (Nat.le_refl j) (by omega)
    rw [getD_chain ch j hjl] at hunj
    rw [List.getElem?_eq_getElem hjl]
    simp only [build_list_loop]
    rw [hR _ (wf_lt hwf j hjl), if_pos hunj, bumpRank_no_wrap s _ (by omega)]
    have hnx : (({ s with samplist := (setRank s.samplist (s.in_samp i).toNat
        ((s.samplist (s.in_samp i).toNat).rank + 1)) } : SampState).L ch[j]).next
        = ch[j + 1]? := by
      show (s.L ch[j]).next = _
      rw [hN, hwf.2.2 j hjl]
    rw [hnx, ih (j + 1) { s with samplist := (setRank s.samplist (s.in_samp i).toNat
        ((s.samplist (s.in_samp i).toNat).rank + 1)) } (by omega) hN hR
      (fun j' h1 h2 => hun j' (by omega) h2) hsq
      (by
        show ((setRank s.samplist (s.in_samp i).toNat
          ((s.samplist (s.in_samp i).toNat).rank + 1)) (s.in_samp i).toNat).rank + d < 2 ^ 64
        rw [setRank_rank_same]; omega)
      fuel (by omega)]
    congr 2
    show ({ s with samplist := (setRank (setRank s.samplist (s.in_samp i).toNat
        ((s.samplist (s.in_samp i).toNat).rank + 1)) (s.in_samp i).toNat
        (((setRank s.samplist (s.in_samp i).toNat
          ((s.samplist (s.in_samp i).toNat).rank + 1)) (s.in_samp i).toNat).rank + d)) }
        : SampState) = _
    rw [setRank_rank_same, setRank_setRank, Nat.add_assoc, Nat.add_comm 1 d]

theorem build_list_unsampled (fuel i : Nat) (s : SampState) (h : s.in_samp i < 0) :
    build_list fuel i s = some s := by
  unfold build_list
  rw [if_neg (by omega)]

theorem build_list_tail (fuel i : Nat) (s : SampState) (hfuel : 1 ≤ fuel)
    (hnx : (s.L i).next = none) : build_list fuel i s = some s := by
  obtain ⟨fuel, rfl⟩ : ∃ f, fuel = f + 1 := ⟨fuel - 1, by omega⟩
  unfold build_list
  split
  · simp [hnx, build_list_loop]
  · rfl

/-- Run of `build_list` for the sampled node at chain position `p` whose next sampled node is
at position `q`: the entry of the node gets its rank raised by `q - p`, the number of hops
to that node (the field stays below `2^64`), and its `next` set to the entry of that node;
nothing else changes. -/
theorem build_list_sampled (L : Heap) (n : Nat) (ch : List Nat) (hwf : WellFormed L n ch)
    (s : SampState) (hN : ∀ a, (s.L a).next = (L a).next)
    (hR : ∀ a, a < n → (s.L a).rank = a)
    (hI : ∀ a, a < n → 0 ≤ s.in_samp a → s.in_samp a = (a : Int))
    (p q : Nat) (hp : p < ch.length) (hsp : 0 ≤ s.in_samp ch[p])
    (hpq : NextSampled s.in_samp ch p q) (hb : (s.samplist ch[p]).rank + (q - p) < 2 ^ 64)
    (fuel : Nat) (hfuel : q - p ≤ fuel) :
    ∃ s', build_list fuel ch[p] s = some s' ∧ s'.L = s.L ∧ s'.in_samp = s.in_samp ∧
      s'.head_index = s.head_index ∧
      s'.samplist ch[p] = { next := some (ch.getD q 0),
                            rank := (s.samplist ch[p]).rank + (q - p) } ∧
      ∀ b, b ≠ ch[p] → s'.samplist b = s.samplist b := by
  obtain ⟨h1, h2, h3, h4⟩ := hpq
  have hin : s.in_samp ch[p] = (ch[p] : Int) := hI _ (wf_lt hwf p hp) hsp
  have hq : ch.getD q 0 = ch[q] := getD_chain ch q h2
  have hinq : s.in_samp ch[q] = (ch[q] : Int) :=
    hI _ (wf_lt hwf q h2) (by rw [← hq]; exact h3)
  have hp1 : p + 1 < ch.length := by omega
  have hnx : (s.L ch[p]).next = ch[p + 1]? := by rw [hN, hwf.2.2 p hp]
  have hne : (s.L ch[p]).next ≠ none := by
    rw [hnx, List.getElem?_eq_getElem hp1]; exact Option.some_ne_none _
  have htn : (s.in_samp ch[p]).toNat = ch[p] := by rw [hin, Int.toNat_ofNat]
  have hbump : bumpRank s (s.in_samp ch[p]).toNat =
      { s with samplist := setRank s.samplist ch[p] ((s.samplist ch[p]).rank + 1) } := by
    rw [htn]; exact bumpRank_no_wrap s _ (by omega)
  have hloop := build_list_loop_run L n ch hwf ch[p] q (Nat.le_of_lt h2) (q - (p + 1)) (p + 1)
    { s with samplist := setRank s.samplist ch[p] ((s.samplist ch[p]).rank + 1) }
    (by omega) hN hR (fun j' hj1 hj2 => h4 j' (by omega) hj2) (fun _ => h3)
    (by
      show ((setRank s.samplist ch[p] ((s.samplist ch[p]).rank + 1))
        (s.in_samp ch[p]).toNat).rank + (q - (p + 1)) < 2 ^ 64
      rw [htn, setRank_rank_same]; omega)
    fuel (by omega)
  unfold build_list
  rw [if_pos hsp]
  dsimp only
  rw [if_pos hne, hnx, hbump, hloop, List.getElem?_eq_getElem h2]
  dsimp only
  refine ⟨_, rfl, rfl, rfl, rfl, ?_, ?_⟩
  · show setNext (setRank (setRank s.samplist ch[p] ((s.samplist ch[p]).rank + 1))
        (s.in_samp ch[p]).toNat
        (((setRank s.samplist ch[p] ((s.samplist ch[p]).rank + 1))
          (s.in_samp ch[p]).toNat).rank + (q - (p + 1)))) (s.in_samp ch[p]).toNat
        (some (s.in_samp (s.L ch[q]).rank).toNat) ch[p] = _
    rw [htn, setNext_same, setRank_rank_same, setRank_rank_same, hq, hR _ (wf_lt hwf q h2),
      hinq, Int.toNat_ofNat]
    congr 1
    omega
  · intro b hb
    show setNext (setRank (setRank s.samplist ch[p] ((s.samplist ch[p]).rank + 1))
        (s.in_samp ch[p]).toNat
        (((setRank s.samplist ch[p] ((s.samplist ch[p]).rank + 1))
          (s.in_samp ch[p]).toNat).rank + (q - (p + 1)))) (s.in_samp ch[p]).toNat
        (some (s.in_samp (s.L ch[q]).rank).toNat) b = _
    rw [htn, setNext_other _ _ _ _ hb, setRank_other _ _ _ _ hb, setRank_other _ _ _ _ hb]

theorem nextSampled_unique (in_samp : Nat → Int) (ch : List Nat) (p q q' : Nat)
    (h : NextSampled in_samp ch p q) (h' : NextSampled in_samp ch p q') : q = q' := by
  obtain ⟨a1, a2, a3, a4⟩ := h
  obtain ⟨b1, b2, b3, b4⟩ := h'
  by_contra hne
  rcases Nat.lt_or_gt_of_ne hne with hlt | hgt
  · have := b4 q a1 hlt; omega
  · have := a4 q' b1 hgt; omega

/-- In a state where the tail is sampled, every position but the last has a next sampled
position. -/
theorem nextSampled_exists (L : Heap) (n : Nat) (ch : List Nat)
    (t : SampState) (hok : SampleOK L n ch t) (p : Nat) (hp : p + 1 < ch.length) :
    ∃ q, NextSampled t.in_samp ch p q := by
  obtain ⟨q, h1, h2, h3, h4⟩ := next_marked_or_end
    (fun j => 0 ≤ t.in_samp (ch.getD j 0)) ch.length p (by omega)
  have hlast : ch.length - 1 < ch.length := by omega
  have htl : 0 ≤ t.in_samp (ch.getD (ch.length - 1) 0) := by
    rw [getD_chain ch _ hlast, hok.2.2.2.2 ch[ch.length - 1]
      (by rw [List.getLast?_eq_getElem?, List.getElem?_eq_getElem hlast])]
    exact Int.ofNat_nonneg _
  have hq : q < ch.length := by
    by_contra hcon
    exact h4 (ch.length - 1) (by omega) (by omega) htl
  exact ⟨q, h1, hq, h3 hq, fun j hj1 hj2 => by have := h4 j hj1 hj2; omega⟩

/-- The list-contraction pass for an arbitrary sample, in any order, from a sample list whose
rank fields leave room for `n` increments below `2^64`: the entry of a sampled node that is
not the tail gets its rank raised by the number of hops to the next sampled node and its
`next` set to that node's entry; the entries of the tail and of the unsampled nodes are not
written. -/
theorem build_pass (L : Heap) (n : Nat) (ch : List Nat) (hwf : WellFormed L n ch)
    (t : SampState) (hok : SampleOK L n ch t)
    (hroom : ∀ i, i < n → (t.samplist i).rank + n < 2 ^ 64) (sched : List Nat)
    (hs : IsSchedule n sched) (fuel : Nat) (hfuel : n ≤ fuel) :
    ∃ u, parallel_for_fuel sched (build_list fuel) t = some u ∧
      u.L = t.L ∧ u.in_samp = t.in_samp ∧ u.head_index = t.head_index ∧
      (∀ p q (hp : p < ch.length), 0 ≤ t.in_samp ch[p] → NextSampled t.in_samp ch p q →
        u.samplist ch[p] = { next := some (ch.getD q 0),
                             rank := (t.samplist ch[p]).rank + (q - p) }) ∧
      (∀ i, i < n → (L i).next = none → u.samplist i = t.samplist i) ∧
      (∀ i, i < n → t.in_samp i < 0 → u.samplist i = t.samplist i) := by
  have hlen := wf_length hwf
  have hnd := wf_nodup hwf
  have hok' := hok
  obtain ⟨oN, oR, oI, -, -⟩ := hok
  have key := parallel_for_fuel_slots (build_list fuel) (fun i => i < n)
    (fun s => s.L = t.L ∧ s.in_samp = t.in_samp ∧ s.head_index = t.head_index)
    (fun i s => s.samplist i = t.samplist i)
    (fun i s =>
      (∀ p q (hp : p < ch.length), ch[p] = i → 0 ≤ t.in_samp i → NextSampled t.in_samp ch p q →
        s.samplist i = { next := some (ch.getD q 0), rank := (t.samplist i).rank + (q - p) }) ∧
      ((L i).next = none → s.samplist i = t.samplist i) ∧
      (t.in_samp i < 0 → s.samplist i = t.samplist i))
    (fun i s hi hinv hpre => by
      dsimp only at hi hinv hpre ⊢
      obtain ⟨i1, i2, i3⟩ := hinv
      obtain ⟨p, hp, rfl⟩ := wf_pos hwf i hi
      by_cases hsamp : t.in_samp ch[p] < 0
      · refine ⟨s, build_list_unsampled fuel _ s (by rw [i2]; exact hsamp), ⟨i1, i2, i3⟩,
          ⟨fun _ _ _ _ h0 _ => by omega, fun _ => hpre, fun _ => hpre⟩,
          fun _ _ h => h, fun _ _ h => h⟩
      · by_cases hnx : (L ch[p]).next = none
        · refine ⟨s, build_list_tail fuel _ s (by omega) (by rw [i1, oN]; exact hnx),
            ⟨i1, i2, i3⟩, ⟨?_, fun _ => hpre, fun _ => hpre⟩, fun _ _ h => h, fun _ _ h => h⟩
          intro p' q hp' heq _ hns
          have hpp : p' = p := hnd.getElem_inj_iff.mp heq
          subst hpp
          exfalso
          rw [hwf.2.2 p' hp', List.getElem?_eq_getElem (by have := hns.1; have := hns.2.1; omega)]
            at hnx
          exact Option.noConfusion hnx
        · have hp1 : p + 1 < ch.length := by
            by_contra hcon
            exact hnx (by rw [hwf.2.2 p hp, List.getElem?_eq_none (by omega)])
          obtain ⟨q, hq⟩ := nextSampled_exists L n ch t hok' p hp1
          obtain ⟨s', e, r1, r2, r3, r4, r5⟩ := build_list_sampled L n ch hwf s
            (fun a => by rw [i1]; exact oN a) (fun a ha => by rw [i1]; exact oR a ha)
            (fun a ha => by rw [i2]; exact oI a ha) p q hp (by rw [i2]; omega)
            (by rw [i2]; exact hq)
            (by rw [hpre]; have := hq.2.1; have := hroom _ (wf_lt hwf p hp); omega)
            fuel (by have := hq.2.1; omega)
          refine ⟨s', e, ⟨by rw [r1, i1], by rw [r2, i2], by rw [r3, i3]⟩, ⟨?_, ?_, ?_⟩, ?_, ?_⟩
          · intro p' q' hp' heq _ hns
            have hpp : p' = p := hnd.getElem_inj_iff.mp heq
            subst hpp
            have hqq := nextSampled_unique _ _ _ _ _ hq hns
            subst hqq
            rw [r4, hpre]
          · intro h; exact absurd h hnx
          · intro h; exact absurd h hsamp
          · intro j hj hprej
            rw [r5 j hj]; exact hprej
          · intro j hj hpostj
            rw [r5 j hj]; exact hpostj)
    sched (hs.nodup_iff.mpr (List.nodup_range n)) (fun i hi => (mem_schedule hs i).mp hi)
    t ⟨rfl, rfl, rfl⟩ (fun _ _ => rfl)
  obtain ⟨u, e, inv, post, -⟩ := key
  refine ⟨u, e, inv.1, inv.2.1, inv.2.2, ?_, ?_, ?_⟩
  · intro p q hp h0 hns
    exact (post ch[p] ((mem_schedule hs _).mpr (wf_lt hwf p hp))).1 p q hp rfl h0 hns
  · intro i hi hnx
    exact (post i ((mem_schedule hs _).mpr hi)).2.1 hnx
  · intro i hi hneg
    exact (post i ((mem_schedule hs _).mpr hi)).2.2 hneg

/-- The sampling passes on at most `2^31` nodes leave a state that the later phases can work
from, for all schedules, draws, sample targets and initial contents of the scratch arrays. -/
theorem after_sampling_ok (L : Heap) (n : Nat) (ch : List Nat) (hwf : WellFormed L n ch)
    (hn : n ≤ 2 ^ 31) (sch : SampSched) (hgen : IsSchedule n sch.gen) (hincl : IsSchedule n sch.incl)
    (draw : Nat → Nat) (mem : SampState) (hmem : mem.L = L) (num_samples : Int) :
    SampleOK L n ch (after_sampling sch draw mem n num_samples) ∧
    (after_sampling sch draw mem n num_samples).samplist = mem.samplist := by
  obtain ⟨hd, hhd, hlt⟩ := wf_head hwf
  obtain ⟨s1, s2, -, s4, s5, s6, s7⟩ := after_sampling_spec L n ch hwf hd hhd sch hgen hincl
    draw mem hmem num_samples
  rw [size_to_int_of_lt hd (by omega)] at s5
  have hpos := wf_head_pos hwf
  have hlast : ch.length - 1 < ch.length := by omega
  refine ⟨⟨s1, s2, ?_, ?_, ?_⟩, s7⟩
  · intro i hi h0
    by_cases hih : i = hd
    · rw [hih]; exact s5
    · rw [s6 i hi hih] at h0 ⊢
      unfold drawn_in_samp at h0 ⊢
      rw [size_to_int_of_lt i (by omega)] at h0 ⊢
      split
      · rfl
      · rename_i hne
        rw [if_neg hne] at h0
        split
        · rfl
        · rename_i hnd
          rw [if_neg hnd] at h0
          omega
  · intro hd' hhd'
    rw [hhd] at hhd'
    rw [← Option.some.inj hhd']
    exact ⟨s4, s5⟩
  · intro tl htl
    rw [List.getLast?_eq_getElem?, List.getElem?_eq_getElem hlast] at htl
    rw [← Option.some.inj htl]
    by_cases he : ch[ch.length - 1] = hd
    · rw [he]; exact s5
    · rw [s6 _ (wf_lt hwf _ hlast) he]
      unfold drawn_in_samp
      rw [hwf.2.2 _ hlast, List.getElem?_eq_none (by omega), if_pos rfl]
      exact size_to_int_of_lt _ (by have := wf_lt hwf _ hlast; omega)

/-- The sampling passes on at most `2^32` nodes, when the sample they leave contains the head
and the tail, leave a state that the later phases can work from. -/
theorem after_sampling_ok_of_sampled (L : Heap) (n : Nat) (ch : List Nat)
    (hwf : WellFormed L n ch) (hn : n ≤ 2 ^ 32) (sch : SampSched)
    (hgen : IsSchedule n sch.gen) (hincl : IsSchedule n sch.incl)
    (draw : Nat → Nat) (mem : SampState) (hmem : mem.L = L) (num_samples : Int)
    (hh : ∀ hd, ch.head? = some hd → 0 ≤ (after_sampling sch draw mem n num_samples).in_samp hd)
    (ht : ∀ tl, ch.getLast? = some tl →
      0 ≤ (after_sampling sch draw mem n num_samples).in_samp tl) :
    SampleOK L n ch (after_sampling sch draw mem n num_samples) ∧
    (after_sampling sch draw mem n num_samples).samplist = mem.samplist := by
  obtain ⟨hd, hhd, hlt⟩ := wf_head hwf
  obtain ⟨s1, s2, -, s4, s5, s6, s7⟩ := after_sampling_spec L n ch hwf hd hhd sch hgen hincl
    draw mem hmem num_samples
  have hpos := wf_head_pos hwf
  have hlast : ch.length - 1 < ch.length := by omega
  have h3 : ∀ i, i < n → 0 ≤ (after_sampling sch draw mem n num_samples).in_samp i →
      (after_sampling sch draw mem n num_samples).in_samp i = (i : Int) := by
    intro i hi h0
    by_cases hih : i = hd
    · rw [hih, s5] at h0
      rw [hih, s5]
      exact size_to_int_nonneg hd (by omega) h0
    · rw [s6 i hi hih] at h0 ⊢
      unfold drawn_in_samp at h0 ⊢
      split
      · rename_i hne
        rw [if_pos hne] at h0
        exact size_to_int_nonneg i (by omega) h0
      · rename_i hne
        rw [if_neg hne] at h0
        split
        · rename_i hdr
          rw [if_pos hdr] at h0
          exact size_to_int_nonneg i (by omega) h0
        · rename_i hdr
          rw [if_neg hdr] at h0
          omega
  refine ⟨⟨s1, s2, h3, ?_, ?_⟩, s7⟩
  · intro hd' hhd'
    have hlt' : hd' < n := by
      rw [hhd] at hhd'
      rw [← Option.some.inj hhd']; exact hlt
    refine ⟨?_, h3 hd' hlt' (hh hd' hhd')⟩
    rw [hhd] at hhd'
    rw [← Option.some.inj hhd']
    exact s4
  · intro tl htl
    have htl' := htl
    rw [List.getLast?_eq_getElem?, List.getElem?_eq_getElem hlast] at htl'
    exact h3 tl (by rw [← Option.some.inj htl']; exact wf_lt hwf _ hlast) (ht tl htl)

/-- Claim C14, amended. The list-contraction step on a well-formed chain of `1 ≤ n ≤ 2^31`
nodes, from zeroed sample-list storage, for every sample the code can draw and every order of
the iterations.  The pass returns (fuel `n` suffices) and changes neither `in_samp` nor `L`.
The sample contains the head and the tail, and a sampled node `i` has `in_samp[i] = i`, so
its entry is `samplist[i]`.  Every sampled node other than the tail, at chain position `p`,
has a next sampled node, at a position `q > p` with every position strictly between
unsampled; the rank field of its entry is the number of hops `q - p` to that node, one more
than the number `q - p - 1` of unsampled nodes strictly between them (so `1` when the next
node is itself sampled), and its `next` points to the entry of that node.  The tail's entry
has rank `0` and a null `next`; the entries of unsampled nodes are not written. -/
theorem C14_contraction_weights_are_hops (L : Heap) (n : Nat) (ch : List Nat)
    (hwf : WellFormed L n ch) (hn : n ≤ 2 ^ 31) (sch : SampSched)
    (hgen : IsSchedule n sch.gen) (hincl : IsSchedule n sch.incl)
    (hbuild : IsSchedule n sch.build) (draw : Nat → Nat) (in_samp0 : Nat → Int)
    (not_head0 : Nat → Bool) (num_samples : Int) (fuel : Nat) (hfuel : n ≤ fuel) :
    ∃ u, after_build fuel sch draw (samp_start L in_samp0 not_head0 zeroed) n num_samples
        = some u ∧
      u.in_samp = (after_sampling sch draw (samp_start L in_samp0 not_head0 zeroed) n
        num_samples).in_samp ∧
      u.L = (after_sampling sch draw (samp_start L in_samp0 not_head0 zeroed) n
        num_samples).L ∧
      (∀ i, i < n → 0 ≤ u.in_samp i → u.in_samp i = (i : Int)) ∧
      (∀ hd, ch.head? = some hd → 0 ≤ u.in_samp hd) ∧
      (∀ tl, ch.getLast? = some tl →
        0 ≤ u.in_samp tl ∧ u.samplist tl = { next := none, rank := 0 }) ∧
      (∀ p (hp : p < ch.length), 0 ≤ u.in_samp ch[p] → p + 1 < ch.length →
        ∃ q, NextSampled u.in_samp ch p q ∧ (u.samplist ch[p]).rank = (q - p - 1) + 1 ∧
          (u.samplist ch[p]).next = ch[q]?) ∧
      (∀ i, i < n → u.in_samp i < 0 → u.samplist i = { next := none, rank := 0 }) := by
  obtain ⟨hok, hsl⟩ := after_sampling_ok L n ch hwf hn sch hgen hincl draw
    (samp_start L in_samp0 not_head0 zeroed) rfl num_samples
  have hs0 : (after_sampling sch draw (samp_start L in_samp0 not_head0 zeroed) n
      num_samples).samplist = zeroed := hsl
  obtain ⟨u, e, u1, u2, u3, u4, u5, u6⟩ := build_pass L n ch hwf _ hok
    (fun i _ => by rw [hs0]; show 0 + n < 2 ^ 64; omega) sch.build hbuild fuel hfuel
  have hpos := wf_head_pos hwf
  have hlast : ch.length - 1 < ch.length := by omega
  refine ⟨u, e, u2, u1, ?_, ?_, ?_, ?_, ?_⟩
  · intro i hi h0
    rw [u2] at h0 ⊢
    exact hok.2.2.1 i hi h0
  · intro hd hhd
    rw [u2, (hok.2.2.2.1 hd hhd).2]
    exact Int.ofNat_nonneg _
  · intro tl htl
    refine ⟨by rw [u2, hok.2.2.2.2 tl htl]; exact Int.ofNat_nonneg _, ?_⟩
    rw [List.getLast?_eq_getElem?, List.getElem?_eq_getElem hlast] at htl
    rw [← Option.some.inj htl, u5 _ (wf_lt hwf _ hlast)
      (by rw [hwf.2.2 _ hlast, List.getElem?_eq_none (by omega)]), hs0]
    rfl
  · intro p hp h0 hp1
    rw [u2] at h0 ⊢
    obtain ⟨q, hq⟩ := nextSampled_exists L n ch _ hok p hp1
    have hqp := hq.1
    refine ⟨q, hq, ?_, ?_⟩
    · rw [u4 p q hp h0 hq, hs0]
      show 0 + (q - p) = _
      omega
    · rw [u4 p q hp h0 hq, getD_chain ch q hq.2.1, List.getElem?_eq_getElem hq.2.1]
  · intro i hi hneg
    rw [u2] at hneg
    rw [u6 i hi hneg, hs0]
    rfl

/-- Witness for C14 (amended): the chain `3 → 0 → 4 → 1 → 2` with the sample `{3, 4, 2}`:
head, one drawn node in the middle, tail. -/
theorem C14_contraction_weights_are_hops_witness :
    WellFormed (mkNodes [some 4, some 2, none, some 0, some 1]) 5 [3, 0, 4, 1, 2] ∧
    5 ≤ 2 ^ 31 ∧
    ∃ u, after_build 5 ⟨[1, 0, 2, 4, 3], [2, 1, 0, 3, 4], [4, 0, 2, 1, 3], []⟩
        (fun i => if i = 4 then 0 else 1)
        (samp_start (mkNodes [some 4, some 2, none, some 0, some 1]) (fun _ => 5)
          (fun _ => true) zeroed) 5 1 = some u ∧
      u.in_samp = (after_sampling ⟨[1, 0, 2, 4, 3], [2, 1, 0, 3, 4], [4, 0, 2, 1, 3], []⟩
        (fun i => if i = 4 then 0 else 1)
        (samp_start (mkNodes [some 4, some 2, none, some 0, some 1]) (fun _ => 5)
          (fun _ => true) zeroed) 5 1).in_samp ∧
      u.L = (after_sampling ⟨[1, 0, 2, 4, 3], [2, 1, 0, 3, 4], [4, 0, 2, 1, 3], []⟩
        (fun i => if i = 4 then 0 else 1)
        (samp_start (mkNodes [some 4, some 2, none, some 0, some 1]) (fun _ => 5)
          (fun _ => true) zeroed) 5 1).L ∧
      (∀ i, i < 5 → 0 ≤ u.in_samp i → u.in_samp i = (i : Int)) ∧
      (∀ hd, [3, 0, 4, 1, 2].head? = some hd → 0 ≤ u.in_samp hd) ∧
      (∀ tl, [3, 0, 4, 1, 2].getLast? = some tl →
        0 ≤ u.in_samp tl ∧ u.samplist tl = { next := none, rank := 0 }) ∧
      (∀ p (hp : p < [3, 0, 4, 1, 2].length), 0 ≤ u.in_samp [3, 0, 4, 1, 2][p] →
        p + 1 < [3, 0, 4, 1, 2].length →
        ∃ q, NextSampled u.in_samp [3, 0, 4, 1, 2] p q ∧
          (u.samplist [3, 0, 4, 1, 2][p]).rank = (q - p - 1) + 1 ∧
          (u.samplist [3, 0, 4, 1, 2][p]).next = [3, 0, 4, 1, 2][q]?) ∧
      (∀ i, i < 5 → u.in_samp i < 0 → u.samplist i = { next := none, rank := 0 }) :=
  ⟨by decide, by decide,
   C14_contraction_weights_are_hops (mkNodes [some 4, some 2, none, some 0, some 1]) 5
     [3, 0, 4, 1, 2] (by decide) (by decide)
     ⟨[1, 0, 2, 4, 3], [2, 1, 0, 3, 4], [4, 0, 2, 1, 3], []⟩ (by decide) (by decide)
     (by decide) (fun i => if i = 4 then 0 else 1) (fun _ => 5) (fun _ => true) 1 5
     (by decide)⟩

/-! ## The serial walks over the contracted list of an arbitrary sample -/

/-- The first serial walk from the entry of a sampled node at chain position `p`, over a
sample list whose entries hold hop counts and links to the next sampled node: it returns and
adds `len - 1 - p`, the distance of that node to the tail, to the counter. -/
theorem samp_walk1_sparse (in_samp : Nat → Int) (ch : List Nat) (S : Heap)
    (hex : ∀ p, p + 1 < ch.length → ∃ q, NextSampled in_samp ch p q)
    (hS : ∀ p q (hp : p < ch.length), 0 ≤ in_samp ch[p] → NextSampled in_samp ch p q →
      S ch[p] = { next := some (ch.getD q 0), rank := q - p })
    (hT : ∀ p (hp : p < ch.length), p + 1 = ch.length → S ch[p] = { next := none, rank := 0 }) :
    ∀ fuel p (hp : p < ch.length) m ctr, 0 ≤ in_samp ch[p] → ch.length - p < fuel →
      ∃ m', samp_walk1 fuel S (some ch[p]) m ctr = some (m', ctr + (ch.length - 1 - p)) := by
  intro fuel
  induction fuel with
  | zero => intro p hp m ctr _ hf; omega
  | succ fuel ih =>
    intro p hp m ctr h0 hf
    simp only [samp_walk1]
    by_cases htl : p + 1 = ch.length
    · rw [hT p hp htl]
      obtain ⟨fuel, rfl⟩ : ∃ f, fuel = f + 1 := ⟨fuel - 1, by omega⟩
      refine ⟨m + 1, ?_⟩
      simp only [samp_walk1]
      congr 2
      omega
    · obtain ⟨q, hq⟩ := hex p (by omega)
      rw [hS p q hp h0 hq]
      dsimp only
      obtain ⟨q1, q2, q3, -⟩ := hq
      rw [getD_chain ch q q2] at q3 ⊢
      obtain ⟨m', e⟩ := ih q q2 (m + 1) (ctr + (q - p)) q3 (by omega)
      refine ⟨m', ?_⟩
      rw [e]
      congr 2
      omega

/-- The second serial walk from the entry of a sampled node at chain position `p`, started
with that node's distance to the tail: every sampled node from `p` on gets its distance to
the tail as the rank of its entry, and no other entry changes. -/
theorem samp_walk2_sparse (in_samp : Nat → Int) (ch : List Nat) (hnd : ch.Nodup) (S : Heap)
    (hex : ∀ p, p + 1 < ch.length → ∃ q, NextSampled in_samp ch p q)
    (hS : ∀ p q (hp : p < ch.length), 0 ≤ in_samp ch[p] → NextSampled in_samp ch p q →
      S ch[p] = { next := some (ch.getD q 0), rank := q - p })
    (hT : ∀ p (hp : p < ch.length), p + 1 = ch.length → S ch[p] = { next := none, rank := 0 }) :
    ∀ fuel p (hp : p < ch.length) (S1 : Heap) ctr, 0 ≤ in_samp ch[p] → ch.length - p < fuel →
      ctr = ch.length - 1 - p →
      (∀ j (hj : j < ch.length), p ≤ j → S1 ch[j] = S ch[j]) →
      ∃ S2, samp_walk2 fuel S1 (some ch[p]) ctr = some S2 ∧
        (∀ j (hj : j < ch.length), p ≤ j → 0 ≤ in_samp ch[j] →
          (S2 ch[j]).rank = ch.length - 1 - j) ∧
        (∀ a, (∀ j (hj : j < ch.length), p ≤ j → ch[j] ≠ a) → S2 a = S1 a) := by
  intro fuel
  induction fuel with
  | zero => intro p hp S1 ctr _ hf; omega
  | succ fuel ih =>
    intro p hp S1 ctr h0 hf hctr hag
    simp only [samp_walk2]
    rw [setRank_next, hag p hp (Nat.le_refl p)]
    by_cases htl : p + 1 = ch.length
    · rw [hT p hp htl]
      obtain ⟨fuel, rfl⟩ : ∃ f, fuel = f + 1 := ⟨fuel - 1, by omega⟩
      refine ⟨setRank S1 ch[p] ctr, by simp only [samp_walk2], ?_, ?_⟩
      · intro j hj hpj _
        have : j = p := by omega
        subst this
        rw [setRank_rank_same, hctr]
      · intro a ha
        exact setRank_other _ _ _ _ (fun h => ha p hp (Nat.le_refl p) h.symm)
    · obtain ⟨q, hq⟩ := hex p (by omega)
      rw [hS p q hp h0 hq]
      dsimp only
      obtain ⟨q1, q2, q3, q4⟩ := hq
      rw [getD_chain ch q q2] at q3 ⊢
      obtain ⟨S2, e, r, fr⟩ := ih q q2 (setRank S1 ch[p] ctr) (size_sub ctr (q - p)) q3
        (by omega) (by rw [size_sub_le _ _ (by omega)]; omega)
        (fun j hj hqj => by
          rw [setRank_other _ _ _ _ (fun heq => by
            have := hnd.getElem_inj_iff.mp heq
            omega)]
          exact hag j hj (by omega))
      refine ⟨S2, e, ?_, ?_⟩
      · intro j hj hpj hsj
        by_cases hjp : j = p
        · subst hjp
          rw [fr ch[j] (fun j' hj' hlt heq => by
            have := hnd.getElem_inj_iff.mp heq
            omega)]
          rw [setRank_rank_same, hctr]
        · have hqj : q ≤ j := by
            by_contra hcon
            have := q4 j (by omega) (by omega)
            rw [getD_chain ch j hj] at this
            omega
          exact r j hj hqj hsj
      · intro a ha
        rw [fr a (fun j hj hqj => ha j hj (by omega))]
        exact setRank_other _ _ _ _ (fun h => ha p hp (Nat.le_refl p) h.symm)

/-- List contraction followed by the two serial walks, for an arbitrary sample and zeroed
sample-list storage: both return, `L` and `in_samp` are unchanged, and the entry of every
sampled node holds that node's distance to the tail. -/
theorem build_and_walks (L : Heap) (n : Nat) (ch : List Nat) (hwf : WellFormed L n ch)
    (hn : n < 2 ^ 64) (t : SampState) (hok : SampleOK L n ch t) (hz : t.samplist = zeroed)
    (sched : List Nat) (hs : IsSchedule n sched) (fuel : Nat) (hfuel : n < fuel) :
    ∃ v, (parallel_for_fuel sched (build_list fuel) t).bind (serial_walks fuel) = some v ∧
      v.L = t.L ∧ v.in_samp = t.in_samp ∧
      ∀ p (hp : p < ch.length), 0 ≤ t.in_samp ch[p] → (v.samplist ch[p]).rank = n - 1 - p := by
  have hlen := wf_length hwf
  have hnd := wf_nodup hwf
  have hpos := wf_head_pos hwf
  obtain ⟨u, e, u1, u2, u3, u4, u5, -⟩ := build_pass L n ch hwf t hok
    (fun i _ => by rw [hz]; show 0 + n < 2 ^ 64; omega) sched hs fuel (by omega)
  have hex := nextSampled_exists L n ch t hok
  have hS : ∀ p q (hp : p < ch.length), 0 ≤ t.in_samp ch[p] → NextSampled t.in_samp ch p q →
      u.samplist ch[p] = { next := some (ch.getD q 0), rank := q - p } := by
    intro p q hp h0 hns
    rw [u4 p q hp h0 hns, hz]
    show ({ next := some (ch.getD q 0), rank := 0 + (q - p) } : ListNode) = _
    rw [Nat.zero_add]
  have hT : ∀ p (hp : p < ch.length), p + 1 = ch.length →
      u.samplist ch[p] = { next := none, rank := 0 } := by
    intro p hp htl
    rw [u5 _ (wf_lt hwf p hp) (by rw [hwf.2.2 p hp, List.getElem?_eq_none (by omega)]), hz]
    rfl
  have hhead := hok.2.2.2.1 ch[0]
    (by rw [List.head?_eq_getElem?, List.getElem?_eq_getElem hpos])
  have h0 : 0 ≤ t.in_samp ch[0] := by rw [hhead.2]; exact Int.ofNat_nonneg _
  obtain ⟨m', w1⟩ := samp_walk1_sparse t.in_samp ch u.samplist hex hS hT fuel 0 hpos 0 0 h0
    (by omega)
  obtain ⟨S2, w2, r2, -⟩ := samp_walk2_sparse t.in_samp ch hnd u.samplist hex hS hT fuel 0 hpos
    u.samplist (0 + (ch.length - 1 - 0)) h0 (by omega) (by omega) (fun _ _ _ => rfl)
  have hsave : (u.in_samp u.head_index).toNat = ch[0] := by
    rw [u3, u2, hhead.1, hhead.2, Int.toNat_ofNat]
  refine ⟨{ u with samplist := S2 }, ?_, u1, u2, ?_⟩
  · rw [e]
    show serial_walks fuel u = _
    unfold serial_walks
    rw [hsave]
    dsimp only
    rw [w1]
    dsimp only
    rw [w2]
  · intro p hp hsp
    show (S2 ch[p]).rank = _
    rw [r2 p hp (Nat.zero_le _) hsp, hlen]

/-- Claim C15, amended. On a well-formed chain of `1 ≤ n ≤ 2^32` nodes, for every draw, every
`num_samples`, every order of the iterations of the three parallel loops run so far and
zeroed sample-list storage.  First, when `n ≤ 2^31` the sample left by the sampling passes
contains the head and the tail.  Second, whenever that sample contains the head and the tail
(`in_samp ≥ 0` at both): the two serial walks return (fuel above `n` suffices) without
changing `in_samp`, and afterwards the entry of every sampled node (the entry `samplist[i]`
of node `i`, as `in_samp[i] = i`) holds that node's distance to the tail, `n-1-p` at chain
position `p`; the head's entry holds `n-1` and the tail's `0`. -/
theorem C15_walks_give_distance_to_tail (L : Heap) (n : Nat) (ch : List Nat)
    (hwf : WellFormed L n ch) (hn : n ≤ 2 ^ 32) (sch : SampSched)
    (hgen : IsSchedule n sch.gen) (hincl : IsSchedule n sch.incl)
    (hbuild : IsSchedule n sch.build) (draw : Nat → Nat) (in_samp0 : Nat → Int)
    (not_head0 : Nat → Bool) (num_samples : Int) (fuel : Nat) (hfuel : n < fuel) :
    (n ≤ 2 ^ 31 →
      (∀ hd, ch.head? = some hd → 0 ≤ (after_sampling sch draw
        (samp_start L in_samp0 not_head0 zeroed) n num_samples).in_samp hd) ∧
      (∀ tl, ch.getLast? = some tl → 0 ≤ (after_sampling sch draw
        (samp_start L in_samp0 not_head0 zeroed) n num_samples).in_samp tl)) ∧
    ((∀ hd, ch.head? = some hd → 0 ≤ (after_sampling sch draw
        (samp_start L in_samp0 not_head0 zeroed) n num_samples).in_samp hd) →
      (∀ tl, ch.getLast? = some tl → 0 ≤ (after_sampling sch draw
        (samp_start L in_samp0 not_head0 zeroed) n num_samples).in_samp tl) →
      ∃ v, after_walks fuel sch draw (samp_start L in_samp0 not_head0 zeroed) n num_samples
          = some v ∧
        v.in_samp = (after_sampling sch draw (samp_start L in_samp0 not_head0 zeroed) n
          num_samples).in_samp ∧
        (∀ p (hp : p < ch.length), 0 ≤ v.in_samp ch[p] →
          v.in_samp ch[p] = (ch[p] : Int) ∧ (v.samplist ch[p]).rank = n - 1 - p) ∧
        (∀ hd, ch.head? = some hd → 0 ≤ v.in_samp hd ∧ (v.samplist hd).rank = n - 1) ∧
        (∀ tl, ch.getLast? = some tl → 0 ≤ v.in_samp tl ∧ (v.samplist tl).rank = 0)) := by
  have hlen := wf_length hwf
  have hpos := wf_head_pos hwf
  have hlast : ch.length - 1 < ch.length := by omega
  refine ⟨?_, ?_⟩
  · intro hn31
    obtain ⟨hok, -⟩ := after_sampling_ok L n ch hwf hn31 sch hgen hincl draw
      (samp_start L in_samp0 not_head0 zeroed) rfl num_samples
    refine ⟨?_, ?_⟩
    · intro hd hhd
      rw [(hok.2.2.2.1 hd hhd).2]; exact Int.ofNat_nonneg _
    · intro tl htl
      rw [hok.2.2.2.2 tl htl]; exact Int.ofNat_nonneg _
  · intro hh ht
    obtain ⟨hok, hsl⟩ := after_sampling_ok_of_sampled L n ch hwf hn sch hgen hincl draw
      (samp_start L in_samp0 not_head0 zeroed) rfl num_samples hh ht
    obtain ⟨v, e, v1, v2, v3⟩ := build_and_walks L n ch hwf (by omega) _ hok hsl sch.build
      hbuild fuel hfuel
    refine ⟨v, e, v2, ?_, ?_, ?_⟩
    · intro p hp h0
      rw [v2] at h0 ⊢
      exact ⟨hok.2.2.1 _ (wf_lt hwf p hp) h0, v3 p hp h0⟩
    · intro hd hhd
      have h0 := hh hd hhd
      rw [List.head?_eq_getElem?, List.getElem?_eq_getElem hpos] at hhd
      have hhd' := Option.some.inj hhd
      subst hhd'
      refine ⟨by rw [v2]; exact h0, ?_⟩
      rw [v3 0 hpos h0]
      omega
    · intro tl htl
      have h0 := ht tl htl
      rw [List.getLast?_eq_getElem?, List.getElem?_eq_getElem hlast] at htl
      have htl' := Option.some.inj htl
      subst htl'
      refine ⟨by rw [v2]; exact h0, ?_⟩
      rw [v3 _ hlast h0]
      omega

/-- Witness for C15 (amended): the chain `3 → 0 → 4 → 1 → 2` with the sample `{3, 4, 2}`
(head, one drawn node in the middle, tail): `in_samp` is `3, -1, 4, -1, 2` along the chain.
The contraction pass leaves the hop counts `2, 2, 0` in the entries of `3, 4, 2`; the two
walks turn them into the distances `4, 2, 0`. -/
theorem C15_walks_give_distance_to_tail_witness :
    WellFormed (mkNodes [some 4, some 2, none, some 0, some 1]) 5 [3, 0, 4, 1, 2] ∧
    5 ≤ 2 ^ 32 ∧
    ((5 ≤ 2 ^ 31 →
      (∀ hd, [3, 0, 4, 1, 2].head? = some hd → 0 ≤ (after_sampling
        ⟨[1, 0, 2, 4, 3], [2, 1, 0, 3, 4], [4, 0, 2, 1, 3], []⟩
        (fun i => if i = 4 then 0 else 1)
        (samp_start (mkNodes [some 4, some 2, none, some 0, some 1]) (fun _ => 5)
          (fun _ => true) zeroed) 5 1).in_samp hd) ∧
      (∀ tl, [3, 0, 4, 1, 2].getLast? = some tl → 0 ≤ (after_sampling
        ⟨[1, 0, 2, 4, 3], [2, 1, 0, 3, 4], [4, 0, 2, 1, 3], []⟩
        (fun i => if i = 4 then 0 else 1)
        (samp_start (mkNodes [some 4, some 2, none, some 0, some 1]) (fun _ => 5)
          (fun _ => true) zeroed) 5 1).in_samp tl)) ∧
    ((∀ hd, [3, 0, 4, 1, 2].head? = some hd → 0 ≤ (after_sampling
        ⟨[1, 0, 2, 4, 3], [2, 1, 0, 3, 4], [4, 0, 2, 1, 3], []⟩
        (fun i => if i = 4 then 0 else 1)
        (samp_start (mkNodes [some 4, some 2, none, some 0, some 1]) (fun _ => 5)
          (fun _ => true) zeroed) 5 1).in_samp hd) →
      (∀ tl, [3, 0, 4, 1, 2].getLast? = some tl → 0 ≤ (after_sampling
        ⟨[1, 0, 2, 4, 3], [2, 1, 0, 3, 4], [4, 0, 2, 1, 3], []⟩
        (fun i => if i = 4 then 0 else 1)
        (samp_start (mkNodes [some 4, some 2, none, some 0, some 1]) (fun _ => 5)
          (fun _ => true) zeroed) 5 1).in_samp tl) →
      ∃ v, after_walks 6 ⟨[1, 0, 2, 4, 3], [2, 1, 0, 3, 4], [4, 0, 2, 1, 3], []⟩
          (fun i => if i = 4 then 0 else 1)
          (samp_start (mkNodes [some 4, some 2, none, some 0, some 1]) (fun _ => 5)
            (fun _ => true) zeroed) 5 1 = some v ∧
        v.in_samp = (after_sampling ⟨[1, 0, 2, 4, 3], [2, 1, 0, 3, 4], [4, 0, 2, 1, 3], []⟩
          (fun i => if i = 4 then 0 else 1)
          (samp_start (mkNodes [some 4, some 2, none, some 0, some 1]) (fun _ => 5)
            (fun _ => true) zeroed) 5 1).in_samp ∧
        (∀ p (hp : p < [3, 0, 4, 1, 2].length), 0 ≤ v.in_samp [3, 0, 4, 1, 2][p] →
          v.in_samp [3, 0, 4, 1, 2][p] = ((([3, 0, 4, 1, 2] : List Nat)[p] : Nat) : Int) ∧
          (v.samplist [3, 0, 4, 1, 2][p]).rank = 5 - 1 - p) ∧
        (∀ hd, [3, 0, 4, 1, 2].head? = some hd →
          0 ≤ v.in_samp hd ∧ (v.samplist hd).rank = 5 - 1) ∧
        (∀ tl, [3, 0, 4, 1, 2].getLast? = some tl →
          0 ≤ v.in_samp tl ∧ (v.samplist tl).rank = 0))) ∧
    (after_build 6 ⟨[1, 0, 2, 4, 3], [2, 1, 0, 3, 4], [4, 0, 2, 1, 3], []⟩
        (fun i => if i = 4 then 0 else 1)
        (samp_start (mkNodes [some 4, some 2, none, some 0, some 1]) (fun _ => 5)
          (fun _ => true) zeroed) 5 1).map
      (fun u => ([u.in_samp 3, u.in_samp 0, u.in_samp 4, u.in_samp 1, u.in_samp 2],
        [(u.samplist 3).rank, (u.samplist 4).rank, (u.samplist 2).rank]))
      = some ([3, -1, 4, -1, 2], [2, 2, 0]) ∧
    (after_walks 6 ⟨[1, 0, 2, 4, 3], [2, 1, 0, 3, 4], [4, 0, 2, 1, 3], []⟩
        (fun i => if i = 4 then 0 else 1)
        (samp_start (mkNodes [some 4, some 2, none, some 0, some 1]) (fun _ => 5)
          (fun _ => true) zeroed) 5 1).map
      (fun v => [(v.samplist 3).rank, (v.samplist 4).rank, (v.samplist 2).rank])
      = some [4, 2, 0] :=
  ⟨by decide, by decide,
   C15_walks_give_distance_to_tail (mkNodes [some 4, some 2, none, some 0, some 1]) 5
     [3, 0, 4, 1, 2] (by decide) (by decide)
     ⟨[1, 0, 2, 4, 3], [2, 1, 0, 3, 4], [4, 0, 2, 1, 3], []⟩ (by decide) (by decide)
     (by decide) (fun i => if i = 4 then 0 else 1) (fun _ => 5) (fun _ => true) 1 6
     (by decide),
   by decide, by decide⟩

/-! ## The expansion pass in list order, run in increasing index order -/

/-- The `while` loop of `finalize_list` when the array order is the list order, started at
index `j` when the indices from `j` up to `q` are unsampled and still hold their own index,
and `q` is the end of the list or does not look unsampled: the nodes `j, …, q-1` get the
ranks `curr-1, curr-2, …` and nothing else changes. -/
theorem finalize_list_loop_run (L : Heap) (n : Nat)
    (hL : ∀ i, i < n → (L i).next = if i + 1 < n then some (i + 1) else none) (q : Nat)
    (hq : q ≤ n) :
    ∀ d j (s : SampState) (curr : Nat), j + d = q →
      (∀ a, (s.L a).next = (L a).next) →
      (∀ j', j ≤ j' → j' < q → s.in_samp j' < 0 ∧ (s.L j').rank = j') →
      (q < n → 0 ≤ s.in_samp (s.L q).rank) → d ≤ curr →
      ∀ fuel, d < fuel →
      ∃ s', finalize_list_loop fuel s (if j < n then some j else none) curr = some s' ∧
        s'.in_samp = s.in_samp ∧ s'.samplist = s.samplist ∧
        (∀ a, (s'.L a).next = (L a).next) ∧
        (∀ j', j ≤ j' → j' < q → (s'.L j').rank = curr - (j' - j + 1)) ∧
        (∀ a, (a < j ∨ q ≤ a) → s'.L a = s.L a) := by
  intro d
  induction d with
  | zero =>
    intro j s curr hj hN hun hsq hc fuel hfuel
    obtain ⟨fuel, rfl⟩ : ∃ f, fuel = f + 1 := ⟨fuel - 1, by omega⟩
    have hjq : j = q := by omega
    subst hjq
    refine ⟨s, ?_, rfl, rfl, hN, fun j' h1 h2 => by omega, fun _ _ => rfl⟩
    by_cases hjn : j < n
    · rw [if_pos hjn]
      simp only [finalize_list_loop]
      rw [if_neg (by have := hsq hjn; omega)]
    · rw [if_neg hjn]
      simp only [finalize_list_loop]
  | succ d ih =>
    intro j s curr hj hN hun hsq hc fuel hfuel
    obtain ⟨fuel, rfl⟩ : ∃ f, fuel = f + 1 := ⟨fuel - 1, by omega⟩
    have hjn : j < n := by omega
    obtain ⟨u1, u2⟩ := hun j (Nat.le_refl j) (by omega)
    rw [if_pos hjn]
    simp only [finalize_list_loop]
    rw [u2, if_pos u1, setRank_next, hN, hL j hjn, size_dec_pos _ (by omega)]
    obtain ⟨s', e, r1, r2, r3, r4, r5⟩ := ih (j + 1)
      { s with L := setRank s.L j (curr - 1) } (curr - 1) (by omega)
      (fun a => by show ((setRank s.L j (curr - 1)) a).next = _; rw [setRank_next]; exact hN a)
      (fun j' h1 h2 => by
        refine ⟨(hun j' (by omega) h2).1, ?_⟩
        show ((setRank s.L j (curr - 1)) j').rank = _
        rw [setRank_other _ _ _ _ (by omega)]
        exact (hun j' (by omega) h2).2)
      (fun hqn => by
        show 0 ≤ s.in_samp ((setRank s.L j (curr - 1)) q).rank
        rw [setRank_other _ _ _ _ (by omega)]
        exact hsq hqn)
      (by omega) fuel (by omega)
    refine ⟨s', e, r1, r2, r3, ?_, ?_⟩
    · intro j' h1 h2
      by_cases hjj : j' = j
      · subst hjj
        rw [r5 j' (Or.inl (by omega))]
        show ((setRank s.L j' (curr - 1)) j').rank = _
        rw [setRank_rank_same]
        omega
      · rw [r4 j' (by omega) h2]
        omega
    · intro a ha
      rw [r5 a (by omega)]
      show (setRank s.L j (curr - 1)) a = _
      exact setRank_other _ _ _ _ (by omega)

/-- Run of `finalize_list` for a sampled index `i` in list order when every index from `i`
on still holds its own index and `q` is the next sampled index (or the end): the nodes
`i, …, q-1` get their distance to the tail and nothing else changes. -/
theorem finalize_list_seq_sampled (L : Heap) (n : Nat)
    (hL : ∀ i, i < n → (L i).next = if i + 1 < n then some (i + 1) else none)
    (s : SampState) (hN : ∀ a, (s.L a).next = (L a).next) (i q : Nat) (hi : i < n)
    (hiq : i < q) (hq : q ≤ n) (hin : s.in_samp i = (i : Int))
    (hcur : (s.samplist i).rank = n - 1 - i)
    (hid : ∀ j, i ≤ j → j < n → (s.L j).rank = j)
    (hun : ∀ j, i < j → j < q → s.in_samp j < 0) (hsq : q < n → 0 ≤ s.in_samp q)
    (fuel : Nat) (hfuel : n < fuel) :
    ∃ s', finalize_list fuel i s = some s' ∧ s'.in_samp = s.in_samp ∧
      s'.samplist = s.samplist ∧ (∀ a, (s'.L a).next = (L a).next) ∧
      (∀ j, i ≤ j → j < q → (s'.L j).rank = n - 1 - j) ∧
      (∀ a, (a < i ∨ q ≤ a) → s'.L a = s.L a) := by
  unfold finalize_list
  rw [if_pos (by rw [hin]; exact Int.ofNat_nonneg i), hin, Int.toNat_ofNat]
  dsimp only
  rw [setRank_next, hN, hL i hi, hcur]
  obtain ⟨s', e, r1, r2, r3, r4, r5⟩ := finalize_list_loop_run L n hL q hq (q - (i + 1)) (i + 1)
    { s with L := setRank s.L i (n - 1 - i) } (n - 1 - i) (by omega)
    (fun a => by show ((setRank s.L i (n - 1 - i)) a).next = _; rw [setRank_next]; exact hN a)
    (fun j' h1 h2 => by
      refine ⟨hun j' (by omega) h2, ?_⟩
      show ((setRank s.L i (n - 1 - i)) j').rank = _
      rw [setRank_other _ _ _ _ (by omega)]
      exact hid j' (by omega) (by omega))
    (fun hqn => by
      show 0 ≤ s.in_samp ((setRank s.L i (n - 1 - i)) q).rank
      rw [setRank_other _ _ _ _ (by omega), hid q (by omega) hqn]
      exact hsq hqn)
    (by omega) fuel (by omega)
  refine ⟨s', e, r1, r2, r3, ?_, ?_⟩
  · intro j h1 h2
    by_cases hji : j = i
    · subst hji
      rw [r5 j (Or.inl (by omega))]
      show ((setRank s.L j (n - 1 - j)) j).rank = _
      rw [setRank_rank_same]
    · rw [r4 j (by omega) h2]
      omega
  · intro a ha
    rw [r5 a (by omega)]
    show (setRank s.L i (n - 1 - i)) a = _
    exact setRank_other _ _ _ _ (by omega)

/-- The expansion pass in list order, run in increasing index order from index `i` on: if
the nodes before the first sampled index `F ≥ i` already hold their distance to the tail and
those from `F` on still hold their own index, then at the end every node holds its distance
to the tail. -/
theorem finalize_pass_seq (L : Heap) (n : Nat)
    (hL : ∀ i, i < n → (L i).next = if i + 1 < n then some (i + 1) else none)
    (ins : Nat → Int) (S : Heap) (hI : ∀ i, i < n → 0 ≤ ins i → ins i = (i : Int))
    (hS : ∀ i, i < n → 0 ≤ ins i → (S i).rank = n - 1 - i) (fuel : Nat) (hfuel : n < fuel) :
    ∀ k i (s : SampState), i + k = n → s.in_samp = ins → s.samplist = S →
      (∀ a, (s.L a).next = (L a).next) →
      (∃ F, i ≤ F ∧ F ≤ n ∧ (F < n → 0 ≤ ins F) ∧ (∀ j, i ≤ j → j < F → ins j < 0) ∧
        (∀ j, j < F → (s.L j).rank = n - 1 - j) ∧ (∀ j, F ≤ j → j < n → (s.L j).rank = j)) →
      ∃ s', parallel_for_fuel (List.range' i k) (finalize_list fuel) s = some s' ∧
        (∀ a, (s'.L a).next = (L a).next) ∧ (∀ j, j < n → (s'.L j).rank = n - 1 - j) := by
  intro k
  induction k with
  | zero =>
    intro i s hik _ _ hN hF
    obtain ⟨F, f1, f2, -, -, f5, -⟩ := hF
    exact ⟨s, rfl, hN, fun j hj => f5 j (by omega)⟩
  | succ k ih =>
    intro i s hik e1 e2 hN hF
    obtain ⟨F, f1, f2, f3, f4, f5, f6⟩ := hF
    have hi : i < n := by omega
    rw [List.range'_succ]
    simp only [parallel_for_fuel]
    by_cases hsamp : ins i < 0
    · have hFi : i < F := by
        by_contra hcon
        have hFi' : F = i := by omega
        have := f3 (by omega)
        rw [hFi'] at this
        omega
      have hrun : finalize_list fuel i s = some s := by
        unfold finalize_list
        rw [if_neg (by rw [e1]; omega)]
      rw [hrun]
      exact ih (i + 1) s (by omega) e1 e2 hN
        ⟨F, by omega, f2, f3, fun j h1 h2 => f4 j (by omega) h2, f5, f6⟩
    · have hFi : F = i := by
        by_contra hcon
        have := f4 i (Nat.le_refl i) (by omega)
        omega
      subst hFi
      obtain ⟨q, q1, q2, q3, q4⟩ := next_marked_or_end (fun j => 0 ≤ ins j) n F hi
      have hin : s.in_samp F = (F : Int) := by rw [e1]; exact hI F hi (by omega)
      obtain ⟨s', e, r1, r2, r3, r4, r5⟩ := finalize_list_seq_sampled L n hL s hN F q hi q1 q2
        hin (by rw [e2]; exact hS F hi (by omega)) f6
        (fun j h1 h2 => by rw [e1]; have := q4 j h1 h2; omega)
        (fun hqn => by rw [e1]; exact q3 hqn) fuel hfuel
      rw [e]
      refine ih (F + 1) s' (by omega) (by rw [r1, e1]) (by rw [r2, e2]) r3
        ⟨q, by omega, q2, q3, fun j h1 h2 => by have := q4 j (by omega) h2; omega, ?_, ?_⟩
      · intro j hj
        by_cases hjF : j < F
        · rw [r5 j (Or.inl hjF)]; exact f5 j hjF
        · exact r4 j (by omega) hj
      · intro j h1 h2
        rw [r5 j (Or.inr h1)]
        exact f6 j (by omega) h2

theorem wf_list_order (L : Heap) (n : Nat) (hn : 1 ≤ n)
    (hL : ∀ i, i < n → (L i).next = if i + 1 < n then some (i + 1) else none) :
    WellFormed L n (List.range n) := by
  refine ⟨hn, List.Perm.refl _, ?_⟩
  intro k hk
  have hk' : k < n := by simpa using hk
  rw [List.getElem_range, hL k hk']
  by_cases h1 : k + 1 < n
  · rw [if_pos h1, List.getElem?_range h1]
  · rw [if_neg h1, List.getElem?_eq_none (by simp; omega)]

/-- Claim C19, amended. When the array order is the list order (`L[i].next = &L[i+1]` for
`i < n-1`, `L[n-1].next` null) with `1 ≤ n ≤ 2^31` (every index fits the `int` entries of
`in_samp`), every parallel loop runs in increasing index order and the sample-list storage
starts zeroed, `SamplingBasedListRanking` returns (fuel above `n` suffices) with
`L[i].rank = n-1-i` for every `i < n` and the links unchanged, for every `num_samples`, every
outcome of the draws and every initial content of `in_samp` and `not_head`. -/
theorem C19_list_order_sequential (L : Heap) (n : Nat) (hn : 1 ≤ n) (hn31 : n ≤ 2 ^ 31)
    (hL : ∀ i, i < n → (L i).next = if i + 1 < n then some (i + 1) else none)
    (num_samples : Int) (draw : Nat → Nat) (in_samp0 : Nat → Int) (not_head0 : Nat → Bool)
    (fuel : Nat) (hfuel : n < fuel) :
    ∃ s, SamplingBasedListRanking fuel
        ⟨List.range n, List.range n, List.range n, List.range n⟩ draw
        (samp_start L in_samp0 not_head0 zeroed) n num_samples = some s ∧
      (∀ i, i < n → (s.L i).rank = n - 1 - i) ∧ (∀ a, (s.L a).next = (L a).next) := by
  have hwf := wf_list_order L n hn hL
  have hsch : IsSchedule n (List.range n) := List.Perm.refl _
  obtain ⟨hok, hsl⟩ := after_sampling_ok L n (List.range n) hwf hn31
    ⟨List.range n, List.range n, List.range n, List.range n⟩ hsch hsch draw
    (samp_start L in_samp0 not_head0 zeroed) rfl num_samples
  obtain ⟨v, e, v1, v2, v3⟩ := build_and_walks L n (List.range n) hwf (by omega) _ hok hsl
    (List.range n) hsch fuel hfuel
  obtain ⟨oN, oR, oI, oH, -⟩ := hok
  have hpos : 0 < (List.range n).length := by simpa using hn
  have hhead := oH 0 (by
    rw [List.head?_eq_getElem?, List.getElem?_eq_getElem hpos, List.getElem_range])
  obtain ⟨s, es, s1, s2⟩ := finalize_pass_seq L n hL v.in_samp v.samplist
    (fun i hi h0 => by rw [v2] at h0 ⊢; exact oI i hi h0)
    (fun i hi h0 => by
      have hi' : i < (List.range n).length := by simpa using hi
      have := v3 i hi' (by rw [List.getElem_range, ← v2]; exact h0)
      rwa [List.getElem_range] at this)
    fuel hfuel n 0 v (by omega) rfl rfl (fun a => by rw [v1]; exact oN a)
    ⟨0, Nat.le_refl 0, Nat.zero_le n,
      fun _ => by rw [v2, hhead.2]; exact Int.ofNat_nonneg _,
      fun j h1 h2 => by omega, fun j hj => by omega,
      fun j _ hj => by rw [v1]; exact oR j hj⟩
  refine ⟨s, ?_, s2, s1⟩
  have e' : after_walks fuel ⟨List.range n, List.range n, List.range n, List.range n⟩ draw
      (samp_start L in_samp0 not_head0 zeroed) n num_samples = some v := e
  unfold SamplingBasedListRanking
  rw [e']
  show parallel_for_fuel (List.range n) (finalize_list fuel) v = some s
  rw [List.range_eq_range']
  exact es

/-- Witness for C19 (amended): five nodes in list order, `num_samples = 1`, index `3` drawn. -/
theorem C19_list_order_sequential_witness :
    1 ≤ 5 ∧ 5 ≤ 2 ^ 31 ∧
    (∀ i, i < 5 → (mkNodes [some 1, some 2, some 3, some 4, none] i).next
      = if i + 1 < 5 then some (i + 1) else none) ∧
    ∃ s, SamplingBasedListRanking 6
        ⟨List.range 5, List.range 5, List.range 5, List.range 5⟩
        (fun i => if i = 3 then 0 else 4)
        (samp_start (mkNodes [some 1, some 2, some 3, some 4, none]) (fun _ => 0)
          (fun _ => false) zeroed) 5 1 = some s ∧
      (∀ i, i < 5 → (s.L i).rank = 5 - 1 - i) ∧
      (∀ a, (s.L a).next = (mkNodes [some 1, some 2, some 3, some 4, none] a).next) :=
  ⟨by decide, by decide, by decide,
   C19_list_order_sequential (mkNodes [some 1, some 2, some 3, some 4, none]) 5 (by decide)
     (by decide) (by decide) 1 (fun i => if i = 3 then 0 else 4) (fun _ => 0)
     (fun _ => false) 6 (by decide)⟩

/-- Claim C16 (the code departs from it). The expansion pass depends on the order of its
iterations.  Four nodes in list order `0 → 1 → 2 → 3`, sample `{0, 2, 3}` (`num_samples = 1`,
index `2` drawn), zeroed sample-list storage: with `finalize_list` run in the order
`0, 1, 2, 3` the final ranks are `[3, 2, 1, 0]`; run in the order `2, 0, 1, 3` they are
`[3, 1, 1, 0]`.  Iteration `2` overwrites `L[2].rank`, which iteration `0` then reads
through `currnode->rank` as the index of node `2`: it looks up `in_samp[1]`, walks past the
sampled node `2` and writes into `L[1]` a second time. -/
theorem C16_finalize_depends_on_order :
    WellFormed (mkNodes [some 1, some 2, some 3, none]) 4 [0, 1, 2, 3] ∧
    IsSchedule 4 [0, 1, 2, 3] ∧ IsSchedule 4 [2, 0, 1, 3] ∧
    (after_walks 5 ⟨[0, 1, 2, 3], [0, 1, 2, 3], [0, 1, 2, 3], []⟩
        (fun i => if i = 2 then 0 else 1)
        (samp_start (mkNodes [some 1, some 2, some 3, none]) (fun _ => 0) (fun _ => false)
          zeroed) 4 1).map
      (fun v => ([v.in_samp 0, v.in_samp 1, v.in_samp 2, v.in_samp 3],
        (v.samplist 0).rank, (v.samplist 2).rank, (v.samplist 3).rank))
      = some ([0, -1, 2, 3], 3, 1, 0) ∧
    (SamplingBasedListRanking 5 ⟨[0, 1, 2, 3], [0, 1, 2, 3], [0, 1, 2, 3], [0, 1, 2, 3]⟩
        (fun i => if i = 2 then 0 else 1)
        (samp_start (mkNodes [some 1, some 2, some 3, none]) (fun _ => 0) (fun _ => false)
          zeroed) 4 1).map (fun s => ranksOf s.L 4) = some [3, 2, 1, 0] ∧
    (SamplingBasedListRanking 5 ⟨[0, 1, 2, 3], [0, 1, 2, 3], [0, 1, 2, 3], [2, 0, 1, 3]⟩
        (fun i => if i = 2 then 0 else 1)
        (samp_start (mkNodes [some 1, some 2, some 3, none]) (fun _ => 0) (fun _ => false)
          zeroed) 4 1).map (fun s => ranksOf s.L 4) = some [3, 1, 1, 0] := by
  refine ⟨by decide, by decide, by decide, by decide, by decide, by decide⟩

/-! ## Lists with more than `2^31` nodes

The entries of `in_samp` are `int`s, so a slot index from `2^31` on does not survive the
assignment `in_samp[i] = i`: up to `2^32 - 1` the stored value is negative and the node counts
as unsampled, also when it is the tail; from `2^32` on the stored value can be the index of
another slot.  The lemmas below run the code on `m + 1` nodes in list order with no node
drawn, when the tail index `m` is stored as a negative `int` and when it is stored as `0`. -/

theorem listOrderNodes_next (n i : Nat) :
    (listOrderNodes n i).next = if i + 1 < n then some (i + 1) else none := rfl

theorem listOrderNodes_next_lt (n i : Nat) (h : i + 1 < n) :
    (listOrderNodes n i).next = some (i + 1) := by
  rw [listOrderNodes_next, if_pos h]

theorem listOrderNodes_next_last (m : Nat) : (listOrderNodes (m + 1) m).next = none := by
  rw [listOrderNodes_next, if_neg (Nat.lt_irrefl _)]

theorem range_head (n : Nat) (hn : 1 ≤ n) : (List.range n).head? = some 0 := by
  have hpos : 0 < (List.range n).length := by simpa using hn
  rw [List.head?_eq_getElem?, List.getElem?_eq_getElem hpos, List.getElem_range]

theorem range_getLast (m : Nat) : (List.range (m + 1)).getLast? = some m := by
  rw [List.getLast?_eq_getElem?, List.length_range, Nat.add_sub_cancel,
    List.getElem?_range (Nat.lt_succ_self m)]

/-- A `parallel_for` all of whose iterations leave the state as it is. -/
theorem parallel_for_fuel_skip {σ : Type} (body : Nat → σ → Option σ) (s : σ) :
    ∀ sched : List Nat, (∀ i, i ∈ sched → body i s = some s) →
      parallel_for_fuel sched body s = some s := by
  intro sched
  induction sched with
  | nil => intro _; rfl
  | cons i rest ih =>
    intro h
    simp only [parallel_for_fuel]
    rw [h i (by simp)]
    exact ih (fun j hj => h j (by simp [hj]))

/-- The state after the sampling passes on `m + 1 ≥ 2` nodes in list order, for all
schedules, draws and sample targets: the head is slot `0`, `in_samp[0] = 0`, the tail's
entry `in_samp[m]` holds `m` converted to `int`, and a node in between holds its index
converted to `int` if it was drawn and `-1` if not. -/
theorem after_sampling_list_order (m : Nat) (hm : 1 ≤ m) (sch : SampSched)
    (hgen : IsSchedule (m + 1) sch.gen) (hincl : IsSchedule (m + 1) sch.incl)
    (draw : Nat → Nat) (mem : SampState) (hmem : mem.L = listOrderNodes (m + 1))
    (num_samples : Int) :
    (∀ a, ((after_sampling sch draw mem (m + 1) num_samples).L a).next
      = (listOrderNodes (m + 1) a).next) ∧
    (∀ i, i < m + 1 → ((after_sampling sch draw mem (m + 1) num_samples).L i).rank = i) ∧
    (after_sampling sch draw mem (m + 1) num_samples).head_index = 0 ∧
    (after_sampling sch draw mem (m + 1) num_samples).in_samp 0 = 0 ∧
    (after_sampling sch draw mem (m + 1) num_samples).in_samp m = size_to_int m ∧
    (∀ i, 0 < i → i < m → (after_sampling sch draw mem (m + 1) num_samples).in_samp i
      = if ((draw i % (m + 1) : Nat) : Int) < sample_target (m + 1) num_samples
        then size_to_int i else -1) ∧
    (after_sampling sch draw mem (m + 1) num_samples).samplist = mem.samplist := by
  have hwf := wf_list_order (listOrderNodes (m + 1)) (m + 1) (by omega)
    (fun i _ => listOrderNodes_next (m + 1) i)
  obtain ⟨s1, s2, -, s4, s5, s6, s7⟩ := after_sampling_spec (listOrderNodes (m + 1)) (m + 1)
    (List.range (m + 1)) hwf 0 (range_head (m + 1) (by omega)) sch hgen hincl draw mem hmem
    num_samples
  refine ⟨s1, s2, s4, by rw [s5]; rfl, ?_, ?_, s7⟩
  · rw [s6 m (by omega) (by omega)]
    unfold drawn_in_samp
    rw [listOrderNodes_next_last, if_pos rfl]
  · intro i hi0 him
    rw [s6 i (by omega) (by omega)]
    unfold drawn_in_samp
    rw [listOrderNodes_next_lt _ i (by omega), if_neg (Option.some_ne_none _)]

/-- The contraction pass in increasing index order on `m + 1 ≥ 2` nodes in list order when
only the head looks sampled: `build_list` for the head runs off the end of the list and
leaves `m + 1` in the rank of the head's entry, one more than the `m` hops to the tail; its
`next` stays as it was. -/
theorem build_pass_head_only (m : Nat) (hm : 1 ≤ m) (hb : m + 1 < 2 ^ 64) (t : SampState)
    (hN : ∀ a, (t.L a).next = (listOrderNodes (m + 1) a).next)
    (hR : ∀ i, i < m + 1 → (t.L i).rank = i) (h0 : t.in_samp 0 = 0)
    (hneg : ∀ i, 0 < i → i < m + 1 → t.in_samp i < 0)
    (hz : (t.samplist 0).rank = 0) (fuel : Nat) (hfuel : m + 1 ≤ fuel) :
    parallel_for_fuel (List.range (m + 1)) (build_list fuel) t
      = some { t with samplist := setRank t.samplist 0 (m + 1) } := by
  have hwf := wf_list_order (listOrderNodes (m + 1)) (m + 1) (by omega)
    (fun i _ => listOrderNodes_next (m + 1) i)
  have hlen : (List.range (m + 1)).length = m + 1 := List.length_range _
  have htn : (t.in_samp 0).toNat = 0 := by rw [h0]; rfl
  have hbump : bumpRank t 0 = { t with samplist := setRank t.samplist 0 (0 + 1) } := by
    rw [bumpRank_no_wrap t 0 (by rw [hz]; omega), hz]
  have hloop := build_list_loop_run (listOrderNodes (m + 1)) (m + 1) (List.range (m + 1)) hwf
    0 (m + 1) (by rw [hlen]) m 1 { t with samplist := setRank t.samplist 0 (0 + 1) }
    (by omega) hN hR
    (fun j' h1 h2 => by
      rw [getD_chain _ j' (by rw [hlen]; exact h2), List.getElem_range]
      exact hneg j' (by omega) h2)
    (fun h => by rw [hlen] at h; omega)
    (by
      show ((setRank t.samplist 0 (0 + 1)) (t.in_samp 0).toNat).rank + m < 2 ^ 64
      rw [htn, setRank_rank_same]; omega)
    fuel (by omega)
  rw [List.getElem?_range (by omega), List.getElem?_eq_none (by rw [hlen])] at hloop
  have hfirst : build_list fuel 0 t
      = some { t with samplist := setRank t.samplist 0 (m + 1) } := by
    unfold build_list
    rw [if_pos (by rw [h0])]
    dsimp only
    rw [hN, listOrderNodes_next_lt _ 0 (by omega), if_pos (Option.some_ne_none _), htn, hbump,
      hloop]
    dsimp only
    congr 1
    show ({ t with samplist := (setRank (setRank t.samplist 0 (0 + 1)) (t.in_samp 0).toNat
        (((setRank t.samplist 0 (0 + 1)) (t.in_samp 0).toNat).rank + m)) } : SampState) = _
    rw [htn, setRank_rank_same, setRank_setRank, Nat.zero_add, Nat.add_comm 1 m]
  rw [List.range_eq_range', List.range'_succ]
  simp only [parallel_for_fuel]
  rw [hfirst]
  dsimp only
  apply parallel_for_fuel_skip
  intro i hi
  have hi' := List.mem_range'_1.mp hi
  exact build_list_unsampled fuel i _ (hneg i (by omega) (by omega))

/-- The two serial walks over a sample list whose first entry, the head's, has a null
`next`: the entry keeps its rank. -/
theorem serial_walks_single (u : SampState) (h0 : u.in_samp u.head_index = 0)
    (hnx : (u.samplist 0).next = none) (fuel : Nat) (hfuel : 2 ≤ fuel) :
    serial_walks fuel u = some u := by
  obtain ⟨f, rfl⟩ : ∃ f, fuel = f + 2 := ⟨fuel - 2, by omega⟩
  have htn : (u.in_samp u.head_index).toNat = 0 := by rw [h0]; rfl
  unfold serial_walks
  rw [htn]
  simp only [samp_walk1, samp_walk2, hnx, setRank_next, Nat.zero_add, setRank_self,
    sampState_samplist_self]

/-- The expansion pass in increasing index order on `m + 1 ≥ 2` nodes in list order when only
the head looks sampled and its entry holds `m + 1`: node `i` gets the rank `m + 1 - i`, one
more than its distance `m - i` to the tail. -/
theorem finalize_pass_head_only (m : Nat) (hm : 1 ≤ m) (v : SampState)
    (hN : ∀ a, (v.L a).next = (listOrderNodes (m + 1) a).next)
    (hR : ∀ i, i < m + 1 → (v.L i).rank = i) (h0 : v.in_samp 0 = 0)
    (hneg : ∀ i, 0 < i → i < m + 1 → v.in_samp i < 0)
    (hrank : (v.samplist 0).rank = m + 1) (fuel : Nat) (hfuel : m + 1 < fuel) :
    ∃ w, parallel_for_fuel (List.range (m + 1)) (finalize_list fuel) v = some w ∧
      (∀ i, i < m + 1 → (w.L i).rank = m + 1 - i) ∧
      (∀ a, (w.L a).next = (listOrderNodes (m + 1) a).next) := by
  have htn : (v.in_samp 0).toNat = 0 := by rw [h0]; rfl
  obtain ⟨w, e, r1, r2, r3, r4, r5⟩ := finalize_list_loop_run (listOrderNodes (m + 1)) (m + 1)
    (fun i _ => listOrderNodes_next (m + 1) i) (m + 1) (Nat.le_refl _) m 1
    { v with L := setRank v.L 0 (m + 1) } (m + 1) (by omega)
    (fun a => by show ((setRank v.L 0 (m + 1)) a).next = _; rw [setRank_next]; exact hN a)
    (fun j' h1 h2 => by
      refine ⟨hneg j' (by omega) h2, ?_⟩
      show ((setRank v.L 0 (m + 1)) j').rank = _
      rw [setRank_other _ _ _ _ (by omega)]
      exact hR j' h2)
    (fun h => by omega) (by omega) fuel (by omega)
  rw [if_pos (by omega)] at e
  have hfirst : finalize_list fuel 0 v = some w := by
    unfold finalize_list
    rw [if_pos (by rw [h0]), htn, hrank]
    dsimp only
    rw [setRank_next, hN, listOrderNodes_next_lt _ 0 (by omega)]
    exact e
  refine ⟨w, ?_, ?_, r3⟩
  · rw [List.range_eq_range', List.range'_succ]
    simp only [parallel_for_fuel]
    rw [hfirst]
    dsimp only
    apply parallel_for_fuel_skip
    intro i hi
    have hi' := List.mem_range'_1.mp hi
    unfold finalize_list
    rw [if_neg (by rw [r1]; have := hneg i (by omega) (by omega); exact not_le.mpr this)]
  · intro i hi
    by_cases hi0 : i = 0
    · subst hi0
      rw [r5 0 (Or.inl (by omega))]
      show ((setRank v.L 0 (m + 1)) 0).rank = _
      rw [setRank_rank_same, Nat.sub_zero]
    · rw [r4 i (by omega) hi]
      omega

/-- The contraction pass in increasing index order and the two serial walks on `m + 1 ≥ 2`
nodes in list order when only the head looks sampled, from zeroed sample-list storage: the
head's entry ends with rank `m + 1` and a null `next`. -/
theorem build_and_walks_head_only (m : Nat) (hm : 1 ≤ m) (hb : m + 1 < 2 ^ 64) (t : SampState)
    (hN : ∀ a, (t.L a).next = (listOrderNodes (m + 1) a).next)
    (hR : ∀ i, i < m + 1 → (t.L i).rank = i) (hh : t.head_index = 0) (h0 : t.in_samp 0 = 0)
    (hneg : ∀ i, 0 < i → i < m + 1 → t.in_samp i < 0) (hz : t.samplist = zeroed) (fuel : Nat)
    (hfuel : m + 1 ≤ fuel) :
    (parallel_for_fuel (List.range (m + 1)) (build_list fuel) t).bind (serial_walks fuel)
      = some { t with samplist := setRank zeroed 0 (m + 1) } := by
  rw [build_pass_head_only m hm hb t hN hR h0 hneg (by rw [hz]; rfl) fuel hfuel, hz]
  exact serial_walks_single _ (by dsimp only; rw [hh]; exact h0)
    (by dsimp only; rw [setRank_next]; rfl) fuel (by omega)

theorem isSchedule_range (n : Nat) : IsSchedule n (List.range n) := List.Perm.refl _

/-- `SamplingBasedListRanking` run in increasing index order on `m + 1 ≥ 2` nodes in list
order with no node drawn (`num_samples = 0`) and zeroed sample-list storage, when the tail
index `m` converts to a negative `int`: only the head looks sampled, after the serial walks
its entry holds `m + 1`, and at the end node `i` has rank `m + 1 - i`; both are one more than
the distance to the tail. -/
theorem sampling_tail_index_negative (m : Nat) (hm : 1 ≤ m) (hb : m + 1 < 2 ^ 64)
    (hneg : size_to_int m < 0) (draw : Nat → Nat) (in_samp0 : Nat → Int)
    (not_head0 : Nat → Bool) (fuel : Nat) (hfuel : m + 1 < fuel) :
    (∃ v, after_walks fuel
        ⟨List.range (m + 1), List.range (m + 1), List.range (m + 1), List.range (m + 1)⟩ draw
        (samp_start (listOrderNodes (m + 1)) in_samp0 not_head0 zeroed) (m + 1) 0 = some v ∧
      v.in_samp 0 = 0 ∧ (v.samplist 0).rank = m + 1) ∧
    (∃ s, SamplingBasedListRanking fuel
        ⟨List.range (m + 1), List.range (m + 1), List.range (m + 1), List.range (m + 1)⟩ draw
        (samp_start (listOrderNodes (m + 1)) in_samp0 not_head0 zeroed) (m + 1) 0 = some s ∧
      ∀ i, i < m + 1 → (s.L i).rank = m + 1 - i) := by
  have hsch : IsSchedule (m + 1) (List.range (m + 1)) := List.Perm.refl _
  obtain ⟨a1, a2, a3, a4, a5, a6, a7⟩ := after_sampling_list_order m hm
    ⟨List.range (m + 1), List.range (m + 1), List.range (m + 1), List.range (m + 1)⟩ hsch hsch
    draw (samp_start (listOrderNodes (m + 1)) in_samp0 not_head0 zeroed) rfl 0
  have hnegall : ∀ i, 0 < i → i < m + 1 → (after_sampling
      ⟨List.range (m + 1), List.range (m + 1), List.range (m + 1), List.range (m + 1)⟩ draw
      (samp_start (listOrderNodes (m + 1)) in_samp0 not_head0 zeroed) (m + 1) 0).in_samp i
      < 0 := by
    intro i hi0 hi
    by_cases him : i = m
    · rw [him, a5]; exact hneg
    · rw [a6 i hi0 (by omega)]
      have ht : sample_target (m + 1) 0 = 0 := by
        unfold sample_target; rw [if_neg (by decide)]
      rw [ht, if_neg (by omega)]
      decide
  have hw := build_and_walks_head_only m hm hb _ a1 a2 a3 a4 hnegall a7 fuel (by omega)
  obtain ⟨w, e, r1, -⟩ := finalize_pass_head_only m hm
    { (after_sampling
      ⟨List.range (m + 1), List.range (m + 1), List.range (m + 1), List.range (m + 1)⟩ draw
      (samp_start (listOrderNodes (m + 1)) in_samp0 not_head0 zeroed) (m + 1) 0) with
      samplist := (setRank zeroed 0 (m + 1)) }
    (fun a => a1 a) (fun i hi => a2 i hi) a4 hnegall (setRank_rank_same _ 0 (m + 1)) fuel hfuel
  refine ⟨⟨_, hw, a4, setRank_rank_same _ 0 (m + 1)⟩, w, ?_, r1⟩
  unfold SamplingBasedListRanking
  have hw' : after_walks fuel
      ⟨List.range (m + 1), List.range (m + 1), List.range (m + 1), List.range (m + 1)⟩ draw
      (samp_start (listOrderNodes (m + 1)) in_samp0 not_head0 zeroed) (m + 1) 0 = _ := hw
  rw [hw']
  exact e

theorem size_to_int_two_pow_31 : size_to_int (2 ^ 31) = -(2 ^ 31) := by
  unfold size_to_int
  norm_num

/-- Counterexample to C10 as stated: `2^31 + 1` nodes in list order, every node drawn.  The
tail is slot `2^31`; the assignment `in_samp[i] = i` stores its index as the `int` `-2^31`, so
after the two sampling passes the tail is not in the sample. -/
theorem C10_tail_beyond_int_not_sampled :
    WellFormed (listOrderNodes (2 ^ 31 + 1)) (2 ^ 31 + 1) (List.range (2 ^ 31 + 1)) ∧
    (List.range (2 ^ 31 + 1)).getLast? = some (2 ^ 31) ∧
    (after_sampling ⟨List.range (2 ^ 31 + 1), List.range (2 ^ 31 + 1), [], []⟩ (fun _ => 0)
      (samp_start (listOrderNodes (2 ^ 31 + 1)) (fun _ => 0) (fun _ => false) zeroed)
      (2 ^ 31 + 1) 1).in_samp (2 ^ 31) = -(2 ^ 31) ∧
    ¬ 0 ≤ (after_sampling ⟨List.range (2 ^ 31 + 1), List.range (2 ^ 31 + 1), [], []⟩
      (fun _ => 0)
      (samp_start (listOrderNodes (2 ^ 31 + 1)) (fun _ => 0) (fun _ => false) zeroed)
      (2 ^ 31 + 1) 1).in_samp (2 ^ 31) := by
  have h := (after_sampling_list_order (2 ^ 31) (by norm_num)
    ⟨List.range (2 ^ 31 + 1), List.range (2 ^ 31 + 1), [], []⟩ (isSchedule_range _)
    (isSchedule_range _) (fun _ => 0)
    (samp_start (listOrderNodes (2 ^ 31 + 1)) (fun _ => 0) (fun _ => false) zeroed) rfl
    1).2.2.2.2.1
  rw [size_to_int_two_pow_31] at h
  refine ⟨wf_list_order _ _ (by norm_num) (fun i _ => listOrderNodes_next _ i),
    range_getLast (2 ^ 31), h, ?_⟩
  rw [h]
  norm_num

/-- Counterexample to C9 as stated: `2^31 + 1` nodes in list order with
`num_samples = 2^31 + 1 ≥ n`.  After the sampling passes `in_samp[2^31]` holds `-2^31`, not
`2^31`: the tail is not in the sample. -/
theorem C9_not_every_node_sampled_beyond_int :
    WellFormed (listOrderNodes (2 ^ 31 + 1)) (2 ^ 31 + 1) (List.range (2 ^ 31 + 1)) ∧
    (((2 ^ 31 + 1 : Nat) : Int) ≤ 2 ^ 31 + 1) ∧
    (after_sampling ⟨List.range (2 ^ 31 + 1), List.range (2 ^ 31 + 1), [], []⟩ (fun i => i)
      (samp_start (listOrderNodes (2 ^ 31 + 1)) (fun _ => 0) (fun _ => false) zeroed)
      (2 ^ 31 + 1) (2 ^ 31 + 1)).in_samp (2 ^ 31) = -(2 ^ 31) ∧
    (after_sampling ⟨List.range (2 ^ 31 + 1), List.range (2 ^ 31 + 1), [], []⟩ (fun i => i)
      (samp_start (listOrderNodes (2 ^ 31 + 1)) (fun _ => 0) (fun _ => false) zeroed)
      (2 ^ 31 + 1) (2 ^ 31 + 1)).in_samp (2 ^ 31) ≠ ((2 ^ 31 : Nat) : Int) := by
  have h := (after_sampling_list_order (2 ^ 31) (by norm_num)
    ⟨List.range (2 ^ 31 + 1), List.range (2 ^ 31 + 1), [], []⟩ (isSchedule_range _)
    (isSchedule_range _) (fun i => i)
    (samp_start (listOrderNodes (2 ^ 31 + 1)) (fun _ => 0) (fun _ => false) zeroed) rfl
    (2 ^ 31 + 1)).2.2.2.2.1
  rw [size_to_int_two_pow_31] at h
  refine ⟨wf_list_order _ _ (by norm_num) (fun i _ => listOrderNodes_next _ i),
    by norm_num, h, ?_⟩
  rw [h]
  norm_num

/-- Counterexample to C19 as stated: `2^31 + 1` nodes in list order, no node drawn, every
loop in increasing index order, zeroed sample-list storage.  The tail index `2^31` is stored
in `in_samp` as the `int` `-2^31`, `build_list` for the head runs off the end of the list,
and `SamplingBasedListRanking` returns with `L[i].rank = n - i` for every `i`, one more than
`n - 1 - i`. -/
theorem C19_list_order_beyond_int :
    (∀ i, i < 2 ^ 31 + 1 → (listOrderNodes (2 ^ 31 + 1) i).next
      = if i + 1 < 2 ^ 31 + 1 then some (i + 1) else none) ∧
    ∃ s, SamplingBasedListRanking (2 ^ 31 + 2) ⟨List.range (2 ^ 31 + 1),
        List.range (2 ^ 31 + 1), List.range (2 ^ 31 + 1), List.range (2 ^ 31 + 1)⟩
        (fun _ => 0)
        (samp_start (listOrderNodes (2 ^ 31 + 1)) (fun _ => 0) (fun _ => false) zeroed)
        (2 ^ 31 + 1) 0 = some s ∧
      (∀ i, i < 2 ^ 31 + 1 → (s.L i).rank = 2 ^ 31 + 1 - i) ∧
      (s.L 0).rank ≠ 2 ^ 31 + 1 - 1 - 0 := by
  obtain ⟨s, e, hs⟩ := (sampling_tail_index_negative (2 ^ 31) (by norm_num) (by norm_num)
    (by rw [size_to_int_two_pow_31]; norm_num) (fun _ => 0) (fun _ => 0) (fun _ => false)
    (2 ^ 31 + 2) (by norm_num)).2
  refine ⟨fun i _ => listOrderNodes_next _ i, s, e, hs, ?_⟩
  rw [hs 0 (by norm_num)]
  norm_num

/-- The `while` loop of `build_list` runs out of fuel when at least as many unsampled nodes
lie ahead as there is fuel. -/
theorem build_list_loop_out_of_fuel (L : Heap) (n : Nat) (ch : List Nat)
    (hwf : WellFormed L n ch) (i : Nat) :
    ∀ fuel j (s : SampState),
      (∀ a, (s.L a).next = (L a).next) → (∀ a, a < n → (s.L a).rank = a) →
      (∀ j', j ≤ j' → j' < j + fuel → j' < ch.length ∧ s.in_samp (ch.getD j' 0) < 0) →
      build_list_loop fuel i s ch[j]? = none := by
  intro fuel
  induction fuel with
  | zero => intro j s _ _ _; rfl
  | succ fuel ih =>
    intro j s hN hR hun
    obtain ⟨hjl, hunj⟩ := hun j (Nat.le_refl j) (by omega)
    rw [getD_chain ch j hjl] at hunj
    rw [List.getElem?_eq_getElem hjl]
    simp only [build_list_loop]
    rw [hR _ (wf_lt hwf j hjl), if_pos hunj]
    have hnx : ((bumpRank s (s.in_samp i).toNat).L ch[j]).next = ch[j + 1]? := by
      show (s.L ch[j]).next = _
      rw [hN, hwf.2.2 j hjl]
    rw [hnx]
    exact ih (j + 1) (bumpRank s (s.in_samp i).toNat) hN hR
      (fun j' h1 h2 => hun j' (by omega) (by omega))

theorem size_to_int_two_pow_32 : size_to_int (2 ^ 32) = 0 := by
  unfold size_to_int
  norm_num

/-- The contraction pass in increasing index order and the serial walks on `m + 1 ≥ 2` nodes
in list order with no node drawn, when the tail index `m` converts to the `int` `0`, the
index of the head: head and tail pass the test `in_samp ≥ 0`, the tail shares the head's
entry `samplist[0]`, `build_list` for the head links that entry to itself, and the first
serial walk never ends, so the walks return for no fuel. -/
theorem walks_never_return_aliased_tail (m : Nat) (hm : 1 ≤ m) (hb : m + 1 < 2 ^ 64)
    (hz : size_to_int m = 0) (draw : Nat → Nat) (in_samp0 : Nat → Int)
    (not_head0 : Nat → Bool) (fuel : Nat) :
    after_walks fuel
      ⟨List.range (m + 1), List.range (m + 1), List.range (m + 1), List.range (m + 1)⟩ draw
      (samp_start (listOrderNodes (m + 1)) in_samp0 not_head0 zeroed) (m + 1) 0 = none := by
  have hwf := wf_list_order (listOrderNodes (m + 1)) (m + 1) (by omega)
    (fun i _ => listOrderNodes_next (m + 1) i)
  have hlen : (List.range (m + 1)).length = m + 1 := List.length_range _
  obtain ⟨a1, a2, a3, a4, a5, a6, a7⟩ := after_sampling_list_order m hm
    ⟨List.range (m + 1), List.range (m + 1), List.range (m + 1), List.range (m + 1)⟩
    (isSchedule_range _) (isSchedule_range _) draw
    (samp_start (listOrderNodes (m + 1)) in_samp0 not_head0 zeroed) rfl 0
  rw [hz] at a5
  have hmid : ∀ i, 0 < i → i < m → (after_sampling
      ⟨List.range (m + 1), List.range (m + 1), List.range (m + 1), List.range (m + 1)⟩ draw
      (samp_start (listOrderNodes (m + 1)) in_samp0 not_head0 zeroed) (m + 1) 0).in_samp i
      < 0 := by
    intro i hi0 hi
    rw [a6 i hi0 hi]
    have ht : sample_target (m + 1) 0 = 0 := by
      unfold sample_target; rw [if_neg (by decide)]
    rw [ht, if_neg (by omega)]
    decide
  unfold after_walks after_build
  dsimp only
  generalize (after_sampling
      ⟨List.range (m + 1), List.range (m + 1), List.range (m + 1), List.range (m + 1)⟩ draw
      (samp_start (listOrderNodes (m + 1)) in_samp0 not_head0 zeroed) (m + 1) 0) = t
    at a1 a2 a3 a4 a5 a6 a7 hmid ⊢
  have htn : (t.in_samp 0).toNat = 0 := by rw [a4]; rfl
  have hgetD : ∀ j', j' < m + 1 → (List.range (m + 1)).getD j' 0 = j' := by
    intro j' hj'
    rw [getD_chain _ j' (by rw [hlen]; exact hj'), List.getElem_range]
  rw [List.range_eq_range', List.range'_succ]
  simp only [parallel_for_fuel]
  by_cases hf : m ≤ fuel
  · -- enough fuel for the contraction pass: the head's entry becomes a self-loop
    have hbump : bumpRank t 0 = { t with samplist := setRank t.samplist 0 (0 + 1) } := by
      rw [bumpRank_no_wrap t 0 (by rw [a7]; show 0 + 1 < 2 ^ 64; omega), a7]
      rfl
    have hloop := build_list_loop_run (listOrderNodes (m + 1)) (m + 1) (List.range (m + 1))
      hwf 0 m (by rw [hlen]; omega) (m - 1) 1
      { t with samplist := setRank t.samplist 0 (0 + 1) } (by omega) a1 a2
      (fun j' h1 h2 => by rw [hgetD j' (by omega)]; exact hmid j' (by omega) h2)
      (fun _ => by rw [hgetD m (by omega)]; show 0 ≤ t.in_samp m; rw [a5])
      (by
        show ((setRank t.samplist 0 (0 + 1)) (t.in_samp 0).toNat).rank + (m - 1) < 2 ^ 64
        rw [htn, setRank_rank_same]; omega)
      fuel (by omega)
    rw [List.getElem?_range (by omega), List.getElem?_range (by omega)] at hloop
    have hfirst : ∃ u, build_list fuel 0 t = some u ∧ u.L = t.L ∧ u.in_samp = t.in_samp ∧
        u.head_index = t.head_index ∧ (u.samplist 0).next = some 0 := by
      unfold build_list
      rw [if_pos (by rw [a4])]
      dsimp only
      rw [a1, listOrderNodes_next_lt _ 0 (by omega), if_pos (Option.some_ne_none _), htn,
        hbump, hloop]
      dsimp only
      refine ⟨_, rfl, rfl, rfl, rfl, ?_⟩
      dsimp only
      rw [htn, a2 m (by omega), a5]
      show ((setNext _ 0 (some 0)) 0).next = some 0
      rw [setNext_same]
    obtain ⟨u, e, u1, u2, u3, u4⟩ := hfirst
    rw [e]
    dsimp only
    rw [parallel_for_fuel_skip (build_list fuel) u (List.range' (0 + 1) m) (by
      intro i hi
      have hi' := List.mem_range'_1.mp hi
      by_cases him : i = m
      · rw [him]
        exact build_list_tail fuel m u (by omega)
          (by rw [u1, a1]; exact listOrderNodes_next_last m)
      · exact build_list_unsampled fuel i u (by rw [u2]; exact hmid i (by omega) (by omega)))]
    show serial_walks fuel u = none
    unfold serial_walks
    rw [u3, u2, a3, htn]
    dsimp only
    rw [samp_walk1_selfloop u.samplist 0 u4 fuel 0 0]
  · -- too little fuel: the loop of `build_list` for the head does not return
    have hloop := build_list_loop_out_of_fuel (listOrderNodes (m + 1)) (m + 1)
      (List.range (m + 1)) hwf 0 fuel 1 (bumpRank t 0) a1 a2
      (fun j' h1 h2 => by
        refine ⟨by rw [hlen]; omega, ?_⟩
        rw [hgetD j' (by omega)]
        exact hmid j' (by omega) (by omega))
    rw [List.getElem?_range (by omega)] at hloop
    have hfirst : build_list fuel 0 t = none := by
      unfold build_list
      rw [if_pos (by rw [a4])]
      dsimp only
      rw [a1, listOrderNodes_next_lt _ 0 (by omega), if_pos (Option.some_ne_none _), htn,
        hloop]
    rw [hfirst]
    rfl

/-- Counterexample to C15 as stated, at two inputs; both are lists in list order with no node
drawn, the loops run in increasing index order and the sample-list storage starts zeroed.
With `n = 2^32 + 1` nodes the head (slot `0`) and the tail (slot `2^32`) both pass the test
`in_samp ≥ 0`, so the sample contains the head and the tail; but the tail's index is stored
as the `int` `0`, `build_list` links the head's entry `samplist[0]` to itself, and the two
serial walks return for no fuel.  With `n = 2^31 + 1` nodes the tail's index `2^31` is stored
as the `int` `-2^31`, so the sample the code draws does not contain the tail, and after the
two serial walks the head's entry holds `2^31 + 1 = n`, not its distance `n - 1` to the
tail. -/
theorem C15_walks_fail_beyond_int :
    (WellFormed (listOrderNodes (2 ^ 32 + 1)) (2 ^ 32 + 1) (List.range (2 ^ 32 + 1)) ∧
      (List.range (2 ^ 32 + 1)).head? = some 0 ∧
      (List.range (2 ^ 32 + 1)).getLast? = some (2 ^ 32) ∧
      0 ≤ (after_sampling ⟨List.range (2 ^ 32 + 1), List.range (2 ^ 32 + 1),
          List.range (2 ^ 32 + 1), List.range (2 ^ 32 + 1)⟩ (fun _ => 0)
        (samp_start (listOrderNodes (2 ^ 32 + 1)) (fun _ => 0) (fun _ => false) zeroed)
        (2 ^ 32 + 1) 0).in_samp 0 ∧
      0 ≤ (after_sampling ⟨List.range (2 ^ 32 + 1), List.range (2 ^ 32 + 1),
          List.range (2 ^ 32 + 1), List.range (2 ^ 32 + 1)⟩ (fun _ => 0)
        (samp_start (listOrderNodes (2 ^ 32 + 1)) (fun _ => 0) (fun _ => false) zeroed)
        (2 ^ 32 + 1) 0).in_samp (2 ^ 32) ∧
      ∀ fuel, after_walks fuel ⟨List.range (2 ^ 32 + 1), List.range (2 ^ 32 + 1),
          List.range (2 ^ 32 + 1), List.range (2 ^ 32 + 1)⟩ (fun _ => 0)
        (samp_start (listOrderNodes (2 ^ 32 + 1)) (fun _ => 0) (fun _ => false) zeroed)
        (2 ^ 32 + 1) 0 = none) ∧
    (WellFormed (listOrderNodes (2 ^ 31 + 1)) (2 ^ 31 + 1) (List.range (2 ^ 31 + 1)) ∧
      (List.range (2 ^ 31 + 1)).head? = some 0 ∧
      (List.range (2 ^ 31 + 1)).getLast? = some (2 ^ 31) ∧
      (after_sampling ⟨List.range (2 ^ 31 + 1), List.range (2 ^ 31 + 1),
          List.range (2 ^ 31 + 1), List.range (2 ^ 31 + 1)⟩ (fun _ => 0)
        (samp_start (listOrderNodes (2 ^ 31 + 1)) (fun _ => 0) (fun _ => false) zeroed)
        (2 ^ 31 + 1) 0).in_samp (2 ^ 31) = -(2 ^ 31) ∧
      ∃ v, after_walks (2 ^ 31 + 2) ⟨List.range (2 ^ 31 + 1), List.range (2 ^ 31 + 1),
          List.range (2 ^ 31 + 1), List.range (2 ^ 31 + 1)⟩ (fun _ => 0)
          (samp_start (listOrderNodes (2 ^ 31 + 1)) (fun _ => 0) (fun _ => false) zeroed)
          (2 ^ 31 + 1) 0 = some v ∧
        v.in_samp 0 = 0 ∧ (v.samplist 0).rank = 2 ^ 31 + 1 ∧
        (v.samplist 0).rank ≠ 2 ^ 31 + 1 - 1) := by
  refine ⟨?_, ?_⟩
  · obtain ⟨-, -, -, b4, b5, -, -⟩ := after_sampling_list_order (2 ^ 32) (by norm_num)
      ⟨List.range (2 ^ 32 + 1), List.range (2 ^ 32 + 1), List.range (2 ^ 32 + 1),
        List.range (2 ^ 32 + 1)⟩ (isSchedule_range _) (isSchedule_range _) (fun _ => 0)
      (samp_start (listOrderNodes (2 ^ 32 + 1)) (fun _ => 0) (fun _ => false) zeroed) rfl 0
    rw [size_to_int_two_pow_32] at b5
    refine ⟨wf_list_order _ _ (by norm_num) (fun i _ => listOrderNodes_next _ i),
      range_head _ (by norm_num), range_getLast (2 ^ 32), by rw [b4], by rw [b5], ?_⟩
    intro fuel
    exact walks_never_return_aliased_tail (2 ^ 32) (by norm_num) (by norm_num)
      size_to_int_two_pow_32 (fun _ => 0) (fun _ => 0) (fun _ => false) fuel
  · have h := (after_sampling_list_order (2 ^ 31) (by norm_num)
      ⟨List.range (2 ^ 31 + 1), List.range (2 ^ 31 + 1), List.range (2 ^ 31 + 1),
        List.range (2 ^ 31 + 1)⟩ (isSchedule_range _) (isSchedule_range _) (fun _ => 0)
      (samp_start (listOrderNodes (2 ^ 31 + 1)) (fun _ => 0) (fun _ => false) zeroed) rfl
      0).2.2.2.2.1
    rw [size_to_int_two_pow_31] at h
    obtain ⟨v, e, v1, v2⟩ := (sampling_tail_index_negative (2 ^ 31) (by norm_num)
      (by norm_num) (by rw [size_to_int_two_pow_31]; norm_num) (fun _ => 0) (fun _ => 0)
      (fun _ => false) (2 ^ 31 + 2) (by norm_num)).1
    refine ⟨wf_list_order _ _ (by norm_num) (fun i _ => listOrderNodes_next _ i),
      range_head _ (by norm_num), range_getLast (2 ^ 31), h, v, e, v1, v2, ?_⟩
    rw [v2]
    norm_num

/-- The contraction pass in increasing index order on `m + 1 ≥ 2` nodes in list order with no
node drawn and zeroed sample-list storage, when the tail index `m` converts to a negative
`int`: the head is the only sampled node, no sampled node follows it, and its entry ends with
rank `m + 1` and a null `next`. -/
theorem after_build_tail_index_negative (m : Nat) (hm : 1 ≤ m) (hb : m + 1 < 2 ^ 64)
    (hneg : size_to_int m < 0) (draw : Nat → Nat) (in_samp0 : Nat → Int)
    (not_head0 : Nat → Bool) (fuel : Nat) (hfuel : m + 1 ≤ fuel) :
    ∃ u, after_build fuel
        ⟨List.range (m + 1), List.range (m + 1), List.range (m + 1), List.range (m + 1)⟩ draw
        (samp_start (listOrderNodes (m + 1)) in_samp0 not_head0 zeroed) (m + 1) 0 = some u ∧
      u.in_samp 0 = 0 ∧ (∀ i, 0 < i → i < m + 1 → u.in_samp i < 0) ∧
      u.samplist 0 = { next := none, rank := m + 1 } := by
  obtain ⟨a1, a2, a3, a4, a5, a6, a7⟩ := after_sampling_list_order m hm
    ⟨List.range (m + 1), List.range (m + 1), List.range (m + 1), List.range (m + 1)⟩
    (isSchedule_range _) (isSchedule_range _) draw
    (samp_start (listOrderNodes (m + 1)) in_samp0 not_head0 zeroed) rfl 0
  have hnegall : ∀ i, 0 < i → i < m + 1 → (after_sampling
      ⟨List.range (m + 1), List.range (m + 1), List.range (m + 1), List.range (m + 1)⟩ draw
      (samp_start (listOrderNodes (m + 1)) in_samp0 not_head0 zeroed) (m + 1) 0).in_samp i
      < 0 := by
    intro i hi0 hi
    by_cases him : i = m
    · rw [him, a5]; exact hneg
    · rw [a6 i hi0 (by omega)]
      have ht : sample_target (m + 1) 0 = 0 := by
        unfold sample_target; rw [if_neg (by decide)]
      rw [ht, if_neg (by omega)]
      decide
  have hbuild := build_pass_head_only m hm hb _ a1 a2 a4 hnegall (by rw [a7]; rfl) fuel hfuel
  refine ⟨_, hbuild, a4, hnegall, ?_⟩
  dsimp only
  rw [a7]
  show setRank zeroed 0 (m + 1) 0 = _
  simp [setRank, zeroed]

/-- Counterexample to C14 as stated, at two inputs.  On the two-node chain `0 → 1` both nodes
are sampled (head and tail), no unsampled node lies between them, yet after the contraction
pass (from zeroed storage) the entry of node `0` holds rank `1`, not `0`; its `next` is the
entry of node `1`.  On `2^31 + 1` nodes in list order with no node drawn the tail's index
`2^31` is stored in `in_samp` as the `int` `-2^31`, so the head is sampled and no sampled
node follows it: after the contraction pass its entry holds rank `2^31 + 1` and a null
`next`. -/
theorem C14_next_sampled_weight_is_one :
    (WellFormed (mkNodes [some 1, none]) 2 [0, 1] ∧
      (after_build 3 ⟨[0, 1], [0, 1], [0, 1], [0, 1]⟩ (fun _ => 0)
        (samp_start (mkNodes [some 1, none]) (fun _ => 0) (fun _ => false) zeroed) 2 0).map
        (fun u => (u.in_samp 0, u.in_samp 1, (u.samplist 0).rank, (u.samplist 0).next))
        = some (0, 1, 1, some 1) ∧
      ¬ ((after_build 3 ⟨[0, 1], [0, 1], [0, 1], [0, 1]⟩ (fun _ => 0)
        (samp_start (mkNodes [some 1, none]) (fun _ => 0) (fun _ => false) zeroed) 2 0).map
        (fun u => (u.samplist 0).rank) = some 0)) ∧
    (WellFormed (listOrderNodes (2 ^ 31 + 1)) (2 ^ 31 + 1) (List.range (2 ^ 31 + 1)) ∧
      ∃ u, after_build (2 ^ 31 + 1) ⟨List.range (2 ^ 31 + 1), List.range (2 ^ 31 + 1),
          List.range (2 ^ 31 + 1), List.range (2 ^ 31 + 1)⟩ (fun _ => 0)
          (samp_start (listOrderNodes (2 ^ 31 + 1)) (fun _ => 0) (fun _ => false) zeroed)
          (2 ^ 31 + 1) 0 = some u ∧
        u.in_samp 0 = 0 ∧ (∀ i, 0 < i → i < 2 ^ 31 + 1 → u.in_samp i < 0) ∧
        u.samplist 0 = { next := none, rank := 2 ^ 31 + 1 }) := by
  refine ⟨⟨by decide, by decide, by decide⟩,
    wf_list_order _ _ (by norm_num) (fun i _ => listOrderNodes_next _ i), ?_⟩
  exact after_build_tail_index_negative (2 ^ 31) (by norm_num) (by norm_num)
    (by rw [size_to_int_two_pow_31]; norm_num) (fun _ => 0) (fun _ => 0) (fun _ => false)
    (2 ^ 31 + 1) (Nat.le_refl _)

end HW1
